import Mathlib

/-!
# gorip: candidate scanner, validator and entry materializer

A shallow embedding of `section.go`, `candidate-scan.go`, `candidate.go` and
`filetree.go`, and of the rounding of the chunk size in `main.go`.

* Unsigned 64-bit values are natural numbers; every arithmetic operation of the
  source that can wrap is written with an explicit `% 2^64`.
* A byte is a natural number; decoding reduces it `% 256`.
* The byte source `SectionData.Data` (an `io.ReadSeeker`) is the explicit state
  `ReadSeeker`: the bytes of the section and the cursor.  It is threaded through
  every function that touches the cursor.  The remaining fields of the section view
  never change and form `SectionData`.
* A Go `panic` is `Except.error`; an `error` value a Go function returns is a value of
  `IoError` in the result.
* A loop is a structural recursion on the number of iterations left, or on fuel where
  the source bounds the iterations only through the loop condition.
* An allocation `make([]byte, n)` panics above the allocation limit of the runtime, taken
  as `2^48`; running out of memory below the limit is not modelled.
* The verbose-mode printing of the source has no effect on any result and is left out.
-/

namespace Gorip

/-! ## Machine integers -/

/-- Two to the power sixty-four. -/
abbrev U64 : Nat := 18446744073709551616

/-- Two to the power sixty-three. -/
abbrev I63 : Nat := 9223372036854775808

/-- Unsigned 64-bit addition. -/
def add64 (a b : Nat) : Nat := (a + b) % U64

/-- Unsigned 64-bit subtraction. -/
def sub64 (a b : Nat) : Nat := (a % U64 + (U64 - b % U64)) % U64

/-- Unsigned 64-bit multiplication. -/
def mul64 (a b : Nat) : Nat := (a * b) % U64

/-- The Go conversion `int64(x)` of an unsigned 64-bit value. -/
def toInt64 (x : Nat) : Int :=
  if x % U64 < I63 then ((x % U64 : Nat) : Int) else ((x % U64 : Nat) : Int) - (U64 : Int)

/-- The constant `MAX_FILE_SIZE int64 = 2e9` of `main.go`. -/
def MAX_FILE_SIZE : Int := 2000000000

/-- The constant `DEFAULT_CHUNK_SIZE` of `main.go`. -/
def DEFAULT_CHUNK_SIZE : Nat := 1024 * 1024 * 16

/-! ## Panics, errors, byte slices -/

/-- The ways the embedded code can panic. -/
inductive Panic where
  | invalidPointerSize
  | indexOutOfRange
  | sliceBounds
  | lenOutOfRange
  | readError
  | sizeMismatch
  | divideByZero
  | nilDereference
  | outOfFuel
deriving DecidableEq, Repr

deriving instance DecidableEq for Except

/-- The `error` values the byte source and `ReadAt` return. -/
inductive IoError where
  | EOF
  | readSizeMismatch
deriving DecidableEq, Repr

abbrev Byte := Nat

/-- The largest size the Go runtime allocates on a platform with 48 address bits, such as
linux/amd64 (`maxAlloc` of the runtime): `2^48`. -/
def maxAlloc : Nat := 281474976710656

/-- The Go expression `make([]byte, n)` for an unsigned 64-bit `n`: it panics with
`makeslice: len out of range` when `n` is above the allocation limit, and so for every
`n` that does not fit a signed length. -/
def make (n : Nat) : Except Panic (List Byte) :=
  if n ≤ maxAlloc then .ok (List.replicate n 0) else .error .lenOutOfRange

/-- The Go slice expression `b[lo:hi]` of a slice whose capacity is its length. -/
def slice (b : List Byte) (lo hi : Nat) : Except Panic (List Byte) :=
  if lo ≤ hi ∧ hi ≤ b.length then .ok ((b.drop lo).take (hi - lo)) else .error .sliceBounds

/-- The Go slice expression `b[lo:]`. -/
def sliceFrom (b : List Byte) (lo : Nat) : Except Panic (List Byte) :=
  if lo ≤ b.length then .ok (b.drop lo) else .error .sliceBounds

/-! ## Byte order (`encoding/binary`) -/

inductive ByteOrder where
  | LittleEndian
  | BigEndian
deriving DecidableEq, Repr

/-- The little-endian value of a byte string. -/
def leValue : List Byte → Nat
  | [] => 0
  | b :: bs => b % 256 + 256 * leValue bs

/-- The big-endian value of a byte string. -/
def beValue (bs : List Byte) : Nat := leValue bs.reverse

/-- The value of the first `n` bytes of `b` in the given order; `Uint32` and `Uint64`
of `encoding/binary` panic on a shorter slice. -/
def ByteOrder.uint (o : ByteOrder) (n : Nat) (b : List Byte) : Except Panic Nat :=
  if b.length < n then .error .indexOutOfRange
  else match o with
    | .LittleEndian => .ok (leValue (b.take n))
    | .BigEndian => .ok (beValue (b.take n))

def ByteOrder.Uint32 (o : ByteOrder) (b : List Byte) : Except Panic Nat := o.uint 4 b

def ByteOrder.Uint64 (o : ByteOrder) (b : List Byte) : Except Panic Nat := o.uint 8 b

/-! ## The byte source -/

/-- The state of `SectionData.Data`: the bytes of the section and the cursor.  It
behaves as the section reader the format front-ends open over the section. -/
structure ReadSeeker where
  bytes : List Byte
  off : Nat
deriving DecidableEq, Repr

/-- The call `Data.Read(p)`: fills `p` from the cursor.  At or past the end it reads nothing and
returns `EOF`; when fewer than `len(p)` bytes are left it reads them, leaves the rest of
`p` as it was, and returns `EOF`; otherwise it fills `p` and returns no error.  The
result is the byte count, the error, the buffer after the call, and the new state. -/
def ReadSeeker.Read (r : ReadSeeker) (p : List Byte) :
    Nat × Option IoError × List Byte × ReadSeeker :=
  if r.off ≥ r.bytes.length then (0, some .EOF, p, r)
  else
    let avail := r.bytes.length - r.off
    if p.length > avail then
      (avail, some .EOF, r.bytes.drop r.off ++ p.drop avail, { r with off := r.bytes.length })
    else
      (p.length, none, (r.bytes.drop r.off).take p.length, { r with off := r.off + p.length })

/-- The call `Data.Seek(offset, io.SeekStart)`: a negative offset is an error and leaves the
cursor where it was (no caller looks at the error). -/
def ReadSeeker.Seek (r : ReadSeeker) (offset : Int) : ReadSeeker :=
  if offset < 0 then r else { r with off := offset.toNat }

/-! ## `section.go` -/

structure SectionData where
  VirtualAddr : Nat
  VirtualSize : Nat
  BaseAddr : Nat
  FileOffset : Nat
  FileSize : Nat
  Ptrsz : Nat
  Order : ByteOrder
deriving DecidableEq, Repr

/-- The method `Tell`: the cursor, `Data.Seek(0, io.SeekCurrent)`. -/
def Tell (r : ReadSeeker) : Int := (r.off : Int)

def SectionData.ReadptrFrom (s : SectionData) (b : List Byte) : Except Panic Nat :=
  if s.Ptrsz = 4 then s.Order.Uint32 b
  else if s.Ptrsz = 8 then s.Order.Uint64 b
  else .error .invalidPointerSize

/-- The method `ReadAt` with `whence = io.SeekStart`, the only value a caller passes.  The deferred
`Seek(s.Tell(), io.SeekStart)` has its argument evaluated on entry and runs on every
return. -/
def SectionData.ReadAt (_s : SectionData) (r : ReadSeeker) (offset : Int) (n : Nat) :
    Except Panic ((Except IoError (List Byte)) × ReadSeeker) :=
  let saved := Tell r
  let r1 := r.Seek offset
  match make n with
  | .error e => .error e
  | .ok buffer =>
    match r1.Read buffer with
    | (read, err, buffer, r2) =>
      if err ≠ none then .ok (.error (err.getD .EOF), r2.Seek saved)
      else if read % U64 ≠ n then .ok (.error .readSizeMismatch, r2.Seek saved)
      else .ok (.ok buffer, r2.Seek saved)

def SectionData.ContainsAddr (s : SectionData) (vaddr : Nat) : Bool :=
  let base := add64 s.VirtualAddr s.BaseAddr
  decide (vaddr ≥ base) && decide (vaddr ≤ add64 base s.VirtualSize)

def TL_VirtualAddress (s : SectionData) (offset : Nat) : Nat :=
  add64 (sub64 offset s.FileOffset) (add64 s.VirtualAddr s.BaseAddr)

def TL_FileOffset (s : SectionData) (vaddr : Nat) : Nat :=
  add64 (sub64 vaddr (add64 s.VirtualAddr s.BaseAddr)) s.FileOffset

def TL_SectionOffset (s : SectionData) (vaddr : Nat) : Nat :=
  sub64 vaddr (add64 s.VirtualAddr s.BaseAddr)

/-! ## `candidate.go`: the candidate -/

structure FSCandidate where
  Addr : Nat
  RelAddr : Nat
  EntryCount : Nat
deriving DecidableEq, Repr

def FSCandidate.EntrySize (sd : SectionData) : Nat := (sd.Ptrsz * 4 + 16) % U64

structure blob where
  Addr : Nat
  Size : Nat
deriving DecidableEq, Repr

/-- File System Candidate entry.  `Name` is the string as its bytes. -/
structure FSCEntry where
  Name : List Byte
  Data : blob
  Hash : List Byte
  IsDir : Bool
deriving DecidableEq, Repr

/-- The call `copy(f.Hash[:], src)` into the zero 16-byte array. -/
def copyHash (src : List Byte) : List Byte :=
  src.take 16 ++ List.replicate (16 - min 16 src.length) 0

/-- The test `strings.HasSuffix(name, "/")`. -/
def hasSlashSuffix (name : List Byte) : Bool :=
  decide (name.getLast?.map (· % 256) = some 47)

def NewFSCEFromBuffer (b : List Byte) (s : SectionData) (r : ReadSeeker) :
    Except Panic (FSCEntry × ReadSeeker) := do
  let name_p := TL_SectionOffset s (← s.ReadptrFrom (← slice b 0 s.Ptrsz))
  let name_l ← s.ReadptrFrom (← slice b s.Ptrsz (s.Ptrsz * 2))
  let data_p := TL_SectionOffset s (← s.ReadptrFrom (← slice b (s.Ptrsz * 2) (s.Ptrsz * 3)))
  let data_l ← s.ReadptrFrom (← slice b (s.Ptrsz * 3) (s.Ptrsz * 4))
  match ← s.ReadAt r (toInt64 name_p) name_l with
  | (.error _, _) => .error .readError
  | (.ok name_b, r) =>
    let hashSrc ← sliceFrom b (s.Ptrsz * 4)
    .ok ({ Name := name_b, Data := { Addr := data_p, Size := data_l }, Hash := copyHash hashSrc,
           IsDir := hasSlashSuffix name_b }, r)

/-- The method `Entry(i)`: `none` is the `nil` returned for an index out of range. -/
def FSCandidate.Entry (c : FSCandidate) (sd : SectionData) (r : ReadSeeker) (i : Nat) :
    Except Panic (Option FSCEntry × ReadSeeker) :=
  if i ≥ c.EntryCount then .ok (none, r)
  else
    let offset := mul64 (FSCandidate.EntrySize sd) i
    let rsa := add64 offset c.RelAddr
    match sd.ReadAt r (toInt64 rsa) (FSCandidate.EntrySize sd) with
    | .error e => .error e
    | .ok (.error _, _) => .error .readError
    | .ok (.ok buf, r) =>
      match NewFSCEFromBuffer buf sd r with
      | .error e => .error e
      | .ok (entry, r) => .ok (some entry, r)

def FSCEntry.Read (f : FSCEntry) (sd : SectionData) (r : ReadSeeker) :
    Except Panic ((Except IoError (List Byte)) × ReadSeeker) :=
  sd.ReadAt r (toInt64 f.Data.Addr) f.Data.Size

/-! ## `candidate-scan.go` -/

/-- The body of the loop of `isValidCandidate`, repeated for the `remaining` entries:
the result `false` is `return false`, running through all entries is `return true`; a
failed `Read` panics. -/
def isValidCandidateLoop (s : SectionData) :
    Nat → List Byte → ReadSeeker → Except Panic (Bool × ReadSeeker)
  | 0, _, r => .ok (true, r)
  | remaining + 1, entry, r =>
    match r.Read entry with
    | (_, err, entry, r) =>
      if err ≠ none then .error .readError
      else do
        let name_p ← s.ReadptrFrom (← slice entry 0 s.Ptrsz)
        let name_l ← s.ReadptrFrom (← slice entry s.Ptrsz (s.Ptrsz * 2))
        let data_p ← s.ReadptrFrom (← slice entry (s.Ptrsz * 2) (s.Ptrsz * 3))
        let data_l ← s.ReadptrFrom (← slice entry (s.Ptrsz * 3) (s.Ptrsz * 4))
        if name_l > 255 ∨ name_l = 0 then
          .ok (false, r)
        else if !s.ContainsAddr name_p || (!s.ContainsAddr data_p && data_p != 0) then
          .ok (false, r)
        else if toInt64 data_l > MAX_FILE_SIZE then
          .ok (false, r)
        else
          isValidCandidateLoop s remaining entry r

/-- The function `isValidCandidate`.  The deferred `Seek(s.Tell(), io.SeekStart)` has its argument
evaluated on entry and runs when the function returns. -/
def isValidCandidate (s : SectionData) (r : ReadSeeker) (c : FSCandidate) :
    Except Panic (Bool × ReadSeeker) :=
  let saved := Tell r
  let entry_sz := s.Ptrsz * 4 + 16
  match make entry_sz with
  | .error e => .error e
  | .ok entry =>
    let offset := TL_SectionOffset s c.Addr
    let r1 := r.Seek (toInt64 offset)
    match isValidCandidateLoop s c.EntryCount entry r1 with
    | .error e => .error e
    | .ok (b, r2) => .ok (b, r2.Seek saved)

/-- The body of the loop of `candidateScan` at offset `i`: `none` is `continue`, `some c`
is the candidate appended. -/
def candidateScanAt (sd : SectionData) (buffer : List Byte) (chunkOffset : Nat)
    (r : ReadSeeker) (i : Nat) : Except Panic (Option FSCandidate × ReadSeeker) := do
  let patternLength := sd.Ptrsz * 3
  let addr ← sd.ReadptrFrom (← slice buffer i (i + sd.Ptrsz))
  let s1 ← sd.ReadptrFrom (← slice buffer (i + sd.Ptrsz) (i + sd.Ptrsz * 2))
  let s2 ← sd.ReadptrFrom (← slice buffer (i + sd.Ptrsz * 2) (i + sd.Ptrsz * 3))
  if s1 ≠ s2 ∨ s1 = 0 ∨ addr = 0 then
    .ok (none, r)
  else if !sd.ContainsAddr addr then
    .ok (none, r)
  else
    let curFileOffset := add64 (add64 sd.FileOffset chunkOffset) i
    if addr ≠ TL_VirtualAddress sd (add64 curFileOffset patternLength) then
      .ok (none, r)
    else
      let c : FSCandidate := { Addr := addr, EntryCount := s1, RelAddr := TL_SectionOffset sd addr }
      match isValidCandidate sd r c with
      | .error e => .error e
      | .ok (valid, r) => if !valid then .ok (none, r) else .ok (some c, r)

/-- The loop of `candidateScan`, from offset `i` on, with the candidates found so far.
One unit of fuel is one evaluation of the loop condition. -/
def candidateScanLoop (sd : SectionData) (buffer : List Byte) (chunkOffset : Nat) :
    Nat → Nat → ReadSeeker → List FSCandidate → Except Panic (List FSCandidate × ReadSeeker)
  | 0, _, _, _ => .error .outOfFuel
  | fuel + 1, i, r, candidates =>
    let patternLength := sd.Ptrsz * 3
    let buflen := buffer.length
    if (i : Int) < (buflen : Int) - (patternLength : Int) then
      match candidateScanAt sd buffer chunkOffset r i with
      | .error e => .error e
      | .ok (none, r) => candidateScanLoop sd buffer chunkOffset fuel (i + sd.Ptrsz) r candidates
      | .ok (some c, r) =>
        candidateScanLoop sd buffer chunkOffset fuel (i + sd.Ptrsz) r (candidates ++ [c])
    else .ok (candidates, r)

/-- The function `candidateScan`.  The loop condition is evaluated at most `len(buffer) + 1` times:
the offset grows by the pointer size, and a pointer size of zero panics in the first
`ReadptrFrom`. -/
def candidateScan (sd : SectionData) (buffer : List Byte) (chunkOffset : Nat)
    (r : ReadSeeker) : Except Panic (List FSCandidate × ReadSeeker) :=
  candidateScanLoop sd buffer chunkOffset (buffer.length + 1) 0 r []

def findCandidatesUnChunked (sd : SectionData) (r : ReadSeeker) :
    Except Panic (List FSCandidate × ReadSeeker) :=
  match make sd.FileSize with
  | .error e => .error e
  | .ok buffer =>
    match r.Read buffer with
    | (br, err, buffer, r) =>
      if err ≠ none then .error .readError
      else if br % U64 ≠ sd.FileSize then .error .sizeMismatch
      else candidateScan sd buffer 0 r

/-- The loop of `findCandidatesChunked` for the `remaining` values of `idx` below the
bound `(sd.FileSize/chunk_cap)+1`.  The byte source returns no error other than `EOF`,
so the `panic(err)` of the loop is never reached. -/
def findCandidatesChunkedLoop (sd : SectionData) (chunk_cap : Nat) :
    Nat → Nat → List Byte → ReadSeeker → List FSCandidate → Nat →
      Except Panic (List FSCandidate × Nat × ReadSeeker)
  | 0, _, _, r, candidates, read_total => .ok (candidates, read_total, r)
  | remaining + 1, idx, chunk_buf, r, candidates, read_total =>
    match r.Read chunk_buf with
    | (read, err, chunk_buf, r) =>
      let read_total := read_total + read
      let chunk_offset := mul64 chunk_cap idx
      match candidateScan sd chunk_buf chunk_offset r with
      | .error e => .error e
      | .ok (found, r) =>
        let candidates := candidates ++ found
        if read = 0 ∨ err = some .EOF then .ok (candidates, read_total, r)
        else findCandidatesChunkedLoop sd chunk_cap remaining (idx + 1) chunk_buf r candidates
          read_total

/-- The function `findCandidatesChunked`, with the global `flagChunkSize` as a parameter. -/
def findCandidatesChunked (flagChunkSize : Nat) (sd : SectionData) (r : ReadSeeker) :
    Except Panic (List FSCandidate × ReadSeeker) :=
  let chunk_cap := flagChunkSize
  match make chunk_cap with
  | .error e => .error e
  | .ok chunk_buf =>
    if chunk_cap = 0 then .error .divideByZero
    else
      let bound := (sd.FileSize / chunk_cap + 1) % U64
      match findCandidatesChunkedLoop sd chunk_cap bound 0 chunk_buf r [] 0 with
      | .error e => .error e
      | .ok (candidates, read_total, r) =>
        if read_total % U64 ≠ sd.FileSize then .error .sizeMismatch
        else .ok (candidates, r)

/-- The function `findCandidates`, with the global `flagChunkSize` as a parameter. -/
def findCandidates (flagChunkSize : Nat) (sd : SectionData) (r : ReadSeeker) :
    Except Panic (List FSCandidate × ReadSeeker) :=
  if sd.FileSize ≥ flagChunkSize then findCandidatesChunked flagChunkSize sd r
  else findCandidatesUnChunked sd r

/-! ## Specification-side definitions -/

/-- The pointer-sized word of `b` at offset `i`, in the section's byte order. -/
def SectionData.word (s : SectionData) (b : List Byte) (i : Nat) : Nat :=
  match s.Order with
  | .LittleEndian => leValue ((b.drop i).take s.Ptrsz)
  | .BigEndian => beValue ((b.drop i).take s.Ptrsz)

/-- The verdict of the validator's three tests on the record at byte offset `pos`. -/
def recordOk (s : SectionData) (bytes : List Byte) (pos : Nat) : Bool :=
  let name_p := s.word bytes pos
  let name_l := s.word bytes (pos + s.Ptrsz)
  let data_p := s.word bytes (pos + s.Ptrsz * 2)
  let data_l := s.word bytes (pos + s.Ptrsz * 3)
  if name_l > 255 ∨ name_l = 0 then false
  else if !s.ContainsAddr name_p || (!s.ContainsAddr data_p && data_p != 0) then false
  else if toInt64 data_l > MAX_FILE_SIZE then false
  else true

/-- The verdict of the validator on `n` consecutive records from byte offset `pos`:
`none` when it reaches a record that cannot be read whole before it has rejected. -/
def recordsValid (s : SectionData) (bytes : List Byte) : Nat → Nat → Option Bool
  | 0, _ => some true
  | n + 1, pos =>
    if pos + (s.Ptrsz * 4 + 16) ≤ bytes.length then
      if recordOk s bytes pos then recordsValid s bytes n (pos + (s.Ptrsz * 4 + 16))
      else some false
    else none

/-- The byte offset the validator starts reading at. -/
def validatorStart (s : SectionData) (r : ReadSeeker) (c : FSCandidate) : Nat :=
  (r.Seek (toInt64 (TL_SectionOffset s c.Addr))).off

/-- The verdict of the validator on a candidate, `none` when it panics. -/
def validAt (s : SectionData) (r : ReadSeeker) (c : FSCandidate) : Option Bool :=
  recordsValid s r.bytes c.EntryCount (validatorStart s r c)

/-- The header tests of the scanner at offset `i` of the buffer, in the words of the
specification: the three words are `addr`, `s1`, `s2`; the position is a raw hit when
`s1 == s2`, `s1 > 0`, `addr != 0`, the section contains `addr`, and `addr` is the virtual
address of the byte that follows the header. -/
def rawHit (sd : SectionData) (buffer : List Byte) (chunkOffset i : Nat) : Option FSCandidate :=
  let addr := sd.word buffer i
  let s1 := sd.word buffer (i + sd.Ptrsz)
  let s2 := sd.word buffer (i + sd.Ptrsz * 2)
  if s1 = s2 ∧ s1 > 0 ∧ addr ≠ 0 ∧ sd.ContainsAddr addr = true ∧
      addr = TL_VirtualAddress sd
        (add64 (add64 (add64 sd.FileOffset chunkOffset) i) (sd.Ptrsz * 3)) then
    some { Addr := addr, EntryCount := s1, RelAddr := TL_SectionOffset sd addr }
  else none

/-- The offsets at which the loop header of `candidateScan` lets the body run. -/
def loopOffsets (p n : Nat) : Nat → Nat → List Nat
  | 0, _ => []
  | fuel + 1, i =>
    if (i : Int) < (n : Int) - ((p * 3 : Nat) : Int) then i :: loopOffsets p n fuel (i + p)
    else []

/-- The offsets `candidateScan` visits in a buffer of `n` bytes with pointer size `p`:
the multiples of `p` with `i + 3 * p < n`, in ascending order. -/
def scanOffsets (p n : Nat) : List Nat :=
  (List.range n).filter (fun i => decide (i % p = 0) && decide (i + 3 * p < n))

/-- The scan over a list of offsets: `none` when the validator panics at a raw hit. -/
def scanRun (sd : SectionData) (buffer : List Byte) (chunkOffset : Nat) (r : ReadSeeker) :
    List Nat → Option (List FSCandidate)
  | [] => some []
  | i :: is =>
    match rawHit sd buffer chunkOffset i with
    | none => scanRun sd buffer chunkOffset r is
    | some c =>
      match validAt sd r c with
      | none => none
      | some b => (scanRun sd buffer chunkOffset r is).map (fun l => if b then c :: l else l)

/-- The candidate the scan emits at offset `i`, if any. -/
def emittedAt (sd : SectionData) (buffer : List Byte) (chunkOffset : Nat) (r : ReadSeeker)
    (i : Nat) : Option FSCandidate :=
  (rawHit sd buffer chunkOffset i).filter (fun c => validAt sd r c = some true)

/-- The candidate the body of the scan loop appends at offset `i`, if it appends one. -/
def appendedAt (sd : SectionData) (buffer : List Byte) (chunkOffset : Nat) (r : ReadSeeker)
    (i : Nat) : Option FSCandidate :=
  match candidateScanAt sd buffer chunkOffset r i with
  | .ok (some c, _) => some c
  | _ => none

/-- What the scan checks of every candidate it emits. -/
def CandidateOk (sd : SectionData) (c : FSCandidate) : Prop :=
  sd.ContainsAddr c.Addr = true ∧ 1 ≤ c.EntryCount ∧
    c.RelAddr = sub64 c.Addr (add64 sd.VirtualAddr sd.BaseAddr)

/-- The candidate the scan emits for a header at byte offset `j` of the section bytes. -/
def emitAtByte (sd : SectionData) (bytes : List Byte) (j : Nat) : Option FSCandidate :=
  emittedAt sd bytes 0 { bytes := bytes, off := 0 } j

/-- The byte offsets of the section the chunked scan visits with chunk size `t`, over
`rem` chunks from chunk `idx` on: in every chunk the offsets the scan of a `t`-byte buffer
visits, as long as the header at the offset ends before the end of the `n` section bytes;
the loop goes on to the next chunk while the chunk was read whole. -/
def chunkedOffsets (p t n : Nat) : Nat → Nat → List Nat
  | 0, _ => []
  | rem + 1, idx =>
    ((scanOffsets p t).map (t * idx + ·)).filter (fun j => decide (j + 3 * p < n)) ++
      (if t * idx + t ≤ n then chunkedOffsets p t n rem (idx + 1) else [])

/-- The header of a candidate starts `3 * ptr_size` bytes before its entry table; the
predicate says that the header lies in one chunk of size `t` and ends before the end of
the chunk. -/
def headerInsideChunk (sd : SectionData) (t : Nat) (c : FSCandidate) : Bool :=
  decide ((c.RelAddr - 3 * sd.Ptrsz) % t + 3 * sd.Ptrsz < t)

/-! ## A small section used to run the definitions

A 32-bit little-endian section of 48 bytes at virtual address `0x1000`: a header
`(0x100c, 1, 1)`, one entry whose name is the byte `a` at offset 44, no data. -/

def demoSection : SectionData :=
  { VirtualAddr := 4096, VirtualSize := 48, BaseAddr := 0, FileOffset := 512, FileSize := 48,
    Ptrsz := 4, Order := .LittleEndian }

/-- The four bytes of a 32-bit value, least significant first. -/
def le32 (x : Nat) : List Byte :=
  [x % 256, x / 256 % 256, x / 65536 % 256, x / 16777216 % 256]

/-- The eight bytes of a 64-bit value, least significant first. -/
def le64 (x : Nat) : List Byte := le32 (x % 4294967296) ++ le32 (x / 4294967296)

/-- The content hash used in the examples: the bytes 1 to 16. -/
def demoHash : List Byte := (List.range 16).map (· + 1)

def demoBytes : List Byte :=
  le32 4108 ++ le32 1 ++ le32 1 ++
  le32 4140 ++ le32 1 ++ le32 0 ++ le32 0 ++ demoHash ++
  [97, 0, 0, 0]

/-- The byte source of the demo section, cursor at the start. -/
def demoReader : ReadSeeker := { bytes := demoBytes, off := 0 }

/-- The byte source of the demo section after the whole section has been read. -/
def demoReaderEnd : ReadSeeker := { bytes := demoBytes, off := 48 }

/-- The candidate of the demo section. -/
def demoCandidate : FSCandidate := { Addr := 4108, RelAddr := 12, EntryCount := 1 }

/-! A 64-bit little-endian section of 80 bytes at virtual address `0x2000`: a header
`(0x2018, 1, 1)`, one entry whose name is the byte `a` at offset 72, whose data pointer
is zero and whose data length is `2^63`. -/

def wideSection : SectionData :=
  { VirtualAddr := 8192, VirtualSize := 80, BaseAddr := 0, FileOffset := 1024, FileSize := 80,
    Ptrsz := 8, Order := .LittleEndian }

def wideBytes : List Byte :=
  le64 8216 ++ le64 1 ++ le64 1 ++
  le64 8264 ++ le64 1 ++ le64 0 ++ le64 9223372036854775808 ++ demoHash ++
  [97] ++ List.replicate 7 0

def wideReader : ReadSeeker := { bytes := wideBytes, off := 0 }

def wideReaderEnd : ReadSeeker := { bytes := wideBytes, off := 80 }

def wideCandidate : FSCandidate := { Addr := 8216, RelAddr := 24, EntryCount := 1 }

/-! A 32-bit little-endian section of 92 bytes at virtual address `0x1000` with two
embedded filesystems of one entry each: headers at offsets 0 and 44, names `a` and `b`
at offsets 88 and 89. -/

def pairSection : SectionData :=
  { VirtualAddr := 4096, VirtualSize := 92, BaseAddr := 0, FileOffset := 512, FileSize := 92,
    Ptrsz := 4, Order := .LittleEndian }

def pairBytes : List Byte :=
  le32 4108 ++ le32 1 ++ le32 1 ++
  le32 4184 ++ le32 1 ++ le32 0 ++ le32 0 ++ List.replicate 16 0 ++
  le32 4152 ++ le32 1 ++ le32 1 ++
  le32 4185 ++ le32 1 ++ le32 0 ++ le32 0 ++ List.replicate 16 0 ++
  [97, 98, 0, 0]

def pairReader : ReadSeeker := { bytes := pairBytes, off := 0 }

def pairReaderEnd : ReadSeeker := { bytes := pairBytes, off := 92 }

def pairCandidates : List FSCandidate :=
  [{ Addr := 4108, RelAddr := 12, EntryCount := 1 },
   { Addr := 4152, RelAddr := 56, EntryCount := 1 }]

/-! A 32-bit little-endian section of 56 bytes at virtual address `0x1000`: eight zero
bytes, a header `(0x1014, 1, 1)` at offset 8, its entry at offset 20, the name `a` at
offset 52.  With a chunk size of 16 the header straddles the first chunk boundary. -/

def straddleSection : SectionData :=
  { VirtualAddr := 4096, VirtualSize := 56, BaseAddr := 0, FileOffset := 512, FileSize := 56,
    Ptrsz := 4, Order := .LittleEndian }

def straddleBytes : List Byte :=
  List.replicate 8 0 ++
  le32 4116 ++ le32 1 ++ le32 1 ++
  le32 4148 ++ le32 1 ++ le32 0 ++ le32 0 ++ List.replicate 16 0 ++
  [97, 0, 0, 0]

def straddleReader : ReadSeeker := { bytes := straddleBytes, off := 0 }

def straddleReaderEnd : ReadSeeker := { bytes := straddleBytes, off := 56 }

def straddleCandidate : FSCandidate := { Addr := 4116, RelAddr := 20, EntryCount := 1 }

/-! A section view whose address range wraps past `2^64`. -/

def wrapSection : SectionData :=
  { VirtualAddr := 18446744073709551615, VirtualSize := 1, BaseAddr := 0, FileOffset := 0,
    FileSize := 1, Ptrsz := 8, Order := .LittleEndian }

/-! A 32-bit section that is exactly one header `(0x100c, 1, 1)`. -/

def headerOnlySection : SectionData :=
  { VirtualAddr := 4096, VirtualSize := 12, BaseAddr := 0, FileOffset := 512, FileSize := 12,
    Ptrsz := 4, Order := .LittleEndian }

def headerOnlyBytes : List Byte := le32 4108 ++ le32 1 ++ le32 1

def headerOnlyReader : ReadSeeker := { bytes := headerOnlyBytes, off := 0 }

def headerOnlyReaderEnd : ReadSeeker := { bytes := headerOnlyBytes, off := 12 }

/-! ## `main.go`: the chunk size -/

/-- The statement `flagChunkSize += flagChunkSize % 2` of `init`, on the unsigned 64-bit
chunk size the user supplied. -/
def effectiveChunkSize (c : Nat) : Nat := add64 c (c % 2)

/-! ## `section.go`: `ReadAt` with any `whence` -/

/-- The 64-bit two's-complement value of an integer: the result of an `int64` sum. -/
def wrapInt64 (x : Int) : Int := (x + (I63 : Int)) % (U64 : Int) - (I63 : Int)

/-- The call `Data.Seek(offset, whence)` on the section reader, whose base is 0 and whose limit
is `2^63 - 1`: `whence` 0 is `io.SeekStart`, 1 is `io.SeekCurrent`, 2 is `io.SeekEnd`;
any other value is an error and leaves the cursor where it was, as does a negative
target. -/
def ReadSeeker.SeekWhence (r : ReadSeeker) (offset : Int) (whence : Int) : ReadSeeker :=
  if whence = 0 then r.Seek offset
  else if whence = 1 then r.Seek (wrapInt64 (offset + (r.off : Int)))
  else if whence = 2 then r.Seek (wrapInt64 (offset + 9223372036854775807))
  else r

/-- The method `ReadAt` with its `whence` parameter. -/
def SectionData.ReadAtWhence (_s : SectionData) (r : ReadSeeker) (offset : Int) (n : Nat)
    (whence : Int) : Except Panic ((Except IoError (List Byte)) × ReadSeeker) :=
  let saved := Tell r
  let r1 := r.SeekWhence offset whence
  match make n with
  | .error e => .error e
  | .ok buffer =>
    match r1.Read buffer with
    | (read, err, buffer, r2) =>
      if err ≠ none then .ok (.error (err.getD .EOF), r2.Seek saved)
      else if read % U64 ≠ n then .ok (.error .readSizeMismatch, r2.Seek saved)
      else .ok (.ok buffer, r2.Seek saved)

/-! The first 16 bytes of the demo section: the header `(0x100c, 1, 1)` and the first four
bytes of its entry, so that the entry table runs past the end of the section. -/

def cutSection : SectionData :=
  { VirtualAddr := 4096, VirtualSize := 16, BaseAddr := 0, FileOffset := 512, FileSize := 16,
    Ptrsz := 4, Order := .LittleEndian }

def cutBytes : List Byte := demoBytes.take 16

def cutReader : ReadSeeker := { bytes := cutBytes, off := 0 }

/-! A section without bytes. -/

def emptySection : SectionData :=
  { VirtualAddr := 4096, VirtualSize := 0, BaseAddr := 0, FileOffset := 512, FileSize := 0,
    Ptrsz := 4, Order := .LittleEndian }

def emptyReader : ReadSeeker := { bytes := [], off := 0 }

/-! A 32-bit little-endian section of 78 bytes at virtual address `0x1000`: a header
`(0x100c, 2, 2)` and two entries.  The first, named `a`, has no data and its data pointer
is the address of the end of the section; the second, named `b`, has a zero data pointer
and a data length of 1. -/

def blobSection : SectionData :=
  { VirtualAddr := 4096, VirtualSize := 78, BaseAddr := 0, FileOffset := 512, FileSize := 78,
    Ptrsz := 4, Order := .LittleEndian }

def blobBytes : List Byte :=
  le32 4108 ++ le32 2 ++ le32 2 ++
  le32 4172 ++ le32 1 ++ le32 4174 ++ le32 0 ++ demoHash ++
  le32 4173 ++ le32 1 ++ le32 0 ++ le32 1 ++ demoHash ++
  [97, 98]

def blobReader : ReadSeeker := { bytes := blobBytes, off := 0 }

def blobCandidate : FSCandidate := { Addr := 4108, RelAddr := 12, EntryCount := 2 }

/-- An entry of the examples: a one-byte name, the data blob `(addr, size)`, the hash of the
examples; not a directory. -/
def blobEntry (name addr size : Nat) : FSCEntry :=
  { Name := [name], Data := { Addr := addr, Size := size }, Hash := demoHash, IsDir := false }

/-! ## `candidate.go`: all entries of a candidate -/

/-- The loop of `Entries` for the `remaining` indices from `i` on, with the entries
collected so far. -/
def FSCandidate.EntriesLoop (c : FSCandidate) (sd : SectionData) :
    Nat → Nat → ReadSeeker → List FSCEntry → Except Panic (List FSCEntry × ReadSeeker)
  | 0, _, r, entries => .ok (entries, r)
  | remaining + 1, i, r, entries =>
    match c.Entry sd r i with
    | .error e => .error e
    | .ok (none, r) => FSCandidate.EntriesLoop c sd remaining (i + 1) r entries
    | .ok (some e, r) => FSCandidate.EntriesLoop c sd remaining (i + 1) r (entries ++ [e])

/-- The method `Entries`: the loop runs for the indices `0` to `EntryCount - 1`. -/
def FSCandidate.Entries (c : FSCandidate) (sd : SectionData) (r : ReadSeeker) :
    Except Panic (List FSCEntry × ReadSeeker) :=
  c.EntriesLoop sd c.EntryCount 0 r []

/-- The entry the specification describes for the record at byte offset `pos` of the
section bytes: the name is the `name_len` bytes at `sec_of(name_ptr)`, the data blob is
`(sec_of(data_ptr), data_len)`, the hash is the 16 bytes after the four words, and the
entry is a directory when the name ends in a slash. -/
def recordEntry (sd : SectionData) (bytes : List Byte) (pos : Nat) : FSCEntry :=
  let name := (bytes.drop (TL_SectionOffset sd (sd.word bytes pos))).take
    (sd.word bytes (pos + sd.Ptrsz))
  { Name := name,
    Data := { Addr := TL_SectionOffset sd (sd.word bytes (pos + sd.Ptrsz * 2)),
              Size := sd.word bytes (pos + sd.Ptrsz * 3) },
    Hash := (bytes.drop (pos + sd.Ptrsz * 4)).take 16,
    IsDir := hasSlashSuffix name }

/-! ## `filetree.go` -/

/-- TreeNode represents a node in the file tree.  `Children` is the map from component
names to nodes, as the list of its key/value pairs; a map holds a key once. -/
inductive TreeNode where
  | mk (Name : List Byte) (IsDir : Bool) (Entry : FSCEntry)
      (Children : List (List Byte × TreeNode)) : TreeNode

def TreeNode.Name : TreeNode → List Byte
  | .mk name _ _ _ => name

def TreeNode.IsDir : TreeNode → Bool
  | .mk _ isDir _ _ => isDir

def TreeNode.Entry : TreeNode → FSCEntry
  | .mk _ _ entry _ => entry

def TreeNode.Children : TreeNode → List (List Byte × TreeNode)
  | .mk _ _ _ children => children

/-- FileTree represents the entire file tree. -/
structure FileTree where
  Root : TreeNode

/-- The zero value `FSCEntry{}`. -/
def zeroEntry : FSCEntry :=
  { Name := [], Data := { Addr := 0, Size := 0 }, Hash := List.replicate 16 0, IsDir := false }

/-- NewFileTree creates a new file tree with a root node named `/`. -/
def NewFileTree : FileTree :=
  { Root := .mk [47] true zeroEntry [] }

/-- The call `strings.Split(s, "/")`: the pieces of `s` between the slashes (byte 47); there
is one piece more than there are slashes. -/
def splitSlash : List Byte → List (List Byte)
  | [] => [[]]
  | b :: bs =>
    if b = 47 then [] :: splitSlash bs
    else
      match splitSlash bs with
      | [] => [[b]]
      | c :: cs => (b :: c) :: cs

/-- The map read `m[key]`: `none` when the key is absent. -/
def mapGet : List (List Byte × TreeNode) → List Byte → Option TreeNode
  | [], _ => none
  | (k, v) :: rest, key => if k = key then some v else mapGet rest key

/-- The map write `m[key] = v`: the value of an existing key is replaced, a new key is
added. -/
def mapSet : List (List Byte × TreeNode) → List Byte → TreeNode → List (List Byte × TreeNode)
  | [], key, v => [(key, v)]
  | (k, c) :: rest, key, v => if k = key then (k, v) :: rest else (k, c) :: mapSet rest key v

/-- The loop of `Insert` over the remaining components, from `currentNode` on.  The source
walks down through pointers and changes the tree in place; the result here is
`currentNode` after the loop, with the child for the component (the existing one, or the
new node) in the state the rest of the loop leaves it in. -/
def insertFrom (f : FSCEntry) : List (List Byte) → TreeNode → TreeNode
  | [], currentNode => currentNode
  | component :: rest, currentNode =>
    if component = [] then insertFrom f rest currentNode
    else
      let childNode :=
        match mapGet currentNode.Children component with
        | some childNode => childNode
        | none => TreeNode.mk component f.IsDir f []
      TreeNode.mk currentNode.Name currentNode.IsDir currentNode.Entry
        (mapSet currentNode.Children component (insertFrom f rest childNode))

/-- Insert inserts a new file or directory into the file tree. -/
def FileTree.Insert (ft : FileTree) (f : FSCEntry) : FileTree :=
  { Root := insertFrom f (splitSlash f.Name) ft.Root }

/-- The order of Go strings: byte by byte, a proper prefix first. -/
def strLess : List Byte → List Byte → Bool
  | [], [] => false
  | [], _ :: _ => true
  | _ :: _, [] => false
  | a :: as, b :: bs => if a < b then true else if b < a then false else strLess as bs

/-- One step of an insertion sort by `strLess`. -/
def insertSorted (k : List Byte) : List (List Byte) → List (List Byte)
  | [] => [k]
  | x :: xs => if strLess x k then x :: insertSorted k xs else k :: x :: xs

/-- The call `sort.Strings(keys)`: the keys in ascending order. -/
def sortStrings (keys : List (List Byte)) : List (List Byte) :=
  keys.foldr insertSorted []

/-- The function `PrintTreeSorted`; the result is the content of `writer` after the call.  The
fuel bounds the depth of the recursion: one unit per level of the tree. -/
def PrintTreeSorted : Nat → TreeNode → List Byte → List Byte → Except Panic (List Byte)
  | 0, _, _, _ => .error .outOfFuel
  | fuel + 1, node, indent, writer =>
    let writer := writer ++ (indent ++ node.Name)
    let writer := if node.IsDir && node.Name != [47] then writer ++ [47, 10] else writer ++ [10]
    let keys := sortStrings (node.Children.map Prod.fst)
    keys.foldlM (fun writer key =>
      match mapGet node.Children key with
      | none => .error .nilDereference
      | some child => PrintTreeSorted fuel child (indent ++ [32]) writer) writer

/-- The number of levels of a tree. -/
def TreeNode.height : TreeNode → Nat
  | .mk _ _ _ children => 1 + heightList children
where
  /-- The largest height among the children of a map. -/
  heightList : List (List Byte × TreeNode) → Nat
  | [] => 0
  | (_, child) :: rest => max (TreeNode.height child) (heightList rest)

/-- The bytes of an ASCII string. -/
def strBytes (s : String) : List Byte := s.toList.map Char.toNat

/-- An entry of the given name as `NewFSCEFromBuffer` builds it, without data. -/
def namedEntry (name : String) : FSCEntry :=
  { Name := strBytes name, Data := { Addr := 0, Size := 0 }, Hash := demoHash,
    IsDir := hasSlashSuffix (strBytes name) }

/-- The tree after the entries have been inserted, in the order of the list, into a fresh
tree. -/
def treeOf (entries : List FSCEntry) : FileTree :=
  entries.foldl FileTree.Insert NewFileTree

/-! ## The tree listing, in the words of the specification -/

/-- One step of an insertion sort of key/value pairs by `strLess` on the keys. -/
def insertByKey {β : Type} (p : List Byte × β) : List (List Byte × β) → List (List Byte × β)
  | [] => [p]
  | x :: xs => if strLess x.1 p.1 then x :: insertByKey p xs else p :: x :: xs

/-- The key/value pairs in ascending order of their keys. -/
def sortByKey {β : Type} (ps : List (List Byte × β)) : List (List Byte × β) :=
  ps.foldr insertByKey []

/-- The nodes of a tree in pre-order, each with its depth: the node itself, then the
subtrees of its children, one level deeper, in ascending order of the children's keys. -/
def TreeNode.preorder : TreeNode → Nat → List (Nat × TreeNode)
  | .mk name isDir entry children, depth =>
    (depth, .mk name isDir entry children) ::
      ((sortByKey (subtrees children depth)).map Prod.snd).flatten
where
  /-- The pre-order listing of every child of a map, with the child's key. -/
  subtrees : List (List Byte × TreeNode) → Nat → List (List Byte × List (Nat × TreeNode))
  | [], _ => []
  | (key, child) :: rest, depth =>
    (key, TreeNode.preorder child (depth + 1)) :: subtrees rest depth

/-- The line of a node at depth `d`: one space per level, the name, a slash for a
directory other than the root, and the end of the line. -/
def nodeLine (d : Nat) (node : TreeNode) : List Byte :=
  List.replicate d 32 ++ node.Name ++
    (if node.IsDir && node.Name != [47] then [47, 10] else [10])

/-- The lines of a listing, one after the other. -/
def listingBytes (l : List (Nat × TreeNode)) : List Byte :=
  (l.map (fun p => nodeLine p.1 p.2)).flatten

/-- What `Insert` establishes for every node below the root, given the property `E` of
the entries inserted: the keys of a map are distinct, and a child stored under a key
has the key as its name, which is a non-empty component, without a slash, of the name of
the entry that created the node; the node has this entry's directory flag. -/
inductive GoodTree (E : FSCEntry → Prop) : TreeNode → Prop where
  | mk (name : List Byte) (isDir : Bool) (entry : FSCEntry)
      (children : List (List Byte × TreeNode))
      (hkeys : (children.map Prod.fst).Nodup)
      (hchild : ∀ k c, (k, c) ∈ children →
        c.Name = k ∧ k ≠ [] ∧ 47 ∉ k ∧ c.IsDir = c.Entry.IsDir ∧ E c.Entry ∧
          k ∈ splitSlash c.Entry.Name)
      (hrec : ∀ k c, (k, c) ∈ children → GoodTree E c) :
      GoodTree E (.mk name isDir entry children)

/-! A 32-bit little-endian section of 52 bytes at virtual address `0x1000`: four zero
bytes, a header `(0x1010, 1, 1)` at offset 4, its entry at offset 16, the name `a` at
offset 48.  With a chunk size of 48 the second read brings 4 bytes, and the rest of the
chunk buffer still holds the bytes 4 to 48 of the first chunk, the header among them. -/

def staleSection : SectionData :=
  { VirtualAddr := 4096, VirtualSize := 52, BaseAddr := 0, FileOffset := 512, FileSize := 52,
    Ptrsz := 4, Order := .LittleEndian }

def staleBytes : List Byte :=
  List.replicate 4 0 ++
  le32 4112 ++ le32 1 ++ le32 1 ++
  le32 4144 ++ le32 1 ++ le32 0 ++ le32 0 ++ demoHash ++
  [97, 0, 0, 0]

def staleReader : ReadSeeker := { bytes := staleBytes, off := 0 }

def staleReaderEnd : ReadSeeker := { bytes := staleBytes, off := 52 }

def staleCandidate : FSCandidate := { Addr := 4112, RelAddr := 16, EntryCount := 1 }

/-- The chunk buffer of the example after the second, short read: the last four bytes of
the section, then what the first read left in the buffer. -/
def staleBuffer : List Byte := staleBytes.drop 48 ++ (staleBytes.take 48).drop 4

/-! ## The entry that creates a node -/

/-- The path of an entry: the non-empty components of its name, the ones the loop of
`Insert` does not skip. -/
def components (f : FSCEntry) : List (List Byte) :=
  (splitSlash f.Name).filter (fun c => decide (c ≠ []))

/-- Whether the path `l` starts with the path `path`. -/
def startsWith : List (List Byte) → List (List Byte) → Bool
  | _, [] => true
  | [], _ :: _ => false
  | a :: l, b :: path => decide (a = b) && startsWith l path

/-- The node reached from `node` by following the path through the maps of children. -/
def nodeAt : TreeNode → List (List Byte) → Option TreeNode
  | node, [] => some node
  | node, key :: rest =>
    match mapGet node.Children key with
    | none => none
    | some child => nodeAt child rest

/-- The entry whose insertion creates the node at `path`: the first entry, in the order of
insertion, whose path starts with `path`. -/
def creator (entries : List FSCEntry) (path : List (List Byte)) : Option FSCEntry :=
  entries.find? (fun f => startsWith (components f) path)

/-- The name, the directory flag and the entry of a node. -/
def nodeInfo (node : TreeNode) : List Byte × Bool × FSCEntry :=
  (node.Name, node.IsDir, node.Entry)

/-- The nodes of a tree in pre-order, each with its path from the root of the listing:
the node itself, then the subtrees of its children in ascending order of their keys, the
path of a child being the path of the node followed by the child's key. -/
def TreeNode.preorderPaths : TreeNode → List (List Byte) →
    List (List (List Byte) × TreeNode)
  | .mk name isDir entry children, path =>
    (path, .mk name isDir entry children) ::
      ((sortByKey (subtreePaths children path)).map Prod.snd).flatten
where
  /-- The listing with paths of every child of a map, with the child's key. -/
  subtreePaths : List (List Byte × TreeNode) → List (List Byte) →
      List (List Byte × List (List (List Byte) × TreeNode))
  | [], _ => []
  | (key, child) :: rest, path =>
    (key, TreeNode.preorderPaths child (path ++ [key])) :: subtreePaths rest path

/-! ## Arithmetic -/

theorem make_ok {n : Nat} (h : n ≤ maxAlloc) : make n = .ok (List.replicate n 0) := by
  unfold make
  rw [if_pos h]

theorem make_eq_ok {n : Nat} {b : List Byte} (h : make n = .ok b) :
    n ≤ maxAlloc ∧ n < I63 ∧ b = List.replicate n 0 := by
  unfold make at h
  by_cases hn : n ≤ maxAlloc
  · rw [if_pos hn] at h
    injection h with h
    refine ⟨hn, ?_, h.symm⟩
    unfold maxAlloc at hn
    unfold I63
    omega
  · rw [if_neg hn] at h
    injection h

theorem add64_lt (a b : Nat) : add64 a b < U64 := by
  unfold add64 U64; omega

theorem sub64_lt (a b : Nat) : sub64 a b < U64 := by
  unfold sub64 U64; omega

theorem toInt64_nonneg {x : Nat} (h : x < I63) : toInt64 x = (x : Int) := by
  unfold toInt64
  have h1 : x % U64 = x := Nat.mod_eq_of_lt (by unfold I63 at h; unfold U64; omega)
  rw [h1, if_pos h]

theorem leValue_lt (bs : List Byte) : leValue bs < 256 ^ bs.length := by
  induction bs with
  | nil => simp [leValue]
  | cons b bs ih =>
    simp only [leValue, List.length_cons, pow_succ]
    have := Nat.mod_lt b (show 256 > 0 by decide)
    omega

theorem beValue_lt (bs : List Byte) : beValue bs < 256 ^ bs.length := by
  unfold beValue
  have := leValue_lt bs.reverse
  simpa using this

/-! ## Slices and pointer reads -/

theorem slice_ok {b : List Byte} {lo hi : Nat} (h1 : lo ≤ hi) (h2 : hi ≤ b.length) :
    slice b lo hi = .ok ((b.drop lo).take (hi - lo)) := by
  simp [slice, h1, h2]

theorem readptr_ok (s : SectionData) (hp : s.Ptrsz = 4 ∨ s.Ptrsz = 8) (b : List Byte)
    (h : s.Ptrsz ≤ b.length) :
    s.ReadptrFrom b = .ok (s.word b 0) := by
  unfold SectionData.ReadptrFrom SectionData.word ByteOrder.Uint32 ByteOrder.Uint64
    ByteOrder.uint
  rcases hp with h4 | h8
  · rw [h4] at h
    simp only [h4, if_true, List.drop_zero]
    rw [if_neg (by omega)]
    cases s.Order <;> rfl
  · rw [h8] at h
    simp only [h8, if_true, List.drop_zero]
    rw [if_neg (by omega), if_neg (by omega)]
    cases s.Order <;> rfl

theorem readptr_slice (s : SectionData) (hp : s.Ptrsz = 4 ∨ s.Ptrsz = 8) (b : List Byte)
    (lo hi : Nat) (h : lo + s.Ptrsz = hi) (h2 : hi ≤ b.length) :
    (slice b lo hi >>= s.ReadptrFrom) = .ok (s.word b lo) := by
  rw [slice_ok (by omega) h2]
  have hlen : ((b.drop lo).take (hi - lo)).length = s.Ptrsz := by
    simp only [List.length_take, List.length_drop]; omega
  show s.ReadptrFrom _ = _
  rw [readptr_ok s hp _ (by omega)]
  have hsub : hi - lo = s.Ptrsz := by omega
  simp only [SectionData.word, List.drop_zero, hsub, List.take_take, min_self]

theorem word_lt (s : SectionData) (b : List Byte) (i : Nat) :
    s.word b i < 256 ^ s.Ptrsz := by
  unfold SectionData.word
  have hl : ((b.drop i).take s.Ptrsz).length ≤ s.Ptrsz := by
    simp only [List.length_take]; omega
  cases s.Order
  · exact lt_of_lt_of_le (leValue_lt _) (Nat.pow_le_pow_right (by decide) hl)
  · exact lt_of_lt_of_le (beValue_lt _) (Nat.pow_le_pow_right (by decide) hl)

theorem word_lt_U64 (s : SectionData) (hp : s.Ptrsz = 4 ∨ s.Ptrsz = 8) (b : List Byte)
    (i : Nat) : s.word b i < U64 := by
  have h := word_lt s b i
  rcases hp with h4 | h8
  · rw [h4] at h; norm_num at h; unfold U64; omega
  · rw [h8] at h; norm_num at h; unfold U64; omega

theorem bind_readptr_slice {β : Type} (s : SectionData) (hp : s.Ptrsz = 4 ∨ s.Ptrsz = 8)
    (b : List Byte) (lo hi : Nat) (h : lo + s.Ptrsz = hi) (h2 : hi ≤ b.length)
    (f : Nat → Except Panic β) :
    (slice b lo hi >>= fun x => s.ReadptrFrom x >>= f) = f (s.word b lo) := by
  have h1 := readptr_slice s hp b lo hi h h2
  rw [slice_ok (by omega) h2] at h1 ⊢
  have h3 : s.ReadptrFrom ((b.drop lo).take (hi - lo)) = .ok (s.word b lo) := h1
  show s.ReadptrFrom _ >>= f = _
  rw [h3]
  rfl

theorem word_window (s : SectionData) (b : List Byte) (lo n j : Nat)
    (h : j + s.Ptrsz ≤ n) :
    s.word ((b.drop lo).take n) j = s.word b (lo + j) := by
  have e : (((b.drop lo).take n).drop j).take s.Ptrsz = (b.drop (lo + j)).take s.Ptrsz := by
    rw [List.drop_take, List.take_take, List.drop_drop]
    congr 1
    omega
  unfold SectionData.word
  rw [e]

/-! ## The byte source -/

theorem Read_full (r : ReadSeeker) (p : List Byte) (hp : 0 < p.length)
    (h : r.off + p.length ≤ r.bytes.length) :
    r.Read p = (p.length, none, (r.bytes.drop r.off).take p.length,
      { r with off := r.off + p.length }) := by
  unfold ReadSeeker.Read
  rw [if_neg (by omega)]
  simp only
  rw [if_neg (by omega)]

theorem Read_short (r : ReadSeeker) (p : List Byte)
    (h : r.bytes.length < r.off + p.length) :
    (r.Read p).2.1 = some IoError.EOF := by
  unfold ReadSeeker.Read
  by_cases h1 : r.off ≥ r.bytes.length
  · rw [if_pos h1]
  · rw [if_neg h1]
    simp only
    rw [if_pos (by omega)]

theorem Read_bytes (r : ReadSeeker) (p : List Byte) : (r.Read p).2.2.2.bytes = r.bytes := by
  unfold ReadSeeker.Read
  split
  · rfl
  · simp only
    split <;> rfl

theorem Seek_bytes (r : ReadSeeker) (o : Int) : (r.Seek o).bytes = r.bytes := by
  unfold ReadSeeker.Seek
  split <;> rfl

theorem Seek_Tell (r r2 : ReadSeeker) (h : r2.bytes = r.bytes) : r2.Seek (Tell r) = r := by
  unfold ReadSeeker.Seek Tell
  rw [if_neg (by omega)]
  cases r; cases r2
  simp only [Int.toNat_ofNat, ReadSeeker.mk.injEq, and_true]
  exact h

/-! ## The validator -/

theorem isValidCandidateLoop_eq (s : SectionData) (hp : s.Ptrsz = 4 ∨ s.Ptrsz = 8) :
    ∀ (n : Nat) (entry : List Byte) (r : ReadSeeker), entry.length = s.Ptrsz * 4 + 16 →
      match recordsValid s r.bytes n r.off with
      | none => isValidCandidateLoop s n entry r = .error .readError
      | some b => ∃ off, isValidCandidateLoop s n entry r = .ok (b, ⟨r.bytes, off⟩) := by
  intro n
  induction n with
  | zero =>
    intro entry r _
    simp only [recordsValid, isValidCandidateLoop]
    exact ⟨r.off, rfl⟩
  | succ n ih =>
    intro entry r hlen
    simp only [recordsValid]
    by_cases hfit : r.off + (s.Ptrsz * 4 + 16) ≤ r.bytes.length
    · rw [if_pos hfit]
      have hrd := Read_full r entry (by omega) (by omega)
      have hl2 : ((r.bytes.drop r.off).take entry.length).length = s.Ptrsz * 4 + 16 := by
        simp only [List.length_take, List.length_drop]; omega
      have hstep : isValidCandidateLoop s (n + 1) entry r =
          if recordOk s r.bytes r.off then
            isValidCandidateLoop s n ((r.bytes.drop r.off).take entry.length)
              { r with off := r.off + entry.length }
          else .ok (false, { r with off := r.off + entry.length }) := by
        rw [isValidCandidateLoop, hrd]
        simp only [ne_eq, not_true_eq_false, if_false]
        rw [bind_readptr_slice s hp _ 0 _ (by omega) (by omega)]
        rw [bind_readptr_slice s hp _ s.Ptrsz (s.Ptrsz * 2) (by omega) (by omega)]
        rw [bind_readptr_slice s hp _ (s.Ptrsz * 2) (s.Ptrsz * 3) (by omega) (by omega)]
        rw [bind_readptr_slice s hp _ (s.Ptrsz * 3) (s.Ptrsz * 4) (by omega) (by omega)]
        rw [word_window s _ _ _ 0 (by omega), word_window s _ _ _ _ (show s.Ptrsz + s.Ptrsz ≤ _ by omega),
          word_window s _ _ _ _ (show s.Ptrsz * 2 + s.Ptrsz ≤ _ by omega),
          word_window s _ _ _ _ (show s.Ptrsz * 3 + s.Ptrsz ≤ _ by omega)]
        unfold recordOk
        simp only [Nat.add_zero]
        split_ifs <;> first | rfl | simp_all
      rw [hstep]
      by_cases hok : recordOk s r.bytes r.off = true
      · rw [if_pos hok, if_pos hok]
        have := ih ((r.bytes.drop r.off).take entry.length)
          { r with off := r.off + entry.length } hl2
        simp only [hlen] at this ⊢
        exact this
      · rw [if_neg hok, if_neg hok]
        exact ⟨_, rfl⟩
    · rw [if_neg hfit]
      have hrd := Read_short r entry (by omega)
      rw [isValidCandidateLoop]
      rcases hR : r.Read entry with ⟨a, err, e2, r2⟩
      rw [hR] at hrd
      simp only at hrd
      simp only [hrd, ne_eq, reduceCtorEq, not_false_eq_true, if_true]

theorem isValidCandidate_eq (s : SectionData) (hp : s.Ptrsz = 4 ∨ s.Ptrsz = 8)
    (r : ReadSeeker) (c : FSCandidate) :
    isValidCandidate s r c =
      match validAt s r c with
      | none => .error .readError
      | some b => .ok (b, r) := by
  have hmk : make (s.Ptrsz * 4 + 16) = .ok (List.replicate (s.Ptrsz * 4 + 16) 0) := by
    apply make_ok
    unfold maxAlloc
    omega
  have h := isValidCandidateLoop_eq s hp c.EntryCount (List.replicate (s.Ptrsz * 4 + 16) 0)
    (r.Seek (toInt64 (TL_SectionOffset s c.Addr))) (by simp)
  unfold isValidCandidate validAt validatorStart
  simp only [hmk]
  rw [Seek_bytes] at h
  cases hv : recordsValid s r.bytes c.EntryCount
      (r.Seek (toInt64 (TL_SectionOffset s c.Addr))).off with
  | none =>
    rw [hv] at h
    simp only at h
    rw [h]
  | some b =>
    rw [hv] at h
    obtain ⟨off, h⟩ := h
    rw [h]
    simp only
    rw [Seek_Tell r ⟨r.bytes, off⟩ rfl]

theorem validAt_iff (s : SectionData) (hp : s.Ptrsz = 4 ∨ s.Ptrsz = 8) (r : ReadSeeker)
    (c : FSCandidate) (b : Bool) :
    validAt s r c = some b ↔ isValidCandidate s r c = .ok (b, r) := by
  rw [isValidCandidate_eq s hp r c]
  cases validAt s r c with
  | none => simp
  | some b2 => simp

/-! ## The scanner -/

theorem candidateScanAt_eq (sd : SectionData) (hp : sd.Ptrsz = 4 ∨ sd.Ptrsz = 8)
    (buffer : List Byte) (chunkOffset : Nat) (r : ReadSeeker) (i : Nat)
    (hi : i + sd.Ptrsz * 3 ≤ buffer.length) :
    candidateScanAt sd buffer chunkOffset r i =
      match rawHit sd buffer chunkOffset i with
      | none => .ok (none, r)
      | some c =>
        match validAt sd r c with
        | none => .error .readError
        | some b => .ok (if b then some c else none, r) := by
  unfold candidateScanAt
  rw [bind_readptr_slice sd hp _ i (i + sd.Ptrsz) rfl (by omega)]
  rw [bind_readptr_slice sd hp _ (i + sd.Ptrsz) (i + sd.Ptrsz * 2) (by omega) (by omega)]
  rw [bind_readptr_slice sd hp _ (i + sd.Ptrsz * 2) (i + sd.Ptrsz * 3) (by omega) (by omega)]
  unfold rawHit
  simp only
  by_cases h1 : sd.word buffer (i + sd.Ptrsz) ≠ sd.word buffer (i + sd.Ptrsz * 2) ∨
      sd.word buffer (i + sd.Ptrsz) = 0 ∨ sd.word buffer i = 0
  · rw [if_pos h1, if_neg (by
      rintro ⟨a, b, c, _⟩
      rcases h1 with h | h | h
      · exact h a
      · omega
      · exact c h)]
  · rw [if_neg h1]
    push_neg at h1
    obtain ⟨e1, e2, e3⟩ := h1
    cases h2 : sd.ContainsAddr (sd.word buffer i) with
    | true =>
      simp only [Bool.not_true, Bool.false_eq_true, if_false]
      by_cases h3 : sd.word buffer i = TL_VirtualAddress sd
          (add64 (add64 (add64 sd.FileOffset chunkOffset) i) (sd.Ptrsz * 3))
      · rw [if_neg (by simpa using h3), if_pos ⟨e1, by omega, e3, trivial, h3⟩]
        simp only
        rw [isValidCandidate_eq sd hp]
        cases validAt sd r _ with
        | none => rfl
        | some b => cases b <;> rfl
      · rw [if_pos (by simpa using h3), if_neg (by
          rintro ⟨_, _, _, _, h⟩
          exact h3 h)]
    | false =>
      simp only [Bool.not_false, if_true]
      rw [if_neg (by
        rintro ⟨_, _, _, h, _⟩
        exact Bool.false_ne_true h)]

theorem candidateScanLoop_eq (sd : SectionData) (hp : sd.Ptrsz = 4 ∨ sd.Ptrsz = 8)
    (buffer : List Byte) (chunkOffset : Nat) (r : ReadSeeker) :
    ∀ (fuel i : Nat) (acc : List FSCandidate), buffer.length - i + 1 ≤ fuel →
      candidateScanLoop sd buffer chunkOffset fuel i r acc =
        match scanRun sd buffer chunkOffset r (loopOffsets sd.Ptrsz buffer.length fuel i) with
        | none => .error .readError
        | some l => .ok (acc ++ l, r) := by
  intro fuel
  induction fuel with
  | zero => intro i acc h; omega
  | succ fuel ih =>
    intro i acc hfuel
    rw [candidateScanLoop, loopOffsets]
    by_cases hc : (i : Int) < (buffer.length : Int) - ((sd.Ptrsz * 3 : Nat) : Int)
    · rw [if_pos hc, if_pos hc]
      have hi : i + sd.Ptrsz * 3 ≤ buffer.length := by omega
      have hf : buffer.length - (i + sd.Ptrsz) + 1 ≤ fuel := by
        rcases hp with h | h <;> omega
      rw [candidateScanAt_eq sd hp buffer chunkOffset r i hi]
      simp only [scanRun]
      cases hraw : rawHit sd buffer chunkOffset i with
      | none =>
        simp only
        exact ih (i + sd.Ptrsz) acc hf
      | some c =>
        simp only
        cases hv : validAt sd r c with
        | none => rfl
        | some b =>
          cases b with
          | false =>
            simp only [Bool.false_eq_true, if_false]
            rw [ih (i + sd.Ptrsz) acc hf]
            cases scanRun sd buffer chunkOffset r
              (loopOffsets sd.Ptrsz buffer.length fuel (i + sd.Ptrsz)) <;> simp
          | true =>
            simp only [if_true]
            rw [ih (i + sd.Ptrsz) (acc ++ [c]) hf]
            cases scanRun sd buffer chunkOffset r
              (loopOffsets sd.Ptrsz buffer.length fuel (i + sd.Ptrsz)) <;> simp
    · rw [if_neg hc, if_neg hc]
      simp [scanRun]

theorem scanRun_eq_some (sd : SectionData) (buffer : List Byte) (chunkOffset : Nat)
    (r : ReadSeeker) (offs : List Nat) (l : List FSCandidate) :
    scanRun sd buffer chunkOffset r offs = some l ↔
      (∀ i ∈ offs, ∀ c, rawHit sd buffer chunkOffset i = some c → validAt sd r c ≠ none) ∧
        l = offs.filterMap (emittedAt sd buffer chunkOffset r) := by
  induction offs generalizing l with
  | nil => simp [scanRun, eq_comm]
  | cons i is ih =>
    simp only [scanRun, List.mem_cons, forall_eq_or_imp, List.filterMap_cons, emittedAt]
    cases hraw : rawHit sd buffer chunkOffset i with
    | none =>
      simp only [Option.filter, reduceCtorEq, false_implies, implies_true, true_and]
      exact ih l
    | some c =>
      cases hv : validAt sd r c with
      | none => simp [hv]
      | some b =>
        cases hrun : scanRun sd buffer chunkOffset r is with
        | none =>
          have := ih
          simp only [hrun, reduceCtorEq, false_iff, not_and] at this
          simp only [Option.map_none', reduceCtorEq, Option.some.injEq, forall_eq', hv, ne_eq,
            not_false_eq_true, true_and, false_iff, not_and]
          intro hsafe
          exact absurd rfl (this _ hsafe)
        | some l2 =>
          have h2 := (ih l2).mp hrun
          cases b
          · simp only [Option.map_some', Bool.false_eq_true, if_false, Option.some.injEq,
              forall_eq', hv, ne_eq, reduceCtorEq, not_false_eq_true, true_and, Option.filter,
              decide_False]
            rw [← h2.2]
            exact ⟨fun h => ⟨h2.1, h.symm⟩, fun h => h.2.symm⟩
          · simp only [Option.map_some', if_true, Option.some.injEq,
              forall_eq', hv, ne_eq, reduceCtorEq, not_false_eq_true, true_and, Option.filter,
              decide_True]
            rw [← h2.2]
            exact ⟨fun h => ⟨h2.1, h.symm⟩, fun h => h.2.symm⟩

/-! ## The offsets the scanner visits -/

theorem le_of_mem_loopOffsets (p n : Nat) :
    ∀ (fuel i j : Nat), j ∈ loopOffsets p n fuel i → i ≤ j := by
  intro fuel
  induction fuel with
  | zero => intro i j h; simp [loopOffsets] at h
  | succ fuel ih =>
    intro i j h
    rw [loopOffsets] at h
    split at h
    · rcases List.mem_cons.mp h with h | h
      · omega
      · have := ih (i + p) j h
        omega
    · simp at h

theorem mem_loopOffsets (p n : Nat) (hp : 0 < p) :
    ∀ (fuel i j : Nat), n - i + 1 ≤ fuel →
      (j ∈ loopOffsets p n fuel i ↔ i ≤ j ∧ (j - i) % p = 0 ∧ j + 3 * p < n) := by
  intro fuel
  induction fuel with
  | zero => intro i j h; omega
  | succ fuel ih =>
    intro i j hfuel
    rw [loopOffsets]
    by_cases hc : (i : Int) < (n : Int) - ((p * 3 : Nat) : Int)
    · rw [if_pos hc, List.mem_cons, ih (i + p) j (by omega)]
      constructor
      · rintro (h | ⟨h1, h2, h3⟩)
        · subst h
          refine ⟨le_refl _, by simp, by omega⟩
        · refine ⟨by omega, ?_, h3⟩
          have e : j - i = (j - (i + p)) + p := by omega
          rw [e, Nat.add_mod_right]
          exact h2
      · rintro ⟨h1, h2, h3⟩
        by_cases hji : j = i
        · exact Or.inl hji
        · right
          have hd : p ∣ j - i := Nat.dvd_of_mod_eq_zero h2
          have hpos : 0 < j - i := by omega
          have hle : p ≤ j - i := Nat.le_of_dvd hpos hd
          refine ⟨by omega, ?_, h3⟩
          have e : j - i = (j - (i + p)) + p := by omega
          rw [e, Nat.add_mod_right] at h2
          exact h2
    · rw [if_neg hc]
      simp only [List.not_mem_nil, false_iff, not_and, not_lt]
      intro h1 _
      omega

theorem sorted_loopOffsets (p n : Nat) (hp : 0 < p) :
    ∀ (fuel i : Nat), List.Sorted (· < ·) (loopOffsets p n fuel i) := by
  intro fuel
  induction fuel with
  | zero => intro i; simp [loopOffsets]
  | succ fuel ih =>
    intro i
    rw [loopOffsets]
    split
    · refine List.sorted_cons.mpr ⟨?_, ih (i + p)⟩
      intro b hb
      have := le_of_mem_loopOffsets p n fuel (i + p) b hb
      omega
    · simp

theorem mem_scanOffsets (p n j : Nat) :
    j ∈ scanOffsets p n ↔ j % p = 0 ∧ j + 3 * p < n := by
  unfold scanOffsets
  simp only [List.mem_filter, List.mem_range, Bool.and_eq_true, decide_eq_true_eq]
  constructor
  · rintro ⟨_, h⟩; exact h
  · rintro ⟨h1, h2⟩; exact ⟨by omega, h1, h2⟩

theorem sorted_scanOffsets (p n : Nat) : List.Sorted (· < ·) (scanOffsets p n) :=
  List.Sorted.filter _ (List.sorted_lt_range n)

theorem loopOffsets_eq_scanOffsets (p n : Nat) (hp : 0 < p) :
    loopOffsets p n (n + 1) 0 = scanOffsets p n := by
  apply List.eq_of_perm_of_sorted (r := (· < ·)) _ (sorted_loopOffsets p n hp _ _)
    (sorted_scanOffsets p n)
  rw [List.perm_ext_iff_of_nodup (sorted_loopOffsets p n hp _ _).nodup
    (sorted_scanOffsets p n).nodup]
  intro j
  rw [mem_loopOffsets p n hp (n + 1) 0 j (by omega), mem_scanOffsets]
  simp

/-- The scan of a buffer is the scan over the visited offsets. -/
theorem candidateScan_eq (sd : SectionData) (hp : sd.Ptrsz = 4 ∨ sd.Ptrsz = 8)
    (buffer : List Byte) (chunkOffset : Nat) (r : ReadSeeker) :
    candidateScan sd buffer chunkOffset r =
      match scanRun sd buffer chunkOffset r (scanOffsets sd.Ptrsz buffer.length) with
      | none => .error .readError
      | some l => .ok (l, r) := by
  unfold candidateScan
  rw [candidateScanLoop_eq sd hp buffer chunkOffset r _ 0 [] (by omega),
    loopOffsets_eq_scanOffsets _ _ (by rcases hp with h | h <;> omega)]
  simp

theorem filterMap_congr_mem {α β : Type} (f g : α → Option β) (l : List α)
    (h : ∀ x ∈ l, f x = g x) : l.filterMap f = l.filterMap g := by
  induction l with
  | nil => rfl
  | cons a l ih =>
    rw [List.filterMap_cons, List.filterMap_cons, h a (List.mem_cons_self a l),
      ih (fun x hx => h x (List.mem_cons_of_mem a hx))]

theorem appendedAt_eq (sd : SectionData) (hp : sd.Ptrsz = 4 ∨ sd.Ptrsz = 8)
    (buffer : List Byte) (chunkOffset : Nat) (r : ReadSeeker) (i : Nat)
    (hi : i + sd.Ptrsz * 3 ≤ buffer.length) :
    appendedAt sd buffer chunkOffset r i = emittedAt sd buffer chunkOffset r i := by
  unfold appendedAt emittedAt
  rw [candidateScanAt_eq sd hp buffer chunkOffset r i hi]
  cases rawHit sd buffer chunkOffset i with
  | none => rfl
  | some c =>
    cases hv : validAt sd r c with
    | none => simp [Option.filter, hv]
    | some b => cases b <;> simp [Option.filter, hv]

theorem candidateScanAt_ok_iff (sd : SectionData) (hp : sd.Ptrsz = 4 ∨ sd.Ptrsz = 8)
    (buffer : List Byte) (chunkOffset : Nat) (r : ReadSeeker) (i : Nat)
    (hi : i + sd.Ptrsz * 3 ≤ buffer.length) :
    (∃ o, candidateScanAt sd buffer chunkOffset r i = .ok (o, r)) ↔
      ∀ c, rawHit sd buffer chunkOffset i = some c → validAt sd r c ≠ none := by
  rw [candidateScanAt_eq sd hp buffer chunkOffset r i hi]
  cases rawHit sd buffer chunkOffset i with
  | none => simp
  | some c =>
    cases hv : validAt sd r c with
    | none => simp [hv]
    | some b => simp [hv]

theorem scanOffsets_bound (p n i : Nat) (h : i ∈ scanOffsets p n) : i + p * 3 ≤ n := by
  have := (mem_scanOffsets p n i).mp h
  omega

/-! ## C1: when the scanner emits a candidate -/

/-- C1. For a section with pointer size 4 or 8, any buffer and chunk offset:
at every offset `i` the scan visits, with `addr`, `s1`, `s2` the three words decoded at
`i`, the loop body appends a candidate exactly when `s1 == s2`, `s1 > 0`, `addr != 0`,
the section contains `addr`, `addr` is the virtual address of file offset
`file_offset + chunk_offset + i + 3 * ptr_size`, and `isValidCandidate` accepts; the
candidate appended has `Addr = addr`, `EntryCount = s1`, `RelAddr = TL_SectionOffset addr`.
The list `candidateScan` returns is what the body appends at the visited offsets, in
order, and it returns whenever the body does not panic at a visited offset. -/
theorem candidateScan_emits_iff (sd : SectionData) (hp : sd.Ptrsz = 4 ∨ sd.Ptrsz = 8)
    (buffer : List Byte) (chunkOffset : Nat) (r : ReadSeeker) :
    (∀ i ∈ scanOffsets sd.Ptrsz buffer.length, ∀ addr s1 s2 : Nat,
      (slice buffer i (i + sd.Ptrsz) >>= sd.ReadptrFrom) = .ok addr →
      (slice buffer (i + sd.Ptrsz) (i + sd.Ptrsz * 2) >>= sd.ReadptrFrom) = .ok s1 →
      (slice buffer (i + sd.Ptrsz * 2) (i + sd.Ptrsz * 3) >>= sd.ReadptrFrom) = .ok s2 →
      ∀ c r', candidateScanAt sd buffer chunkOffset r i = .ok (some c, r') ↔
        (s1 = s2 ∧ s1 > 0 ∧ addr ≠ 0 ∧ sd.ContainsAddr addr = true ∧
          addr = TL_VirtualAddress sd
            (add64 (add64 (add64 sd.FileOffset chunkOffset) i) (sd.Ptrsz * 3)) ∧
          isValidCandidate sd r
            { Addr := addr, EntryCount := s1, RelAddr := TL_SectionOffset sd addr } =
              .ok (true, r')) ∧
        c = { Addr := addr, EntryCount := s1, RelAddr := TL_SectionOffset sd addr }) ∧
    (∀ cands r', candidateScan sd buffer chunkOffset r = .ok (cands, r') →
      r' = r ∧
      cands = (scanOffsets sd.Ptrsz buffer.length).filterMap
        (appendedAt sd buffer chunkOffset r)) ∧
    ((∀ i ∈ scanOffsets sd.Ptrsz buffer.length,
        ∃ o, candidateScanAt sd buffer chunkOffset r i = .ok (o, r)) →
      ∃ cands, candidateScan sd buffer chunkOffset r = .ok (cands, r)) := by
  refine ⟨?_, ?_, ?_⟩
  · intro i hi addr s1 s2 ha h1 h2 c r'
    have hb := scanOffsets_bound _ _ _ hi
    rw [readptr_slice sd hp buffer _ _ rfl (by omega)] at ha
    rw [readptr_slice sd hp buffer _ _ (by omega) (by omega)] at h1
    rw [readptr_slice sd hp buffer _ _ (by omega) (by omega)] at h2
    injection ha with ha
    injection h1 with h1
    injection h2 with h2
    subst ha h1 h2
    rw [candidateScanAt_eq sd hp buffer chunkOffset r i hb, isValidCandidate_eq sd hp]
    unfold rawHit
    simp only
    split_ifs with hc
    · simp only
      cases hv : validAt sd r _ with
      | none => simp
      | some b =>
        cases b
        · simp
        · simp only [if_true, Except.ok.injEq, Prod.mk.injEq, Option.some.injEq, true_and]
          constructor
          · rintro ⟨h1, h2⟩
            exact ⟨⟨hc.1, hc.2.1, hc.2.2.1, hc.2.2.2.1, hc.2.2.2.2, h2⟩, h1.symm⟩
          · rintro ⟨⟨_, _, _, _, _, h2⟩, h1⟩
            exact ⟨h1.symm, h2⟩
    · simp only [Except.ok.injEq, Prod.mk.injEq, reduceCtorEq, false_and, false_iff, not_and]
      intro ⟨a1, a2, a3, a4, a5, _⟩
      exact absurd ⟨a1, a2, a3, a4, a5⟩ hc
  · intro cands r' h
    rw [candidateScan_eq sd hp] at h
    cases hrun : scanRun sd buffer chunkOffset r (scanOffsets sd.Ptrsz buffer.length) with
    | none => rw [hrun] at h; simp at h
    | some l =>
      rw [hrun] at h
      simp only [Except.ok.injEq, Prod.mk.injEq] at h
      refine ⟨h.2.symm, ?_⟩
      rw [← h.1, ((scanRun_eq_some sd buffer chunkOffset r _ l).mp hrun).2]
      exact filterMap_congr_mem _ _ _ (fun i hi =>
        (appendedAt_eq sd hp buffer chunkOffset r i (scanOffsets_bound _ _ _ hi)).symm)
  · intro h
    have hsafe : ∀ i ∈ scanOffsets sd.Ptrsz buffer.length, ∀ c,
        rawHit sd buffer chunkOffset i = some c → validAt sd r c ≠ none := fun i hi =>
      (candidateScanAt_ok_iff sd hp buffer chunkOffset r i (scanOffsets_bound _ _ _ hi)).mp
        (h i hi)
    rw [candidateScan_eq sd hp]
    rw [(scanRun_eq_some sd buffer chunkOffset r _ _).mpr ⟨hsafe, rfl⟩]
    exact ⟨_, rfl⟩

/-- C1 at the demo section: the scan of the whole section appends the one candidate. -/
theorem candidateScan_emits_iff_witness :
    (demoSection.Ptrsz = 4 ∨ demoSection.Ptrsz = 8) ∧
    candidateScan demoSection demoBytes 0 demoReaderEnd = .ok ([demoCandidate], demoReaderEnd) ∧
    (∀ cands r', candidateScan demoSection demoBytes 0 demoReaderEnd = .ok (cands, r') →
      r' = demoReaderEnd ∧
      cands = (scanOffsets demoSection.Ptrsz demoBytes.length).filterMap
        (appendedAt demoSection demoBytes 0 demoReaderEnd)) :=
  ⟨by decide, by rfl,
    (candidateScan_emits_iff demoSection (by decide) demoBytes 0 demoReaderEnd).2.1⟩

/-! ## C2: the validator and a data length of `2^63` -/

/-- C2 (evaluation at the failing input). In the 64-bit section `wideSection` the one
record of the candidate is readable, has a name length of 1, a contained name pointer
and a zero data pointer, and its data length `2^63` is negative as a signed 64-bit
value; `isValidCandidate` accepts the candidate, and the scan of the section emits it. -/
theorem isValidCandidate_accepts_negative_data_len :
    wideSection.word wideBytes (24 + 8 * 3) = 9223372036854775808 ∧
    toInt64 (wideSection.word wideBytes (24 + 8 * 3)) < 0 ∧
    isValidCandidate wideSection wideReader wideCandidate = .ok (true, wideReader) ∧
    findCandidatesUnChunked wideSection wideReader = .ok ([wideCandidate], wideReaderEnd) := by
  refine ⟨by rfl, by decide, by rfl, by rfl⟩

/-! ## C4: the address translators -/

/-- C4. In unsigned 64-bit arithmetic, for every file offset `o` in
`[file_offset, file_offset + file_size]` the translation to a virtual address and back
returns `o`; for every virtual address `v` the section contains, the translation to a
file offset and back returns `v`, and `TL_SectionOffset v + virtual_addr + base_addr`
is `v`.  (The range conditions are not needed for the equalities.) -/
theorem translate_round_trip (s : SectionData) (o v : Nat) (ho64 : o < U64) (hv64 : v < U64)
    (_ho : s.FileOffset ≤ o ∧ o ≤ s.FileOffset + s.FileSize)
    (_hv : s.ContainsAddr v = true) :
    TL_FileOffset s (TL_VirtualAddress s o) = o ∧
    TL_VirtualAddress s (TL_FileOffset s v) = v ∧
    add64 (add64 (TL_SectionOffset s v) s.VirtualAddr) s.BaseAddr = v := by
  unfold TL_FileOffset TL_VirtualAddress TL_SectionOffset add64 sub64 U64 at *
  refine ⟨?_, ?_, ?_⟩ <;> omega

/-- C4 at the demo section, for the file offset 524 and the virtual address 4108. -/
theorem translate_round_trip_witness :
    (524 < U64 ∧ 4108 < U64 ∧
      (demoSection.FileOffset ≤ 524 ∧ 524 ≤ demoSection.FileOffset + demoSection.FileSize) ∧
      demoSection.ContainsAddr 4108 = true) ∧
    TL_VirtualAddress demoSection 524 = 4108 ∧
    (TL_FileOffset demoSection (TL_VirtualAddress demoSection 524) = 524 ∧
      TL_VirtualAddress demoSection (TL_FileOffset demoSection 4108) = 4108 ∧
      add64 (add64 (TL_SectionOffset demoSection 4108) demoSection.VirtualAddr)
        demoSection.BaseAddr = 4108) :=
  ⟨by decide, by rfl,
    translate_round_trip demoSection 524 4108 (by decide) (by decide) (by decide) (by rfl)⟩

/-! ## C5: address containment -/

/-- C5 as stated fails on a section view whose address range wraps past `2^64`
(`virtual_addr = 2^64 - 1`, `virtual_size = 1`): the address `2^64 - 1` lies between
`base_addr + virtual_addr` and `base_addr + virtual_addr + virtual_size` but is not
contained, and the 64-bit value of `base_addr + virtual_addr + virtual_size`, which is
0, is not contained either. -/
theorem containsAddr_wrapping_counterexample :
    (wrapSection.BaseAddr + wrapSection.VirtualAddr ≤ 18446744073709551615 ∧
      18446744073709551615 ≤
        wrapSection.BaseAddr + wrapSection.VirtualAddr + wrapSection.VirtualSize) ∧
    wrapSection.ContainsAddr 18446744073709551615 = false ∧
    wrapSection.ContainsAddr
      (add64 (add64 wrapSection.BaseAddr wrapSection.VirtualAddr) wrapSection.VirtualSize) =
        false := by
  refine ⟨by decide, by rfl, by rfl⟩

/-- C5 (amended). For a section view whose address range does not wrap
(`base_addr + virtual_addr + virtual_size < 2^64`) and every address `v`, `ContainsAddr v`
holds exactly when `base_addr + virtual_addr ≤ v ≤ base_addr + virtual_addr + virtual_size`;
the upper bound is inclusive: `ContainsAddr (base_addr + virtual_addr + virtual_size)`
is true. -/
theorem containsAddr_iff (s : SectionData)
    (h : s.BaseAddr + s.VirtualAddr + s.VirtualSize < U64) (v : Nat) :
    (s.ContainsAddr v = true ↔
      s.BaseAddr + s.VirtualAddr ≤ v ∧ v ≤ s.BaseAddr + s.VirtualAddr + s.VirtualSize) ∧
    s.ContainsAddr (s.BaseAddr + s.VirtualAddr + s.VirtualSize) = true := by
  unfold SectionData.ContainsAddr add64 U64 at *
  simp only [ge_iff_le, Bool.and_eq_true, decide_eq_true_eq]
  refine ⟨?_, ?_⟩
  · constructor
    · rintro ⟨h1, h2⟩
      omega
    · rintro ⟨h1, h2⟩
      omega
  · omega

/-- C5 (amended) at the demo section: the address one past its last byte is contained. -/
theorem containsAddr_iff_witness :
    demoSection.BaseAddr + demoSection.VirtualAddr + demoSection.VirtualSize < U64 ∧
    ((demoSection.ContainsAddr 4144 = true ↔
      demoSection.BaseAddr + demoSection.VirtualAddr ≤ 4144 ∧
        4144 ≤ demoSection.BaseAddr + demoSection.VirtualAddr + demoSection.VirtualSize) ∧
    demoSection.ContainsAddr
      (demoSection.BaseAddr + demoSection.VirtualAddr + demoSection.VirtualSize) = true) :=
  ⟨by decide, containsAddr_iff demoSection (by decide) 4144⟩

/-! ## C6: the last offset of the sweep -/

/-- C6 (evaluation at the failing input). The section `headerOnlySection` is 12 bytes,
one header at offset 0, which is pointer-aligned and satisfies `0 + 3 * 4 ≤ file_size`.
The unchunked scan returns no candidate and visits no offset; had the loop body run at
offset 0 it would have reached the validator, which panics there. -/
theorem candidateScan_skips_last_offset :
    (0 % headerOnlySection.Ptrsz = 0 ∧ 0 + 3 * headerOnlySection.Ptrsz ≤ headerOnlySection.FileSize) ∧
    loopOffsets headerOnlySection.Ptrsz headerOnlyBytes.length (headerOnlyBytes.length + 1) 0 = [] ∧
    findCandidatesUnChunked headerOnlySection headerOnlyReader = .ok ([], headerOnlyReaderEnd) ∧
    rawHit headerOnlySection headerOnlyBytes 0 0 =
      some { Addr := 4108, RelAddr := 12, EntryCount := 1 } ∧
    candidateScanAt headerOnlySection headerOnlyBytes 0 headerOnlyReaderEnd 0 =
      .error .readError := by
  refine ⟨by decide, by rfl, by rfl, by rfl, by rfl⟩

/-! ## What an emitted candidate satisfies -/

theorem rawHit_props (sd : SectionData) (buffer : List Byte) (chunkOffset i : Nat)
    (c : FSCandidate) (h : rawHit sd buffer chunkOffset i = some c) :
    c.Addr = sd.word buffer i ∧ c.EntryCount = sd.word buffer (i + sd.Ptrsz) ∧
      1 ≤ c.EntryCount ∧ c.Addr ≠ 0 ∧ sd.ContainsAddr c.Addr = true ∧
      c.RelAddr = TL_SectionOffset sd c.Addr ∧
      c.Addr = TL_VirtualAddress sd
        (add64 (add64 (add64 sd.FileOffset chunkOffset) i) (sd.Ptrsz * 3)) := by
  unfold rawHit at h
  simp only at h
  split_ifs at h with hc
  injection h with h
  subst h
  obtain ⟨_, h2, h3, h4, h5⟩ := hc
  exact ⟨rfl, rfl, h2, h3, h4, rfl, h5⟩

theorem emittedAt_some (sd : SectionData) (buffer : List Byte) (chunkOffset : Nat)
    (r : ReadSeeker) (i : Nat) (c : FSCandidate)
    (h : emittedAt sd buffer chunkOffset r i = some c) :
    rawHit sd buffer chunkOffset i = some c ∧ validAt sd r c = some true := by
  unfold emittedAt at h
  cases hraw : rawHit sd buffer chunkOffset i with
  | none => rw [hraw] at h; simp [Option.filter] at h
  | some c2 =>
    rw [hraw] at h
    simp only [Option.filter] at h
    split_ifs at h with hv
    injection h with h
    subst h
    exact ⟨rfl, by simpa using hv⟩

theorem relAddr_anchor (sd : SectionData) (chunkOffset i : Nat) :
    TL_SectionOffset sd (TL_VirtualAddress sd
      (add64 (add64 (add64 sd.FileOffset chunkOffset) i) (sd.Ptrsz * 3))) =
      (chunkOffset + i + sd.Ptrsz * 3) % U64 := by
  unfold TL_SectionOffset TL_VirtualAddress add64 sub64 U64
  omega

theorem candidateScan_mem (sd : SectionData) (hp : sd.Ptrsz = 4 ∨ sd.Ptrsz = 8)
    (buffer : List Byte) (chunkOffset : Nat) (r : ReadSeeker) (l : List FSCandidate)
    (r' : ReadSeeker) (h : candidateScan sd buffer chunkOffset r = .ok (l, r')) :
    r' = r ∧ l = (scanOffsets sd.Ptrsz buffer.length).filterMap
      (emittedAt sd buffer chunkOffset r) := by
  rw [candidateScan_eq sd hp] at h
  cases hrun : scanRun sd buffer chunkOffset r (scanOffsets sd.Ptrsz buffer.length) with
  | none => rw [hrun] at h; simp at h
  | some l2 =>
    rw [hrun] at h
    simp only [Except.ok.injEq, Prod.mk.injEq] at h
    refine ⟨h.2.symm, ?_⟩
    rw [← h.1]
    exact ((scanRun_eq_some sd buffer chunkOffset r _ l2).mp hrun).2

theorem candidateScan_ok (sd : SectionData) (hp : sd.Ptrsz = 4 ∨ sd.Ptrsz = 8)
    (buffer : List Byte) (chunkOffset : Nat) (r : ReadSeeker) (l : List FSCandidate)
    (r' : ReadSeeker) (h : candidateScan sd buffer chunkOffset r = .ok (l, r')) :
    ∀ c ∈ l, CandidateOk sd c := by
  intro c hc
  rw [(candidateScan_mem sd hp buffer chunkOffset r l r' h).2, List.mem_filterMap] at hc
  obtain ⟨i, _, hi⟩ := hc
  have hprops := rawHit_props sd buffer chunkOffset i c (emittedAt_some _ _ _ _ _ _ hi).1
  exact ⟨hprops.2.2.2.2.1, hprops.2.2.1, hprops.2.2.2.2.2.1⟩

theorem chunkedLoop_forall (sd : SectionData) (t : Nat) (P : FSCandidate → Prop)
    (hP : ∀ buf co r l r', candidateScan sd buf co r = .ok (l, r') → ∀ c ∈ l, P c) :
    ∀ (rem idx : Nat) (buf : List Byte) (r : ReadSeeker) (acc : List FSCandidate) (tot : Nat)
      (res : List FSCandidate × Nat × ReadSeeker),
      (∀ c ∈ acc, P c) → findCandidatesChunkedLoop sd t rem idx buf r acc tot = .ok res →
      ∀ c ∈ res.1, P c := by
  intro rem
  induction rem with
  | zero =>
    intro idx buf r acc tot res hacc h
    rw [findCandidatesChunkedLoop] at h
    injection h with h
    subst h
    exact hacc
  | succ rem ih =>
    intro idx buf r acc tot res hacc h
    rw [findCandidatesChunkedLoop] at h
    rcases hR : r.Read buf with ⟨read, err, buf2, r2⟩
    rw [hR] at h
    simp only at h
    cases hs : candidateScan sd buf2 (mul64 t idx) r2 with
    | error e => rw [hs] at h; simp at h
    | ok v =>
      obtain ⟨found, r3⟩ := v
      rw [hs] at h
      simp only at h
      have hacc2 : ∀ c ∈ acc ++ found, P c := by
        intro c hc
        rcases List.mem_append.mp hc with hc | hc
        · exact hacc c hc
        · exact hP _ _ _ _ _ hs c hc
      split_ifs at h
      · injection h with h
        subst h
        exact hacc2
      · exact ih _ _ _ _ _ _ hacc2 h

/-! ## C7: the invariants of a returned candidate -/

/-- C7. Every candidate `findCandidates` returns, in either mode, lies inside the
section (`ContainsAddr c.Addr`), has `EntryCount ≥ 1`, and has
`RelAddr = Addr - (virtual_addr + base_addr)` in unsigned 64-bit arithmetic. -/
theorem findCandidates_invariants (flagChunkSize : Nat) (sd : SectionData) (r : ReadSeeker)
    (hp : sd.Ptrsz = 4 ∨ sd.Ptrsz = 8) (cands : List FSCandidate) (r' : ReadSeeker)
    (h : findCandidates flagChunkSize sd r = .ok (cands, r')) :
    ∀ c ∈ cands, sd.ContainsAddr c.Addr = true ∧ 1 ≤ c.EntryCount ∧
      c.RelAddr = sub64 c.Addr (add64 sd.VirtualAddr sd.BaseAddr) := by
  unfold findCandidates at h
  split_ifs at h
  · unfold findCandidatesChunked at h
    simp only at h
    cases hm : make flagChunkSize with
    | error e => rw [hm] at h; simp at h
    | ok buf =>
      rw [hm] at h
      simp only at h
      split_ifs at h
      cases hl : findCandidatesChunkedLoop sd flagChunkSize
          ((sd.FileSize / flagChunkSize + 1) % U64) 0 buf r [] 0 with
      | error e => rw [hl] at h; simp at h
      | ok res =>
        obtain ⟨cs, tot, r2⟩ := res
        rw [hl] at h
        simp only at h
        split_ifs at h
        simp only [Except.ok.injEq, Prod.mk.injEq] at h
        rw [← h.1]
        exact chunkedLoop_forall sd flagChunkSize (CandidateOk sd)
          (fun buf co r l r' hs => candidateScan_ok sd hp buf co r l r' hs)
          _ _ _ _ _ _ _ (by simp) hl
  · unfold findCandidatesUnChunked at h
    cases hm : make sd.FileSize with
    | error e => rw [hm] at h; simp at h
    | ok buf =>
      rw [hm] at h
      simp only at h
      rcases hR : r.Read buf with ⟨read, err, buf2, r2⟩
      rw [hR] at h
      simp only at h
      split_ifs at h
      exact candidateScan_ok sd hp _ _ _ _ _ h

/-- C7 at the demo section, scanned unchunked (chunk size 64) and chunked (chunk size 24). -/
theorem findCandidates_invariants_witness :
    findCandidates 64 demoSection demoReader = .ok ([demoCandidate], demoReaderEnd) ∧
    findCandidates 24 demoSection demoReader = .ok ([demoCandidate], demoReaderEnd) ∧
    (∀ c ∈ [demoCandidate], demoSection.ContainsAddr c.Addr = true ∧ 1 ≤ c.EntryCount ∧
      c.RelAddr = sub64 c.Addr (add64 demoSection.VirtualAddr demoSection.BaseAddr)) :=
  ⟨by rfl, by rfl,
    findCandidates_invariants 24 demoSection demoReader (by decide) [demoCandidate]
      demoReaderEnd (by rfl)⟩

/-! ## The scan of a chunk in terms of the section bytes -/

theorem rawHit_window (sd : SectionData) (b1 b2 : List Byte) (co1 co2 i1 i2 : Nat)
    (hw : (b1.drop i1).take (sd.Ptrsz * 3) = (b2.drop i2).take (sd.Ptrsz * 3))
    (ha : add64 (add64 (add64 sd.FileOffset co1) i1) (sd.Ptrsz * 3) =
      add64 (add64 (add64 sd.FileOffset co2) i2) (sd.Ptrsz * 3)) :
    rawHit sd b1 co1 i1 = rawHit sd b2 co2 i2 := by
  have w : ∀ j, j + sd.Ptrsz ≤ sd.Ptrsz * 3 → sd.word b1 (i1 + j) = sd.word b2 (i2 + j) := by
    intro j hj
    rw [← word_window sd b1 i1 (sd.Ptrsz * 3) j hj, ← word_window sd b2 i2 (sd.Ptrsz * 3) j hj, hw]
  have w0 := w 0 (by omega)
  have w1 := w sd.Ptrsz (by omega)
  have w2 := w (sd.Ptrsz * 2) (by omega)
  simp only [Nat.add_zero] at w0
  unfold rawHit
  simp only [w0, w1, w2, ha]

theorem validatorStart_eq (s : SectionData) (r : ReadSeeker) (c : FSCandidate)
    (h : TL_SectionOffset s c.Addr < I63) :
    validatorStart s r c = TL_SectionOffset s c.Addr := by
  unfold validatorStart ReadSeeker.Seek
  rw [toInt64_nonneg h, if_neg (by omega)]
  simp

theorem validatorStart_ge (s : SectionData) (r : ReadSeeker) (c : FSCandidate) (n : Nat)
    (h1 : n ≤ TL_SectionOffset s c.Addr) (h2 : n ≤ r.off) :
    n ≤ validatorStart s r c := by
  unfold validatorStart ReadSeeker.Seek
  split
  · exact h2
  · have hlt : TL_SectionOffset s c.Addr < U64 := sub64_lt _ _
    have hnn : ¬ toInt64 (TL_SectionOffset s c.Addr) < 0 := by assumption
    unfold toInt64 at hnn
    have hmod : TL_SectionOffset s c.Addr % U64 = TL_SectionOffset s c.Addr :=
      Nat.mod_eq_of_lt hlt
    rw [hmod] at hnn
    unfold toInt64
    rw [hmod]
    split_ifs at hnn ⊢ with h3
    · simp only [Int.toNat_ofNat]
      exact h1
    · exfalso
      unfold U64 I63 at *
      omega

theorem recordsValid_beyond (s : SectionData) (bytes : List Byte) (count pos : Nat)
    (hc : 1 ≤ count) (hpos : bytes.length ≤ pos) :
    recordsValid s bytes count pos = none := by
  cases count with
  | zero => omega
  | succ k =>
    rw [recordsValid, if_neg (by omega)]

theorem Read_length (r : ReadSeeker) (p : List Byte) : (r.Read p).2.2.1.length = p.length := by
  unfold ReadSeeker.Read
  split
  · rfl
  · simp only
    split
    · simp only [List.length_append, List.length_drop]
      omega
    · simp only [List.length_take, List.length_drop]
      omega

theorem Read_window (r : ReadSeeker) (p : List Byte) (i m : Nat)
    (h1 : r.off + i + m ≤ r.bytes.length) (h2 : i + m ≤ p.length) (hm : 0 < m) :
    ((r.Read p).2.2.1.drop i).take m = (r.bytes.drop (r.off + i)).take m := by
  unfold ReadSeeker.Read
  rw [if_neg (by omega)]
  simp only
  split
  · rw [List.drop_append_of_le_length (by simp only [List.length_drop]; omega),
      List.take_append_of_le_length (by simp only [List.length_drop]; omega),
      List.drop_drop]
  · rw [List.drop_take, List.take_take, List.drop_drop]
    congr 1
    omega

theorem Read_continue (r : ReadSeeker) (p : List Byte) (hp : 0 < p.length) :
    (¬ ((r.Read p).1 = 0 ∨ (r.Read p).2.1 = some IoError.EOF)) ↔
      r.off + p.length ≤ r.bytes.length := by
  constructor
  · intro h
    by_contra hc
    exact h (Or.inr (Read_short r p (by omega)))
  · intro h
    rw [Read_full r p hp h]
    simp only [reduceCtorEq, or_false]
    omega

theorem Read_off_full (r : ReadSeeker) (p : List Byte) (hp : 0 < p.length)
    (h : r.off + p.length ≤ r.bytes.length) :
    (r.Read p).2.2.2 = { bytes := r.bytes, off := r.off + p.length } := by
  rw [Read_full r p hp h]

theorem Read_off_short (r : ReadSeeker) (p : List Byte)
    (h : r.bytes.length < r.off + p.length) :
    r.bytes.length ≤ (r.Read p).2.2.2.off := by
  unfold ReadSeeker.Read
  split
  · assumption
  · simp only
    rw [if_pos (by omega)]

theorem emittedAt_chunk (sd : SectionData)
    (bytes : List Byte) (hn : bytes.length < I63) (B : List Byte) (R : ReadSeeker)
    (hR : R.bytes = bytes) (off i : Nat) (hoff : off + i + sd.Ptrsz * 3 < U64)
    (hwin : off + i + sd.Ptrsz * 3 ≤ bytes.length →
      (B.drop i).take (sd.Ptrsz * 3) = (bytes.drop (off + i)).take (sd.Ptrsz * 3))
    (hcur : bytes.length ≤ off + i + sd.Ptrsz * 3 → bytes.length ≤ R.off) :
    emittedAt sd B off R i =
      if off + i + sd.Ptrsz * 3 < bytes.length then emitAtByte sd bytes (off + i) else none := by
  unfold I63 at hn
  unfold U64 at hoff
  have hrel : ∀ c, rawHit sd B off i = some c → TL_SectionOffset sd c.Addr =
      off + i + sd.Ptrsz * 3 := by
    intro c hc
    have hprops := rawHit_props sd B off i c hc
    rw [hprops.2.2.2.2.2.2, relAddr_anchor, Nat.mod_eq_of_lt hoff]
  by_cases hin : off + i + sd.Ptrsz * 3 < bytes.length
  · rw [if_pos hin]
    unfold emitAtByte emittedAt
    have hraw : rawHit sd B off i = rawHit sd bytes 0 (off + i) := by
      apply rawHit_window sd B bytes off 0 i (off + i) (hwin (by omega))
      unfold add64 U64
      omega
    rw [← hraw]
    cases hc : rawHit sd B off i with
    | none => simp only [Option.filter]
    | some c =>
      have hso := hrel c hc
      have e1 : validAt sd R c = validAt sd { bytes := bytes, off := 0 } c := by
        unfold validAt
        rw [validatorStart_eq sd R c (by unfold I63; omega),
          validatorStart_eq sd _ c (by unfold I63; omega), hR]
      simp only [Option.filter, e1]
  · rw [if_neg hin]
    unfold emittedAt
    cases hc : rawHit sd B off i with
    | none => simp only [Option.filter]
    | some c =>
      have hso := hrel c hc
      have hprops := rawHit_props sd B off i c hc
      have hstart : bytes.length ≤ validatorStart sd R c :=
        validatorStart_ge sd R c bytes.length (by omega) (hcur (by omega))
      have hv : validAt sd R c = none := by
        unfold validAt
        rw [hR]
        exact recordsValid_beyond sd bytes _ _ hprops.2.2.1 hstart
      simp [Option.filter, hv]

theorem filterMap_shift {β : Type} (E : Nat → Option β) (l : List Nat) (a m n : Nat) :
    l.filterMap (fun i => if a + i + m < n then E (a + i) else none) =
      ((l.map (a + ·)).filter (fun j => decide (j + m < n))).filterMap E := by
  induction l with
  | nil => rfl
  | cons i l ih =>
    rw [List.filterMap_cons, List.map_cons, List.filter_cons]
    by_cases h : a + i + m < n
    · simp only [h, if_true, decide_True, List.filterMap_cons]
      cases E (a + i) with
      | none => simpa using ih
      | some c => simpa using ih
    · simp only [h, if_false, decide_False]
      simpa using ih

theorem chunkedLoop_eq (sd : SectionData) (hp : sd.Ptrsz = 4 ∨ sd.Ptrsz = 8) (t : Nat)
    (ht : 0 < t) (ht63 : t < I63) (bytes : List Byte) (hn : bytes.length < I63) :
    ∀ (rem idx : Nat) (buf : List Byte) (r : ReadSeeker) (acc : List FSCandidate) (tot : Nat)
      (res : List FSCandidate × Nat × ReadSeeker),
      buf.length = t → r.bytes = bytes → r.off = t * idx → t * idx ≤ bytes.length →
      findCandidatesChunkedLoop sd t rem idx buf r acc tot = .ok res →
      res.1 = acc ++
        (chunkedOffsets sd.Ptrsz t bytes.length rem idx).filterMap (emitAtByte sd bytes) := by
  unfold I63 at ht63 hn
  intro rem
  induction rem with
  | zero =>
    intro idx buf r acc tot res _ _ _ _ h
    rw [findCandidatesChunkedLoop] at h
    injection h with h
    subst h
    simp [chunkedOffsets]
  | succ rem ih =>
    intro idx buf r acc tot res hlen hb hoff hle h
    rw [findCandidatesChunkedLoop] at h
    have hRlen := Read_length r buf
    have hRbytes := Read_bytes r buf
    have hRcont := Read_continue r buf (by omega)
    rcases hR : r.Read buf with ⟨read, err, B, R⟩
    rw [hR] at h hRlen hRbytes hRcont
    simp only at h hRlen hRbytes hRcont
    have hmul : mul64 t idx = t * idx := by
      unfold mul64 U64
      exact Nat.mod_eq_of_lt (by omega)
    rw [hmul] at h
    cases hs : candidateScan sd B (t * idx) R with
    | error e => rw [hs] at h; simp at h
    | ok v =>
      obtain ⟨found, r3⟩ := v
      rw [hs] at h
      simp only at h
      obtain ⟨hr3, hfound⟩ := candidateScan_mem sd hp B _ R found r3 hs
      have hfound2 : found =
          (((scanOffsets sd.Ptrsz t).map (t * idx + ·)).filter
            (fun j => decide (j + 3 * sd.Ptrsz < bytes.length))).filterMap
              (emitAtByte sd bytes) := by
        rw [hfound, hRlen, hlen, ← filterMap_shift]
        apply filterMap_congr_mem
        intro i hi
        have hi2 := (mem_scanOffsets _ _ _).mp hi
        rw [emittedAt_chunk sd bytes (by unfold I63; omega) B R (by rw [hRbytes, hb])
          (t * idx) i (by unfold U64; omega)]
        · have e : (t * idx + i + sd.Ptrsz * 3 < bytes.length) ↔
              (t * idx + i + 3 * sd.Ptrsz < bytes.length) := by omega
          simp only [e]
        · intro hfit
          have hw := Read_window r buf i (sd.Ptrsz * 3) (by rw [hb, hoff]; omega) (by omega)
            (by rcases hp with h4 | h8 <;> omega)
          rw [hR] at hw
          simp only at hw
          rw [hw, hb, hoff]
        · intro hbeyond
          have hsh := Read_off_short r buf (by rw [hb, hoff, hlen]; omega)
          rw [hR, hb] at hsh
          exact hsh
      rw [chunkedOffsets]
      split_ifs at h with hbreak
      · have hnot : ¬ (t * idx + t ≤ bytes.length) := by
          intro hc
          have := hRcont.mpr (by rw [hb, hoff, hlen]; exact hc)
          exact this hbreak
        injection h with h
        subst h
        rw [if_neg hnot, List.append_nil, ← hfound2]
      · have hfull : t * idx + t ≤ bytes.length := by
          have := hRcont.mp hbreak
          rw [hb, hoff, hlen] at this
          exact this
        have hRoff := Read_off_full r buf (by omega) (by rw [hb, hoff, hlen]; exact hfull)
        rw [hR] at hRoff
        simp only at hRoff
        have := ih (idx + 1) B r3 (acc ++ found) (tot + read) res (by rw [hRlen, hlen])
          (by rw [hr3, hRbytes, hb]) (by rw [hr3, hRoff, hoff, hlen, Nat.mul_succ])
          (by rw [Nat.mul_succ]; exact hfull) h
        rw [this, if_pos hfull, List.filterMap_append, ← hfound2, List.append_assoc]

/-! ## The offsets of the chunked scan -/

theorem mem_chunkedOffsets (p t n : Nat) :
    ∀ (rem idx j : Nat), j ∈ chunkedOffsets p t n rem idx ↔
      ∃ k i, idx ≤ k ∧ k < idx + rem ∧ i ∈ scanOffsets p t ∧ j = t * k + i ∧ j + 3 * p < n := by
  intro rem
  induction rem with
  | zero =>
    intro idx j
    simp only [chunkedOffsets, List.not_mem_nil, false_iff, not_exists, not_and]
    intro k i h1 h2
    omega
  | succ rem ih =>
    intro idx j
    rw [chunkedOffsets, List.mem_append, List.mem_filter, List.mem_map]
    simp only [decide_eq_true_eq]
    constructor
    · rintro (⟨⟨i, hi, rfl⟩, hj⟩ | hrest)
      · exact ⟨idx, i, le_refl _, by omega, hi, rfl, hj⟩
      · split_ifs at hrest with hfull
        · obtain ⟨k, i, h1, h2, h3, h4, h5⟩ := (ih (idx + 1) j).mp hrest
          exact ⟨k, i, by omega, by omega, h3, h4, h5⟩
        · simp at hrest
    · rintro ⟨k, i, h1, h2, h3, h4, h5⟩
      by_cases hk : k = idx
      · left
        subst hk
        exact ⟨⟨i, h3, h4.symm⟩, h5⟩
      · right
        have hk2 : idx + 1 ≤ k := by omega
        have hmul : t * (idx + 1) ≤ t * k := Nat.mul_le_mul_left t hk2
        rw [Nat.mul_succ] at hmul
        rw [if_pos (by omega)]
        exact (ih (idx + 1) j).mpr ⟨k, i, hk2, by omega, h3, h4, h5⟩

theorem chunkedOffsets_bounds (p t n rem idx j : Nat) (h : j ∈ chunkedOffsets p t n rem idx) :
    t * idx ≤ j ∧ j + 3 * p < n := by
  obtain ⟨k, i, h1, _, _, h4, h5⟩ := (mem_chunkedOffsets p t n rem idx j).mp h
  have hmul : t * idx ≤ t * k := Nat.mul_le_mul_left t h1
  exact ⟨by omega, h5⟩

theorem sorted_chunkedOffsets (p t n : Nat) :
    ∀ (rem idx : Nat), List.Pairwise (· < ·) (chunkedOffsets p t n rem idx) := by
  intro rem
  induction rem with
  | zero => intro idx; simp [chunkedOffsets]
  | succ rem ih =>
    intro idx
    rw [chunkedOffsets, List.pairwise_append]
    refine ⟨?_, ?_, ?_⟩
    · apply List.Pairwise.filter
      exact List.Pairwise.map _ (fun a b hab => by omega) (sorted_scanOffsets p t)
    · split_ifs
      · exact ih (idx + 1)
      · exact List.Pairwise.nil
    · intro a ha b hb
      rw [List.mem_filter, List.mem_map] at ha
      obtain ⟨⟨i, hi, rfl⟩, _⟩ := ha
      have hi2 := (mem_scanOffsets _ _ _).mp hi
      split_ifs at hb
      · have hb2 := (chunkedOffsets_bounds p t n rem (idx + 1) b hb).1
        rw [Nat.mul_succ] at hb2
        omega
      · simp at hb

/-! ## C10: the order of the returned candidates -/

theorem addr_eq_base_add (sd : SectionData) (c : FSCandidate) (h : CandidateOk sd c)
    (hlt : c.Addr < U64) :
    c.Addr = add64 sd.VirtualAddr sd.BaseAddr + c.RelAddr := by
  obtain ⟨h1, _, h3⟩ := h
  unfold SectionData.ContainsAddr at h1
  simp only [ge_iff_le, Bool.and_eq_true, decide_eq_true_eq] at h1
  have hb := add64_lt sd.VirtualAddr sd.BaseAddr
  rw [h3]
  unfold sub64
  unfold U64 at *
  omega

theorem emittedAt_addr (sd : SectionData) (hp : sd.Ptrsz = 4 ∨ sd.Ptrsz = 8)
    (B : List Byte) (co : Nat) (R : ReadSeeker) (i : Nat) (c : FSCandidate)
    (h : emittedAt sd B co R i = some c) (hb : co + i + 3 * sd.Ptrsz < U64) :
    c.RelAddr = co + i + 3 * sd.Ptrsz ∧
      c.Addr = add64 sd.VirtualAddr sd.BaseAddr + (co + i + 3 * sd.Ptrsz) := by
  have hprops := rawHit_props sd B co i c (emittedAt_some _ _ _ _ _ _ h).1
  have hrel : c.RelAddr = co + i + 3 * sd.Ptrsz := by
    rw [hprops.2.2.2.2.2.1, hprops.2.2.2.2.2.2, relAddr_anchor]
    have e : co + i + sd.Ptrsz * 3 = co + i + 3 * sd.Ptrsz := by omega
    rw [e]
    exact Nat.mod_eq_of_lt hb
  refine ⟨hrel, ?_⟩
  have hok : CandidateOk sd c := ⟨hprops.2.2.2.2.1, hprops.2.2.1, hprops.2.2.2.2.2.1⟩
  have hlt : c.Addr < U64 := by
    rw [hprops.1]
    exact word_lt_U64 sd hp B i
  rw [addr_eq_base_add sd c hok hlt, hrel]

theorem pairwise_emitted (sd : SectionData) (hp : sd.Ptrsz = 4 ∨ sd.Ptrsz = 8)
    (B : List Byte) (co : Nat) (R : ReadSeeker) (offs : List Nat)
    (hs : offs.Pairwise (· < ·)) (hb : ∀ i ∈ offs, co + i + 3 * sd.Ptrsz < U64) :
    (offs.filterMap (emittedAt sd B co R)).Pairwise (fun a b => a.Addr < b.Addr) := by
  induction offs with
  | nil => simp
  | cons i offs ih =>
    rw [List.pairwise_cons] at hs
    have ih2 := ih hs.2 (fun j hj => hb j (List.mem_cons_of_mem i hj))
    rw [List.filterMap_cons]
    cases he : emittedAt sd B co R i with
    | none => exact ih2
    | some c =>
      simp only
      rw [List.pairwise_cons]
      refine ⟨?_, ih2⟩
      intro d hd
      obtain ⟨j, hj, hjd⟩ := List.mem_filterMap.mp hd
      have h1 := (emittedAt_addr sd hp B co R i c he (hb i (List.mem_cons_self i offs))).2
      have h2 := (emittedAt_addr sd hp B co R j d hjd (hb j (List.mem_cons_of_mem i hj))).2
      have hlt := hs.1 j hj
      omega

theorem findCandidatesChunked_eq (t : Nat) (sd : SectionData) (r : ReadSeeker)
    (hp : sd.Ptrsz = 4 ∨ sd.Ptrsz = 8) (hoff : r.off = 0) (hlen : r.bytes.length < I63)
    (cands : List FSCandidate) (r' : ReadSeeker)
    (h : findCandidatesChunked t sd r = .ok (cands, r')) :
    0 < t ∧ cands = (chunkedOffsets sd.Ptrsz t r.bytes.length
      ((sd.FileSize / t + 1) % U64) 0).filterMap (emitAtByte sd r.bytes) := by
  unfold findCandidatesChunked at h
  simp only at h
  cases hm : make t with
  | error e => rw [hm] at h; simp at h
  | ok buf =>
    rw [hm] at h
    simp only at h
    have ht63 := (make_eq_ok hm).2.1
    have hm := (make_eq_ok hm).2.2.symm
    split_ifs at h with ht0
    cases hl : findCandidatesChunkedLoop sd t ((sd.FileSize / t + 1) % U64) 0 buf r [] 0 with
    | error e => rw [hl] at h; simp at h
    | ok res =>
      rw [hl] at h
      obtain ⟨cs, tot, r2⟩ := res
      simp only at h
      split_ifs at h
      simp only [Except.ok.injEq, Prod.mk.injEq] at h
      have := chunkedLoop_eq sd hp t (by omega) ht63 r.bytes hlen _ 0 buf r [] 0 _
        (by rw [← hm]; simp) rfl (by rw [hoff]; simp) (by simp) hl
      simp only [List.nil_append] at this
      exact ⟨by omega, by rw [← h.1, this]⟩

/-- C10. For a section whose byte source is at its start and holds fewer than `2^63`
bytes (it is addressed by signed 64-bit offsets), the list `findCandidates` returns, in
either mode, is strictly ascending in `Addr`: an earlier candidate has a smaller address
than every later one. -/
theorem findCandidates_ascending (flagChunkSize : Nat) (sd : SectionData) (r : ReadSeeker)
    (hp : sd.Ptrsz = 4 ∨ sd.Ptrsz = 8) (hoff : r.off = 0) (hlen : r.bytes.length < I63)
    (cands : List FSCandidate) (r' : ReadSeeker)
    (h : findCandidates flagChunkSize sd r = .ok (cands, r')) :
    cands.Pairwise (fun a b => a.Addr < b.Addr) := by
  unfold findCandidates at h
  split_ifs at h
  · rw [(findCandidatesChunked_eq flagChunkSize sd r hp hoff hlen cands r' h).2]
    unfold emitAtByte
    apply pairwise_emitted sd hp _ 0 _ _ (sorted_chunkedOffsets _ _ _ _ _)
    intro i hi
    have := (chunkedOffsets_bounds _ _ _ _ _ _ hi).2
    unfold I63 at hlen
    unfold U64
    omega
  · unfold findCandidatesUnChunked at h
    cases hm : make sd.FileSize with
    | error e => rw [hm] at h; simp at h
    | ok buf =>
      rw [hm] at h
      simp only at h
      have hf63 := (make_eq_ok hm).2.1
      have hm := (make_eq_ok hm).2.2.symm
      have hRlen := Read_length r buf
      rcases hR : r.Read buf with ⟨read, err, buf2, r2⟩
      rw [hR] at h hRlen
      simp only at h hRlen
      split_ifs at h
      rw [(candidateScan_mem sd hp _ _ _ _ _ h).2]
      apply pairwise_emitted sd hp _ 0 _ _ (sorted_scanOffsets _ _)
      intro i hi
      have := (mem_scanOffsets _ _ _).mp hi
      have hbl : buf.length = sd.FileSize := by rw [← hm]; simp
      unfold I63 at hf63
      unfold U64
      omega

/-- C10 at the section with two filesystems, scanned in chunks of 44 bytes. -/
theorem findCandidates_ascending_witness :
    (pairSection.Ptrsz = 4 ∨ pairSection.Ptrsz = 8) ∧ pairReader.off = 0 ∧
    pairReader.bytes.length < I63 ∧
    findCandidates 44 pairSection pairReader = .ok (pairCandidates, pairReaderEnd) ∧
    findCandidates 128 pairSection pairReader = .ok (pairCandidates, pairReaderEnd) ∧
    pairCandidates.Pairwise (fun a b => a.Addr < b.Addr) :=
  ⟨by decide, by rfl, by decide, by rfl, by rfl,
    findCandidates_ascending 44 pairSection pairReader (by decide) (by rfl) (by decide)
      pairCandidates pairReaderEnd (by rfl)⟩

/-! ## C3: the chunked scan against the unchunked scan -/

theorem findCandidatesUnChunked_eq (sd : SectionData) (r : ReadSeeker)
    (hp : sd.Ptrsz = 4 ∨ sd.Ptrsz = 8) (hoff : r.off = 0) (hlen : r.bytes.length = sd.FileSize)
    (cands : List FSCandidate) (r' : ReadSeeker)
    (h : findCandidatesUnChunked sd r = .ok (cands, r')) :
    r.bytes.length < I63 ∧
      cands = (scanOffsets sd.Ptrsz r.bytes.length).filterMap (emitAtByte sd r.bytes) := by
  unfold findCandidatesUnChunked at h
  cases hm : make sd.FileSize with
  | error e => rw [hm] at h; simp at h
  | ok buf =>
    rw [hm] at h
    simp only at h
    have hf63 := (make_eq_ok hm).2.1
    have hm := (make_eq_ok hm).2.2.symm
    have hbl : buf.length = sd.FileSize := by rw [← hm]; simp
    have hRlen := Read_length r buf
    have hRbytes := Read_bytes r buf
    by_cases hz : sd.FileSize = 0
    · exfalso
      have hge : r.off ≥ r.bytes.length := by omega
      unfold ReadSeeker.Read at h
      rw [if_pos hge] at h
      simp at h
    · have hfull := Read_full r buf (by omega) (by omega)
      rcases hR : r.Read buf with ⟨read, err, buf2, r2⟩
      rw [hR] at h hRlen hRbytes hfull
      simp only at h hRlen hRbytes
      split_ifs at h
      refine ⟨by rw [hlen]; exact hf63, ?_⟩
      rw [(candidateScan_mem sd hp _ _ _ _ _ h).2, hRlen, hbl, ← hlen]
      apply filterMap_congr_mem
      intro i hi
      have hi2 := (mem_scanOffsets _ _ _).mp hi
      rw [emittedAt_chunk sd r.bytes (by rw [hlen]; exact hf63) buf2 r2 hRbytes 0 i
        (by unfold I63 at hf63; unfold U64; omega)]
      · rw [if_pos (by omega), Nat.zero_add]
      · intro _
        have hw := Read_window r buf i (sd.Ptrsz * 3) (by omega) (by omega)
          (by rcases hp with h4 | h8 <;> omega)
        rw [hR] at hw
        simp only at hw
        rw [hw, hoff]
      · intro _
        have e : r2 = { bytes := r.bytes, off := r.off + buf.length } := by
          injection hfull with _ h2
          injection h2 with _ h3
          injection h3 with _ h4
        rw [e]
        simp only
        omega

theorem chunkedOffsets_eq_filter (p t n : Nat) (hp : 0 < p) (hpt : t % p = 0) :
    chunkedOffsets p t n (n / t + 1) 0 =
      (scanOffsets p n).filter (fun j => decide (j % t + 3 * p < t)) := by
  have hdvd : p ∣ t := Nat.dvd_of_mod_eq_zero hpt
  apply List.eq_of_perm_of_sorted (r := (· < ·)) _ (sorted_chunkedOffsets p t n _ _)
    (List.Pairwise.filter _ (sorted_scanOffsets p n))
  rw [List.perm_ext_iff_of_nodup (List.Sorted.nodup (sorted_chunkedOffsets p t n _ _))
    (List.Sorted.nodup (List.Pairwise.filter _ (sorted_scanOffsets p n)))]
  intro j
  rw [mem_chunkedOffsets, List.mem_filter, mem_scanOffsets]
  simp only [decide_eq_true_eq]
  constructor
  · rintro ⟨k, i, _, _, hi, hj, hjn⟩
    have hi2 := (mem_scanOffsets _ _ _).mp hi
    have hmod : j % t = i := by
      rw [hj, Nat.mul_add_mod, Nat.mod_eq_of_lt (by omega)]
    have hmp : j % p = 0 := by
      rw [← Nat.mod_mod_of_dvd j hdvd, hmod]
      exact hi2.1
    exact ⟨⟨hmp, hjn⟩, by rw [hmod]; exact hi2.2⟩
  · rintro ⟨⟨hmp, hjn⟩, hq⟩
    refine ⟨j / t, j % t, Nat.zero_le _, ?_, ?_, (Nat.div_add_mod j t).symm, hjn⟩
    · have : j / t ≤ n / t := Nat.div_le_div_right (by omega)
      omega
    · rw [mem_scanOffsets]
      refine ⟨?_, hq⟩
      rw [Nat.mod_mod_of_dvd j hdvd]
      exact hmp

/-- The list the chunked scan returns is the list the unchunked scan returns, restricted
to the candidates whose header lies in one chunk and ends before the end of the chunk. -/
theorem chunked_eq_filter_unchunked (t : Nat) (sd : SectionData) (r : ReadSeeker)
    (hp : sd.Ptrsz = 4 ∨ sd.Ptrsz = 8) (htp : t % sd.Ptrsz = 0)
    (hoff : r.off = 0) (hlen : r.bytes.length = sd.FileSize)
    (U C : List FSCandidate) (rU rC : ReadSeeker)
    (hU : findCandidatesUnChunked sd r = .ok (U, rU))
    (hC : findCandidatesChunked t sd r = .ok (C, rC)) :
    C = U.filter (headerInsideChunk sd t) := by
  obtain ⟨hn63, hUeq⟩ := findCandidatesUnChunked_eq sd r hp hoff hlen U rU hU
  obtain ⟨ht0, hCeq⟩ := findCandidatesChunked_eq t sd r hp hoff hn63 C rC hC
  have hbound : (sd.FileSize / t + 1) % U64 = r.bytes.length / t + 1 := by
    rw [← hlen]
    apply Nat.mod_eq_of_lt
    have : r.bytes.length / t ≤ r.bytes.length := Nat.div_le_self _ _
    unfold I63 at hn63
    unfold U64
    omega
  rw [hCeq, hUeq, hbound,
    chunkedOffsets_eq_filter _ _ _ (by rcases hp with h | h <;> omega) htp,
    List.filterMap_filter, List.filter_filterMap]
  apply filterMap_congr_mem
  intro j hj
  have hj2 := (mem_scanOffsets _ _ _).mp hj
  cases hE : emitAtByte sd r.bytes j with
  | none => simp [Option.filter]
  | some c =>
    have hrel := (emittedAt_addr sd hp r.bytes 0 _ j c hE
      (by unfold I63 at hn63; unfold U64; omega)).1
    have e : c.RelAddr - 3 * sd.Ptrsz = j := by omega
    simp only [Option.filter, headerInsideChunk, e]

/-- C3 as stated fails: in the 56-byte section `straddleSection` (pointer size 4) the
header at offset 8 straddles the boundary of the first 16-byte chunk; 16 is a multiple
of the pointer size and at least `3 * 4`.  The unchunked scan returns the candidate, the
chunked scan with chunk size 16 returns none. -/
theorem chunked_misses_straddling_header :
    (straddleSection.Ptrsz = 4 ∨ straddleSection.Ptrsz = 8) ∧
    16 % straddleSection.Ptrsz = 0 ∧ 3 * straddleSection.Ptrsz ≤ 16 ∧
    findCandidatesUnChunked straddleSection straddleReader =
      .ok ([straddleCandidate], straddleReaderEnd) ∧
    findCandidatesChunked 16 straddleSection straddleReader = .ok ([], straddleReaderEnd) := by
  refine ⟨by decide, by decide, by decide, by rfl, by rfl⟩

/-- C3 (amended). For a section with pointer size 4 or 8 whose byte source is at its
start and holds exactly `file_size` bytes, and a chunk size `t` that is a multiple of the
pointer size with `t ≥ 3 * ptr_size`: whenever the unchunked and the chunked scan both
return, the chunked list is a sublist of the unchunked list (same candidates in the same
order, some possibly missing); it contains every unchunked candidate whose header, which
starts at section offset `h = RelAddr - 3 * ptr_size`, satisfies
`h mod t + 3 * ptr_size < t`; and it contains no candidate whose header straddles a chunk
boundary (`h mod t + 3 * ptr_size > t`). -/
theorem chunked_sublist_unchunked (t : Nat) (sd : SectionData) (r : ReadSeeker)
    (hp : sd.Ptrsz = 4 ∨ sd.Ptrsz = 8) (htp : t % sd.Ptrsz = 0) (_ht : 3 * sd.Ptrsz ≤ t)
    (hoff : r.off = 0) (hlen : r.bytes.length = sd.FileSize)
    (U C : List FSCandidate) (rU rC : ReadSeeker)
    (hU : findCandidatesUnChunked sd r = .ok (U, rU))
    (hC : findCandidatesChunked t sd r = .ok (C, rC)) :
    C.Sublist U ∧
    (∀ c ∈ U, (c.RelAddr - 3 * sd.Ptrsz) % t + 3 * sd.Ptrsz < t → c ∈ C) ∧
    (∀ c ∈ C, ¬ ((c.RelAddr - 3 * sd.Ptrsz) % t + 3 * sd.Ptrsz > t)) := by
  have h := chunked_eq_filter_unchunked t sd r hp htp hoff hlen U C rU rC hU hC
  refine ⟨?_, ?_, ?_⟩
  · rw [h]
    exact List.filter_sublist U
  · intro c hc hin
    rw [h, List.mem_filter]
    exact ⟨hc, by simpa [headerInsideChunk] using hin⟩
  · intro c hc
    rw [h, List.mem_filter] at hc
    have := hc.2
    simp only [headerInsideChunk, decide_eq_true_eq] at this
    omega

/-- C3 (amended) at the section with two filesystems and a chunk size of 44: both
headers lie inside a chunk and both scans return the two candidates. -/
theorem chunked_sublist_unchunked_witness :
    ((pairSection.Ptrsz = 4 ∨ pairSection.Ptrsz = 8) ∧ 44 % pairSection.Ptrsz = 0 ∧
      3 * pairSection.Ptrsz ≤ 44 ∧ pairReader.off = 0 ∧
      pairReader.bytes.length = pairSection.FileSize ∧
      findCandidatesUnChunked pairSection pairReader = .ok (pairCandidates, pairReaderEnd) ∧
      findCandidatesChunked 44 pairSection pairReader = .ok (pairCandidates, pairReaderEnd)) ∧
    (pairCandidates.Sublist pairCandidates ∧
      (∀ c ∈ pairCandidates,
        (c.RelAddr - 3 * pairSection.Ptrsz) % 44 + 3 * pairSection.Ptrsz < 44 →
          c ∈ pairCandidates) ∧
      (∀ c ∈ pairCandidates,
        ¬ ((c.RelAddr - 3 * pairSection.Ptrsz) % 44 + 3 * pairSection.Ptrsz > 44))) :=
  ⟨⟨by decide, by decide, by decide, by rfl, by rfl, by rfl, by rfl⟩,
    chunked_sublist_unchunked 44 pairSection pairReader (by decide) (by decide) (by decide)
      (by rfl) (by rfl) pairCandidates pairCandidates pairReaderEnd pairReaderEnd
      (by rfl) (by rfl)⟩

/-! ## C8: the size of a materialized entry -/

/-- C8 (evaluation at the failing input). The candidate of `wideSection` is accepted by
`isValidCandidate`; `Entry(0)` succeeds and its name has the record's length 1, but its
`Data.Size` is `2^63`, far above `2 * 10^9`. -/
theorem entry_data_size_exceeds_max :
    isValidCandidate wideSection wideReader wideCandidate = .ok (true, wideReader) ∧
    wideCandidate.Entry wideSection wideReader 0 =
      .ok (some { Name := [97],
                  Data := { Addr := 18446744073709543424, Size := 9223372036854775808 },
                  Hash := demoHash,
                  IsDir := false }, wideReader) ∧
    ¬ ((9223372036854775808 : Nat) ≤ 2000000000) := by
  refine ⟨by rfl, by rfl, by decide⟩

/-! ## C9: the data address of a materialized entry -/

theorem recordsValid_true (s : SectionData) (bytes : List Byte) :
    ∀ (count pos : Nat), recordsValid s bytes count pos = some true →
      ∀ k, k < count → pos + k * (s.Ptrsz * 4 + 16) + (s.Ptrsz * 4 + 16) ≤ bytes.length ∧
        recordOk s bytes (pos + k * (s.Ptrsz * 4 + 16)) = true := by
  intro count
  induction count with
  | zero => intro pos _ k hk; omega
  | succ count ih =>
    intro pos h k hk
    rw [recordsValid] at h
    by_cases hfit : pos + (s.Ptrsz * 4 + 16) ≤ bytes.length
    swap
    · rw [if_neg hfit] at h
      simp at h
    rw [if_pos hfit] at h
    by_cases hok : recordOk s bytes pos = true
    swap
    · rw [if_neg hok] at h
      simp at h
    rw [if_pos hok] at h
    cases k with
    | zero =>
      simp only [Nat.zero_mul, Nat.add_zero]
      exact ⟨hfit, hok⟩
    | succ k =>
      have := ih (pos + (s.Ptrsz * 4 + 16)) h k (by omega)
      have e : pos + (k + 1) * (s.Ptrsz * 4 + 16) =
          pos + (s.Ptrsz * 4 + 16) + k * (s.Ptrsz * 4 + 16) := by
        rw [Nat.succ_mul]
        omega
      rw [e]
      exact this

theorem ReadAt_full (s : SectionData) (r : ReadSeeker) (off m : Nat) (hoff : off < I63)
    (hm0 : 0 < m) (hm : m ≤ maxAlloc) (hfit : off + m ≤ r.bytes.length) :
    s.ReadAt r (toInt64 off) m = .ok (.ok ((r.bytes.drop off).take m), r) := by
  unfold SectionData.ReadAt make
  rw [if_pos hm, toInt64_nonneg hoff]
  simp only
  have hseek : r.Seek (off : Int) = { bytes := r.bytes, off := off } := by
    unfold ReadSeeker.Seek
    rw [if_neg (by omega)]
    simp
  rw [hseek, Read_full _ _ (by simp; omega) (by simp; omega)]
  simp only [List.length_replicate, ne_eq, not_true_eq_false, if_false]
  have hmod : m % U64 = m := Nat.mod_eq_of_lt (by unfold maxAlloc at hm; unfold U64; omega)
  rw [hmod]
  simp only [not_true_eq_false, if_false]
  rw [Seek_Tell r ⟨r.bytes, off + m⟩ rfl]

theorem NewFSCEFromBuffer_data (s : SectionData) (hp : s.Ptrsz = 4 ∨ s.Ptrsz = 8)
    (b : List Byte) (r : ReadSeeker) (e : FSCEntry) (r' : ReadSeeker)
    (hb : s.Ptrsz * 4 ≤ b.length) (h : NewFSCEFromBuffer b s r = .ok (e, r')) :
    e.Data.Addr = TL_SectionOffset s (s.word b (s.Ptrsz * 2)) ∧
      e.Data.Size = s.word b (s.Ptrsz * 3) := by
  unfold NewFSCEFromBuffer at h
  rw [bind_readptr_slice s hp _ 0 _ (by omega) (by omega)] at h
  rw [bind_readptr_slice s hp _ s.Ptrsz (s.Ptrsz * 2) (by omega) (by omega)] at h
  rw [bind_readptr_slice s hp _ (s.Ptrsz * 2) (s.Ptrsz * 3) (by omega) (by omega)] at h
  rw [bind_readptr_slice s hp _ (s.Ptrsz * 3) (s.Ptrsz * 4) (by omega) (by omega)] at h
  simp only [bind, Except.bind] at h
  cases hra : s.ReadAt r (toInt64 (TL_SectionOffset s (s.word b 0))) (s.word b s.Ptrsz) with
  | error x => rw [hra] at h; simp at h
  | ok v =>
    obtain ⟨res, r2⟩ := v
    rw [hra] at h
    simp only at h
    cases res with
    | error x => simp at h
    | ok name_b =>
      simp only at h
      cases hsl : sliceFrom b (s.Ptrsz * 4) with
      | error x => rw [hsl] at h; simp at h
      | ok hs =>
        rw [hsl] at h
        simp only [Except.ok.injEq, Prod.mk.injEq] at h
        rw [← h.1]
        exact ⟨rfl, rfl⟩

theorem translate_back (s : SectionData) (v : Nat) (hv : v < U64) :
    add64 (add64 (TL_SectionOffset s v) s.VirtualAddr) s.BaseAddr = v := by
  unfold TL_SectionOffset add64 sub64 U64 at *
  omega

/-- C9 as stated fails: in the demo section (virtual address `0x1000`) the accepted
candidate's record has a zero data pointer, and the materialized entry has
`Data.Addr = 2^64 - 0x1000`, which is neither zero nor contained in the section. -/
theorem entry_data_addr_counterexample :
    isValidCandidate demoSection demoReader demoCandidate = .ok (true, demoReader) ∧
    demoSection.word demoBytes (12 + 4 * 2) = 0 ∧
    demoCandidate.Entry demoSection demoReader 0 =
      .ok (some { Name := [97],
                  Data := { Addr := 18446744073709547520, Size := 0 },
                  Hash := demoHash,
                  IsDir := false }, demoReader) ∧
    (18446744073709547520 : Nat) ≠ 0 ∧
    demoSection.ContainsAddr 18446744073709547520 = false := by
  refine ⟨by rfl, by rfl, by rfl, by decide, by rfl⟩

/-- C9 (amended). For an accepted candidate `c` as the scanner builds it
(`RelAddr = TL_SectionOffset Addr`, below `2^63`) over a byte source of fewer than `2^63`
bytes, and every entry `e` that `Entry(i)` materializes from it: `i` is below
`EntryCount`; with `data_ptr` the third word of record `i`, read from the section bytes
at offset `RelAddr + i * (4 * ptr_size + 16) + 2 * ptr_size`, `e.Data.Addr` is
`TL_SectionOffset data_ptr`, the section-relative offset of the data pointer and not a
virtual address; `e.Data.Addr + virtual_addr + base_addr` in unsigned 64-bit arithmetic
is `data_ptr` again; and `data_ptr` is zero or contained in the section. -/
theorem entry_data_addr (sd : SectionData) (hp : sd.Ptrsz = 4 ∨ sd.Ptrsz = 8)
    (r : ReadSeeker) (c : FSCandidate) (i : Nat) (e : FSCEntry) (r' : ReadSeeker)
    (hrel : c.RelAddr = TL_SectionOffset sd c.Addr) (hsmall : c.RelAddr < I63)
    (hbytes : r.bytes.length < I63)
    (hacc : isValidCandidate sd r c = .ok (true, r))
    (hE : c.Entry sd r i = .ok (some e, r')) :
    i < c.EntryCount ∧
    e.Data.Addr = TL_SectionOffset sd
      (sd.word r.bytes (c.RelAddr + i * (sd.Ptrsz * 4 + 16) + sd.Ptrsz * 2)) ∧
    add64 (add64 e.Data.Addr sd.VirtualAddr) sd.BaseAddr =
      sd.word r.bytes (c.RelAddr + i * (sd.Ptrsz * 4 + 16) + sd.Ptrsz * 2) ∧
    (sd.word r.bytes (c.RelAddr + i * (sd.Ptrsz * 4 + 16) + sd.Ptrsz * 2) = 0 ∨
      sd.ContainsAddr
        (sd.word r.bytes (c.RelAddr + i * (sd.Ptrsz * 4 + 16) + sd.Ptrsz * 2)) = true) := by
  have hv := (validAt_iff sd hp r c true).mpr hacc
  unfold validAt at hv
  rw [validatorStart_eq sd r c (by rw [← hrel]; exact hsmall), ← hrel] at hv
  unfold FSCandidate.Entry at hE
  by_cases hi : i ≥ c.EntryCount
  · rw [if_pos hi] at hE
    simp at hE
  rw [if_neg hi] at hE
  have hrec := recordsValid_true sd r.bytes _ _ hv i (by omega)
  obtain ⟨hfit, hok⟩ := hrec
  have hes : FSCandidate.EntrySize sd = sd.Ptrsz * 4 + 16 := by
    unfold FSCandidate.EntrySize U64
    rcases hp with h | h <;> rw [h]
  have hmul : mul64 (sd.Ptrsz * 4 + 16) i = i * (sd.Ptrsz * 4 + 16) := by
    unfold mul64
    rw [Nat.mul_comm]
    apply Nat.mod_eq_of_lt
    unfold I63 at hbytes
    unfold U64
    omega
  have hrsa : add64 (i * (sd.Ptrsz * 4 + 16)) c.RelAddr = c.RelAddr + i * (sd.Ptrsz * 4 + 16) := by
    unfold add64
    rw [Nat.add_comm]
    apply Nat.mod_eq_of_lt
    unfold I63 at hbytes
    unfold U64
    omega
  simp only [hes, hmul, hrsa] at hE
  rw [ReadAt_full sd r _ _ (by unfold I63 at *; omega) (by omega)
    (by unfold maxAlloc; rcases hp with h | h <;> omega) hfit] at hE
  simp only at hE
  cases hN : NewFSCEFromBuffer
      ((r.bytes.drop (c.RelAddr + i * (sd.Ptrsz * 4 + 16))).take (sd.Ptrsz * 4 + 16)) sd r with
  | error x => rw [hN] at hE; simp at hE
  | ok v =>
    obtain ⟨e2, r2⟩ := v
    rw [hN] at hE
    simp only [Except.ok.injEq, Prod.mk.injEq, Option.some.injEq] at hE
    have hdata := (NewFSCEFromBuffer_data sd hp _ r e2 r2
      (by simp only [List.length_take, List.length_drop]; omega) hN).1
    rw [hE.1, word_window sd _ _ _ _ (by omega)] at hdata
    have hw := word_lt_U64 sd hp r.bytes (c.RelAddr + i * (sd.Ptrsz * 4 + 16) + sd.Ptrsz * 2)
    refine ⟨by omega, hdata, by rw [hdata, translate_back sd _ hw], ?_⟩
    unfold recordOk at hok
    simp only at hok
    split_ifs at hok with h1 h2 h3
    simp only [Bool.or_eq_true, Bool.not_eq_true', Bool.and_eq_true, bne_iff_ne, ne_eq,
      not_or, not_and, Bool.not_eq_false, Decidable.not_not] at h2
    by_cases hz : sd.word r.bytes (c.RelAddr + i * (sd.Ptrsz * 4 + 16) + sd.Ptrsz * 2) = 0
    · exact Or.inl hz
    · right
      by_contra hcon
      exact hz (h2.2 (by simpa using hcon))

/-- C9 (amended) at the section with two entries: the data pointer of record 0 is
`0x104e`, the address of the end of the section, which the section contains, and the
data address of the entry is its section-relative offset 78; the data pointer of record 1
is zero and the data address of the entry is `2^64 - 0x1000`. -/
theorem entry_data_addr_witness :
    ((blobSection.Ptrsz = 4 ∨ blobSection.Ptrsz = 8) ∧
      blobCandidate.RelAddr = TL_SectionOffset blobSection blobCandidate.Addr ∧
      blobCandidate.RelAddr < I63 ∧ blobReader.bytes.length < I63 ∧
      isValidCandidate blobSection blobReader blobCandidate = .ok (true, blobReader) ∧
      blobCandidate.Entry blobSection blobReader 0 = .ok (some (blobEntry 97 78 0), blobReader) ∧
      blobCandidate.Entry blobSection blobReader 1 =
        .ok (some (blobEntry 98 18446744073709547520 1), blobReader)) ∧
    (blobSection.word blobReader.bytes (12 + 0 * 32 + 8) = 4174 ∧
      blobSection.word blobReader.bytes (12 + 1 * 32 + 8) = 0) ∧
    (0 < blobCandidate.EntryCount ∧
      (blobEntry 97 78 0).Data.Addr = TL_SectionOffset blobSection
        (blobSection.word blobReader.bytes
          (blobCandidate.RelAddr + 0 * (blobSection.Ptrsz * 4 + 16) + blobSection.Ptrsz * 2)) ∧
      add64 (add64 (blobEntry 97 78 0).Data.Addr blobSection.VirtualAddr) blobSection.BaseAddr =
        blobSection.word blobReader.bytes
          (blobCandidate.RelAddr + 0 * (blobSection.Ptrsz * 4 + 16) + blobSection.Ptrsz * 2) ∧
      (blobSection.word blobReader.bytes
          (blobCandidate.RelAddr + 0 * (blobSection.Ptrsz * 4 + 16) + blobSection.Ptrsz * 2) = 0 ∨
        blobSection.ContainsAddr (blobSection.word blobReader.bytes
          (blobCandidate.RelAddr + 0 * (blobSection.Ptrsz * 4 + 16) + blobSection.Ptrsz * 2)) =
            true)) ∧
    (blobEntry 98 18446744073709547520 1).Data.Addr = TL_SectionOffset blobSection
        (blobSection.word blobReader.bytes
          (blobCandidate.RelAddr + 1 * (blobSection.Ptrsz * 4 + 16) + blobSection.Ptrsz * 2)) :=
  ⟨⟨by decide, by rfl, by decide, by decide, by rfl, by rfl, by rfl⟩, ⟨by rfl, by rfl⟩,
    entry_data_addr blobSection (by decide) blobReader blobCandidate 0 (blobEntry 97 78 0)
      blobReader (by rfl) (by decide) (by decide) (by rfl) (by rfl),
    (entry_data_addr blobSection (by decide) blobReader blobCandidate 1
      (blobEntry 98 18446744073709547520 1) blobReader (by rfl) (by decide) (by decide)
      (by rfl) (by rfl)).2.1⟩

/-! ## What the validator decides on readable records -/

theorem recordOk_iff (s : SectionData) (bytes : List Byte) (pos : Nat) :
    recordOk s bytes pos = true ↔
      (1 ≤ s.word bytes (pos + s.Ptrsz) ∧ s.word bytes (pos + s.Ptrsz) ≤ 255) ∧
      s.ContainsAddr (s.word bytes pos) = true ∧
      (s.ContainsAddr (s.word bytes (pos + s.Ptrsz * 2)) = true ∨
        s.word bytes (pos + s.Ptrsz * 2) = 0) ∧
      toInt64 (s.word bytes (pos + s.Ptrsz * 3)) ≤ MAX_FILE_SIZE := by
  unfold recordOk
  simp only
  constructor
  · intro h
    split_ifs at h with h1 h2 h3
    simp only [Bool.or_eq_true, Bool.not_eq_true', Bool.and_eq_true, bne_iff_ne, ne_eq,
      not_or, not_and, Bool.not_eq_false, Decidable.not_not] at h2
    refine ⟨by omega, h2.1, ?_, by omega⟩
    by_cases hz : s.word bytes (pos + s.Ptrsz * 2) = 0
    · exact Or.inr hz
    · left
      by_contra hcon
      exact hz (h2.2 (by simpa using hcon))
  · rintro ⟨⟨a1, a2⟩, b, c, d⟩
    rw [if_neg (by omega), if_neg, if_neg (by omega)]
    simp only [Bool.or_eq_true, Bool.not_eq_true', Bool.and_eq_true, bne_iff_ne, ne_eq,
      not_or, not_and, Bool.not_eq_false, Decidable.not_not]
    refine ⟨b, ?_⟩
    intro hn
    rcases c with c | c
    · rw [c] at hn
      exact absurd hn (by decide)
    · exact c

theorem recordsValid_readable (s : SectionData) (bytes : List Byte) :
    ∀ (count pos : Nat), pos + count * (s.Ptrsz * 4 + 16) ≤ bytes.length →
      recordsValid s bytes count pos =
        some (decide (∀ k, k < count → recordOk s bytes (pos + k * (s.Ptrsz * 4 + 16)) = true)) := by
  intro count
  induction count with
  | zero => intro pos _; simp [recordsValid]
  | succ count ih =>
    intro pos hfit
    rw [Nat.succ_mul] at hfit
    rw [recordsValid, if_pos (by omega)]
    by_cases hok : recordOk s bytes pos = true
    · rw [if_pos hok, ih (pos + (s.Ptrsz * 4 + 16)) (by omega)]
      congr 1
      rw [decide_eq_decide]
      constructor
      · intro h k hk
        cases k with
        | zero => simpa using hok
        | succ k =>
          have := h k (by omega)
          rw [Nat.succ_mul]
          rw [show pos + (k * (s.Ptrsz * 4 + 16) + (s.Ptrsz * 4 + 16)) =
            pos + (s.Ptrsz * 4 + 16) + k * (s.Ptrsz * 4 + 16) by omega]
          exact this
      · intro h k hk
        have := h (k + 1) (by omega)
        rw [Nat.succ_mul] at this
        rw [show pos + (s.Ptrsz * 4 + 16) + k * (s.Ptrsz * 4 + 16) =
          pos + (k * (s.Ptrsz * 4 + 16) + (s.Ptrsz * 4 + 16)) by omega]
        exact this
    · rw [if_neg hok]
      congr 1
      symm
      rw [decide_eq_false_iff_not]
      intro h
      have := h 0 (by omega)
      simp only [Nat.zero_mul, Nat.add_zero] at this
      exact hok this

/-- When the `entry_count` records of a candidate are readable, `isValidCandidate`
returns, with the cursor where it was, and accepts exactly when every record passes the
tests of `recordOk`: the one on the data length is `int64(data_len) ≤ MAX_FILE_SIZE`. -/
theorem isValidCandidate_readable (s : SectionData) (hp : s.Ptrsz = 4 ∨ s.Ptrsz = 8)
    (r : ReadSeeker) (c : FSCandidate) (hoff : TL_SectionOffset s c.Addr < I63)
    (hfit : TL_SectionOffset s c.Addr + c.EntryCount * (s.Ptrsz * 4 + 16) ≤ r.bytes.length) :
    isValidCandidate s r c =
      .ok (decide (∀ k, k < c.EntryCount →
        recordOk s r.bytes (TL_SectionOffset s c.Addr + k * (s.Ptrsz * 4 + 16)) = true), r) := by
  rw [isValidCandidate_eq s hp]
  unfold validAt
  rw [validatorStart_eq s r c hoff, recordsValid_readable s r.bytes _ _ hfit]

/-! ## C19: the effective chunk size -/

/-- C19 as stated fails at the largest 64-bit chunk size: `2^64 - 1` is odd, the sum
`c + c mod 2` wraps to 0, which is even but smaller than `c`. -/
theorem effectiveChunkSize_wraps :
    effectiveChunkSize 18446744073709551615 = 0 ∧
    ¬ (effectiveChunkSize 18446744073709551615 ≥ 18446744073709551615) := by
  refine ⟨by rfl, by decide⟩

/-- C19 (amended). For every 64-bit chunk size `c` the effective chunk size
`c + c mod 2`, computed in unsigned 64-bit arithmetic, is even; for every `c` other than
`2^64 - 1` it is `c` rounded up to a multiple of two (`≥ c` and `< c + 2`); for
`c = 2^64 - 1` the sum wraps to 0. -/
theorem effectiveChunkSize_rounds (c : Nat) (hc : c < U64) :
    effectiveChunkSize c % 2 = 0 ∧
    (c ≠ U64 - 1 → c ≤ effectiveChunkSize c ∧ effectiveChunkSize c < c + 2) ∧
    (c = U64 - 1 → effectiveChunkSize c = 0) := by
  unfold effectiveChunkSize add64 U64 at *
  refine ⟨by omega, fun h => by omega, fun h => by omega⟩

/-- C19 (amended) at the chunk size 1048577, which is rounded up to 1048578. -/
theorem effectiveChunkSize_rounds_witness :
    1048577 < U64 ∧ effectiveChunkSize 1048577 = 1048578 ∧
    (effectiveChunkSize 1048577 % 2 = 0 ∧
      (1048577 ≠ U64 - 1 →
        1048577 ≤ effectiveChunkSize 1048577 ∧ effectiveChunkSize 1048577 < 1048577 + 2) ∧
      (1048577 = U64 - 1 → effectiveChunkSize 1048577 = 0)) :=
  ⟨by decide, by rfl, effectiveChunkSize_rounds 1048577 (by decide)⟩

/-! ## C16: decoding a pointer -/

theorem ReadptrFrom_invalid (s : SectionData) (h4 : s.Ptrsz ≠ 4) (h8 : s.Ptrsz ≠ 8)
    (b : List Byte) : s.ReadptrFrom b = .error .invalidPointerSize := by
  unfold SectionData.ReadptrFrom
  rw [if_neg h4, if_neg h8]

/-- C16. For a byte slice `b` of at least `ptr_size` bytes: with pointer size 4,
`ReadptrFrom b` is the unsigned 32-bit integer of the first four bytes in the section's
byte order (so below `2^32`); with pointer size 8 it is the unsigned 64-bit integer of
the first eight bytes in the section's byte order; with any other pointer size
`ReadptrFrom` panics, whatever the slice. -/
theorem ReadptrFrom_spec (s : SectionData) :
    (s.Ptrsz = 4 → ∀ b : List Byte, 4 ≤ b.length →
      ∃ v, s.ReadptrFrom b = .ok v ∧ v < 4294967296 ∧
        v = match s.Order with
          | .LittleEndian =>
            b.getD 0 0 % 256 + 256 * (b.getD 1 0 % 256) + 65536 * (b.getD 2 0 % 256) +
              16777216 * (b.getD 3 0 % 256)
          | .BigEndian =>
            16777216 * (b.getD 0 0 % 256) + 65536 * (b.getD 1 0 % 256) +
              256 * (b.getD 2 0 % 256) + b.getD 3 0 % 256) ∧
    (s.Ptrsz = 8 → ∀ b : List Byte, 8 ≤ b.length →
      ∃ v, s.ReadptrFrom b = .ok v ∧ v < 18446744073709551616 ∧
        v = match s.Order with
          | .LittleEndian =>
            b.getD 0 0 % 256 + 256 * (b.getD 1 0 % 256) + 65536 * (b.getD 2 0 % 256) +
              16777216 * (b.getD 3 0 % 256) + 4294967296 * (b.getD 4 0 % 256) +
              1099511627776 * (b.getD 5 0 % 256) + 281474976710656 * (b.getD 6 0 % 256) +
              72057594037927936 * (b.getD 7 0 % 256)
          | .BigEndian =>
            72057594037927936 * (b.getD 0 0 % 256) + 281474976710656 * (b.getD 1 0 % 256) +
              1099511627776 * (b.getD 2 0 % 256) + 4294967296 * (b.getD 3 0 % 256) +
              16777216 * (b.getD 4 0 % 256) + 65536 * (b.getD 5 0 % 256) +
              256 * (b.getD 6 0 % 256) + b.getD 7 0 % 256) ∧
    (s.Ptrsz ≠ 4 → s.Ptrsz ≠ 8 → ∀ b : List Byte,
      s.ReadptrFrom b = .error .invalidPointerSize) := by
  refine ⟨?_, ?_, fun h4 h8 b => ReadptrFrom_invalid s h4 h8 b⟩
  · intro hp b hb
    match b, hb with
    | b0 :: b1 :: b2 :: b3 :: rest, _ =>
      unfold SectionData.ReadptrFrom ByteOrder.Uint32 ByteOrder.uint
      rw [if_pos hp, if_neg (by simp)]
      cases s.Order
      · refine ⟨_, rfl, ?_, ?_⟩
        · simp only [List.take, leValue]
          omega
        · simp only [List.take, leValue, List.getD_cons_zero, List.getD_cons_succ]
          omega
      · refine ⟨_, rfl, ?_, ?_⟩
        · simp only [List.take, beValue, List.reverse_cons, List.reverse_nil, List.nil_append,
            List.cons_append, leValue]
          omega
        · simp only [List.take, beValue, List.reverse_cons, List.reverse_nil, List.nil_append,
            List.cons_append, leValue, List.getD_cons_zero, List.getD_cons_succ]
          omega
  · intro hp b hb
    match b, hb with
    | b0 :: b1 :: b2 :: b3 :: b4 :: b5 :: b6 :: b7 :: rest, _ =>
      unfold SectionData.ReadptrFrom ByteOrder.Uint64 ByteOrder.uint
      rw [if_neg (by omega), if_pos hp, if_neg (by simp)]
      cases s.Order
      · refine ⟨_, rfl, ?_, ?_⟩
        · simp only [List.take, leValue]
          omega
        · simp only [List.take, leValue, List.getD_cons_zero, List.getD_cons_succ]
          omega
      · refine ⟨_, rfl, ?_, ?_⟩
        · simp only [List.take, beValue, List.reverse_cons, List.reverse_nil, List.nil_append,
            List.cons_append, leValue]
          omega
        · simp only [List.take, beValue, List.reverse_cons, List.reverse_nil, List.nil_append,
            List.cons_append, leValue, List.getD_cons_zero, List.getD_cons_succ]
          omega

/-- C16 at the demo section (pointer size 4, little-endian) and the wide section
(pointer size 8): the first word of each is its header's entries pointer. -/
theorem ReadptrFrom_spec_witness :
    demoSection.Ptrsz = 4 ∧ 4 ≤ demoBytes.length ∧
    demoSection.ReadptrFrom demoBytes = .ok 4108 ∧
    wideSection.ReadptrFrom wideBytes = .ok 8216 ∧
    (∃ v, demoSection.ReadptrFrom demoBytes = .ok v ∧ v < 4294967296 ∧
      v = match demoSection.Order with
        | .LittleEndian =>
          demoBytes.getD 0 0 % 256 + 256 * (demoBytes.getD 1 0 % 256) +
            65536 * (demoBytes.getD 2 0 % 256) + 16777216 * (demoBytes.getD 3 0 % 256)
        | .BigEndian =>
          16777216 * (demoBytes.getD 0 0 % 256) + 65536 * (demoBytes.getD 1 0 % 256) +
            256 * (demoBytes.getD 2 0 % 256) + demoBytes.getD 3 0 % 256) :=
  ⟨by rfl, by decide, by rfl, by rfl,
    (ReadptrFrom_spec demoSection).1 (by rfl) demoBytes (by decide)⟩

/-! ## C20: the slices of the header sweep -/

/-- C20. For a section with pointer size 4 or 8 and a buffer of any length (also below
`3 * ptr_size`, zero, or not a multiple of `ptr_size`), at every offset `i` at which the
loop of `candidateScan` runs its body the three slices `buffer[i : i+ptr_size]`,
`buffer[i+ptr_size : i+2*ptr_size]` and `buffer[i+2*ptr_size : i+3*ptr_size]` are within
bounds and decode; `candidateScan` never panics on a slice or an index and does not run
out of fuel: the only panic it can raise is the read error of the validator. -/
theorem candidateScan_slices_in_bounds (sd : SectionData) (hp : sd.Ptrsz = 4 ∨ sd.Ptrsz = 8)
    (buffer : List Byte) (chunkOffset : Nat) (r : ReadSeeker) :
    (∀ i ∈ loopOffsets sd.Ptrsz buffer.length (buffer.length + 1) 0,
      i + 3 * sd.Ptrsz ≤ buffer.length ∧
      (slice buffer i (i + sd.Ptrsz) >>= sd.ReadptrFrom) = .ok (sd.word buffer i) ∧
      (slice buffer (i + sd.Ptrsz) (i + sd.Ptrsz * 2) >>= sd.ReadptrFrom) =
        .ok (sd.word buffer (i + sd.Ptrsz)) ∧
      (slice buffer (i + sd.Ptrsz * 2) (i + sd.Ptrsz * 3) >>= sd.ReadptrFrom) =
        .ok (sd.word buffer (i + sd.Ptrsz * 2))) ∧
    (∀ e, candidateScan sd buffer chunkOffset r = .error e → e = .readError) := by
  constructor
  · intro i hi
    rw [loopOffsets_eq_scanOffsets _ _ (by rcases hp with h | h <;> omega)] at hi
    have hb := (mem_scanOffsets _ _ _).mp hi
    exact ⟨by omega, readptr_slice sd hp buffer _ _ rfl (by omega),
      readptr_slice sd hp buffer _ _ (by omega) (by omega),
      readptr_slice sd hp buffer _ _ (by omega) (by omega)⟩
  · intro e h
    rw [candidateScan_eq sd hp] at h
    cases hrun : scanRun sd buffer chunkOffset r (scanOffsets sd.Ptrsz buffer.length) with
    | none =>
      rw [hrun] at h
      injection h with h
      exact h.symm
    | some l => rw [hrun] at h; simp at h

/-- C20 at a buffer of 13 bytes, not a multiple of the pointer size 4: the body runs at
offset 0 only, and the scan returns; on a buffer of 11 bytes the body never runs. -/
theorem candidateScan_slices_in_bounds_witness :
    (demoSection.Ptrsz = 4 ∨ demoSection.Ptrsz = 8) ∧
    loopOffsets demoSection.Ptrsz (demoBytes.take 13).length ((demoBytes.take 13).length + 1) 0 =
      [0] ∧
    candidateScan demoSection (demoBytes.take 13) 0 demoReader =
      .ok ([demoCandidate], demoReader) ∧
    candidateScan demoSection (demoBytes.take 11) 0 demoReader = .ok ([], demoReader) ∧
    (∀ e, candidateScan demoSection (demoBytes.take 13) 0 demoReader = .error e →
      e = .readError) :=
  ⟨by decide, by rfl, by rfl, by rfl,
    (candidateScan_slices_in_bounds demoSection (by decide) (demoBytes.take 13) 0 demoReader).2⟩

/-! ## C13: the cursor after a random read -/

theorem SeekWhence_bytes (r : ReadSeeker) (o w : Int) : (r.SeekWhence o w).bytes = r.bytes := by
  unfold ReadSeeker.SeekWhence
  split
  · exact Seek_bytes _ _
  · split
    · exact Seek_bytes _ _
    · split
      · exact Seek_bytes _ _
      · rfl

theorem SeekWhence_start (r : ReadSeeker) (o : Int) : r.SeekWhence o 0 = r.Seek o := by
  unfold ReadSeeker.SeekWhence
  rw [if_pos rfl]

theorem ReadAtWhence_start (s : SectionData) (r : ReadSeeker) (o : Int) (n : Nat) :
    s.ReadAtWhence r o n 0 = s.ReadAt r o n := by
  unfold SectionData.ReadAtWhence SectionData.ReadAt
  rw [SeekWhence_start]

theorem ReadAtWhence_returns (s : SectionData) (r : ReadSeeker) (o : Int) (n : Nat) (w : Int)
    (hn : n ≤ maxAlloc) : ∃ res, s.ReadAtWhence r o n w = .ok (res, r) := by
  unfold SectionData.ReadAtWhence make
  rw [if_pos hn]
  simp only
  have hb := Read_bytes (r.SeekWhence o w) (List.replicate n 0)
  rw [SeekWhence_bytes] at hb
  have hs := Seek_Tell r _ hb
  rw [hs]
  split
  · exact ⟨_, rfl⟩
  · split
    · exact ⟨_, rfl⟩
    · exact ⟨_, rfl⟩

theorem ReadAtWhence_cursor (s : SectionData) (r : ReadSeeker) (o : Int) (n : Nat) (w : Int)
    (res : Except IoError (List Byte)) (r' : ReadSeeker)
    (h : s.ReadAtWhence r o n w = .ok (res, r')) : r' = r := by
  by_cases hn : n ≤ maxAlloc
  · obtain ⟨res2, h2⟩ := ReadAtWhence_returns s r o n w hn
    rw [h2] at h
    simp only [Except.ok.injEq, Prod.mk.injEq] at h
    exact h.2.symm
  · unfold SectionData.ReadAtWhence make at h
    rw [if_neg hn] at h
    simp at h

theorem ReadAt_cursor (s : SectionData) (r : ReadSeeker) (o : Int) (n : Nat)
    (res : Except IoError (List Byte)) (r' : ReadSeeker)
    (h : s.ReadAt r o n = .ok (res, r')) : r' = r := by
  rw [← ReadAtWhence_start] at h
  exact ReadAtWhence_cursor s r o n 0 res r' h

theorem isValidCandidateLoop_bytes (s : SectionData) :
    ∀ (n : Nat) (entry : List Byte) (r : ReadSeeker) (b : Bool) (r' : ReadSeeker),
      isValidCandidateLoop s n entry r = .ok (b, r') → r'.bytes = r.bytes := by
  intro n
  induction n with
  | zero =>
    intro entry r b r' h
    simp only [isValidCandidateLoop, Except.ok.injEq, Prod.mk.injEq] at h
    rw [h.2]
  | succ k ih =>
    intro entry r b r' h
    have hb := Read_bytes r entry
    unfold isValidCandidateLoop at h
    simp only [bind, Except.bind] at h
    repeat' split at h
    all_goals first
      | (simp only [reduceCtorEq] at h)
      | (simp only [Except.ok.injEq, Prod.mk.injEq] at h; rw [← h.2]; exact hb)
      | exact (ih _ _ _ _ h).trans hb

theorem isValidCandidate_cursor (s : SectionData) (r : ReadSeeker) (c : FSCandidate)
    (b : Bool) (r' : ReadSeeker) (h : isValidCandidate s r c = .ok (b, r')) : r' = r := by
  unfold isValidCandidate at h
  simp only at h
  split at h
  · simp at h
  · split at h
    · simp at h
    · rename_i b2 r2 hl
      have hb := isValidCandidateLoop_bytes s _ _ _ _ _ hl
      rw [Seek_bytes] at hb
      simp only [Except.ok.injEq, Prod.mk.injEq] at h
      rw [← h.2]
      exact Seek_Tell r r2 hb

theorem NewFSCEFromBuffer_cursor (s : SectionData) (b : List Byte) (r : ReadSeeker)
    (e : FSCEntry) (r' : ReadSeeker) (h : NewFSCEFromBuffer b s r = .ok (e, r')) : r' = r := by
  unfold NewFSCEFromBuffer at h
  simp only [bind, Except.bind] at h
  repeat' split at h
  all_goals first
    | (simp only [reduceCtorEq] at h)
    | (rename_i hra _ _ _
       have := ReadAt_cursor _ _ _ _ _ _ hra
       simp only [Except.ok.injEq, Prod.mk.injEq] at h
       rw [← h.2]; exact this)

theorem Entry_cursor (c : FSCandidate) (s : SectionData) (r : ReadSeeker) (i : Nat)
    (e : Option FSCEntry) (r' : ReadSeeker) (h : c.Entry s r i = .ok (e, r')) : r' = r := by
  unfold FSCandidate.Entry at h
  split at h
  · simp only [Except.ok.injEq, Prod.mk.injEq] at h
    exact h.2.symm
  · simp only at h
    split at h
    · simp at h
    · simp at h
    · rename_i buf r1 hra
      have h1 := ReadAt_cursor _ _ _ _ _ _ hra
      split at h
      · simp at h
      · rename_i en r2 hn
        have h2 := NewFSCEFromBuffer_cursor _ _ _ _ _ hn
        simp only [Except.ok.injEq, Prod.mk.injEq] at h
        rw [← h.2, h2, h1]

/-- C13. For every section state `r` (bytes and cursor) and all arguments: `ReadAt` with
`whence = io.SeekStart` is the method the callers use; a call of `ReadAt` with any offset,
any `whence` and a length of at most `MAX_FILE_SIZE` returns, and whenever `ReadAt`
returns, with data or with an error, for any length, the state after the call is `r`
again, so the cursor is where it was;
whenever `isValidCandidate` returns, accepting or rejecting, the state is `r` again, and
it does return when the pointer size is 4 or 8 and the records it looks at can be read;
whenever `Entry(i)` returns the state is `r` again, and it returns `nil` for an index out
of range. -/
theorem cursor_restored (s : SectionData) (r : ReadSeeker) :
    (∀ (offset : Int) (n : Nat) (whence : Int),
      s.ReadAtWhence r offset n 0 = s.ReadAt r offset n ∧
      ((n : Int) ≤ MAX_FILE_SIZE → ∃ res, s.ReadAtWhence r offset n whence = .ok (res, r)) ∧
      (∀ res r', s.ReadAtWhence r offset n whence = .ok (res, r') → r' = r)) ∧
    (∀ (c : FSCandidate),
      ((s.Ptrsz = 4 ∨ s.Ptrsz = 8) → validAt s r c ≠ none →
        ∃ b, isValidCandidate s r c = .ok (b, r)) ∧
      (∀ b r', isValidCandidate s r c = .ok (b, r') → r' = r)) ∧
    (∀ (c : FSCandidate) (i : Nat),
      (c.EntryCount ≤ i → c.Entry s r i = .ok (none, r)) ∧
      (∀ e r', c.Entry s r i = .ok (e, r') → r' = r)) := by
  refine ⟨fun offset n whence => ⟨ReadAtWhence_start s r offset n,
      fun hn => ReadAtWhence_returns s r offset n whence (by
        unfold MAX_FILE_SIZE at hn
        unfold maxAlloc
        omega),
      ReadAtWhence_cursor s r offset n whence⟩,
    fun c => ⟨?_, isValidCandidate_cursor s r c⟩,
    fun c i => ⟨?_, Entry_cursor c s r i⟩⟩
  · intro hp hv
    rw [isValidCandidate_eq s hp r c]
    cases h : validAt s r c with
    | none => exact absurd h hv
    | some b => exact ⟨b, rfl⟩
  · intro hi
    unfold FSCandidate.Entry
    rw [if_pos hi]

/-- C13 at the demo section with the cursor at byte 5: a read of four bytes at offset 12
from the start, a read relative to the cursor, a read relative to the end (which fails),
the validator and `Entry(0)` all leave the cursor at byte 5. -/
theorem cursor_restored_witness :
    (((4 : Nat) : Int) ≤ MAX_FILE_SIZE ∧ (demoSection.Ptrsz = 4 ∨ demoSection.Ptrsz = 8) ∧
      validAt demoSection { bytes := demoBytes, off := 5 } demoCandidate ≠ none) ∧
    demoSection.ReadAtWhence { bytes := demoBytes, off := 5 } 12 4 0 =
      .ok (.ok (le32 4140), { bytes := demoBytes, off := 5 }) ∧
    demoSection.ReadAtWhence { bytes := demoBytes, off := 5 } 7 4 1 =
      .ok (.ok (le32 4140), { bytes := demoBytes, off := 5 }) ∧
    demoSection.ReadAtWhence { bytes := demoBytes, off := 5 } (-4) 4 2 =
      .ok (.error .EOF, { bytes := demoBytes, off := 5 }) ∧
    (∃ res, demoSection.ReadAtWhence { bytes := demoBytes, off := 5 } 12 4 0 =
      .ok (res, { bytes := demoBytes, off := 5 })) ∧
    (∃ b, isValidCandidate demoSection { bytes := demoBytes, off := 5 } demoCandidate =
      .ok (b, { bytes := demoBytes, off := 5 })) ∧
    (∀ e r', demoCandidate.Entry demoSection { bytes := demoBytes, off := 5 } 0 = .ok (e, r') →
      r' = { bytes := demoBytes, off := 5 }) :=
  ⟨⟨by decide, by decide, by decide⟩, by rfl, by rfl, by rfl,
    ((cursor_restored demoSection { bytes := demoBytes, off := 5 }).1 12 4 0).2.1 (by decide),
    ((cursor_restored demoSection { bytes := demoBytes, off := 5 }).2.1 demoCandidate).1
      (by decide) (by decide),
    ((cursor_restored demoSection { bytes := demoBytes, off := 5 }).2.2 demoCandidate 0).2⟩

/-! ## C12: a candidate whose entry table runs past the end of the section -/

theorem isValidCandidate_unreadable (s : SectionData) (hp : s.Ptrsz = 4 ∨ s.Ptrsz = 8)
    (r : ReadSeeker) (c : FSCandidate) (hc : 1 ≤ c.EntryCount)
    (hend : r.bytes.length < validatorStart s r c + (s.Ptrsz * 4 + 16)) :
    isValidCandidate s r c = .error .readError := by
  rw [isValidCandidate_eq s hp r c]
  unfold validAt
  obtain ⟨k, hk⟩ : ∃ k, c.EntryCount = k + 1 := ⟨c.EntryCount - 1, by omega⟩
  rw [hk, recordsValid, if_neg (by omega)]

/-- C12 fails in the code. In the section made of the first 16 bytes of the demo section
the header at offset 0 passes the header checks with `addr = 0x100c` and one entry; the
entry table would take bytes 12 to 44 and the section ends at byte 16.  The validator
does not reject the candidate: its `Read` comes back short with `io.EOF` and it panics,
and so does `findCandidates`, without and with chunks. -/
theorem isValidCandidate_panics_past_end :
    rawHit cutSection cutBytes 0 0 = some demoCandidate ∧
    cutBytes.length < 12 + 32 ∧
    isValidCandidate cutSection cutReader demoCandidate = .error .readError ∧
    findCandidates DEFAULT_CHUNK_SIZE cutSection cutReader = .error .readError ∧
    findCandidates 16 cutSection cutReader = .error .readError := by
  refine ⟨by rfl, by decide, by rfl, by rfl, by rfl⟩

/-! ## C11: a section of zero bytes -/

theorem leValue_zeros (k : Nat) : leValue (List.replicate k 0) = 0 := by
  induction k with
  | zero => rfl
  | succ k ih => rw [List.replicate_succ, leValue, ih]

theorem word_zeros (sd : SectionData) (n i : Nat) : sd.word (List.replicate n 0) i = 0 := by
  unfold SectionData.word
  cases sd.Order with
  | LittleEndian =>
    simp only [List.drop_replicate, List.take_replicate]
    exact leValue_zeros _
  | BigEndian =>
    simp only [List.drop_replicate, List.take_replicate]
    unfold beValue
    rw [List.reverse_replicate]
    exact leValue_zeros _

theorem rawHit_zeros (sd : SectionData) (n chunkOffset i : Nat) :
    rawHit sd (List.replicate n 0) chunkOffset i = none := by
  unfold rawHit
  simp only [word_zeros]
  rw [if_neg (by simp)]

theorem scanRun_zeros (sd : SectionData) (n chunkOffset : Nat) (r : ReadSeeker) :
    ∀ offs : List Nat, scanRun sd (List.replicate n 0) chunkOffset r offs = some [] := by
  intro offs
  induction offs with
  | nil => rfl
  | cons i is ih => rw [scanRun, rawHit_zeros]; exact ih

theorem candidateScan_zeros (sd : SectionData) (hp : sd.Ptrsz = 4 ∨ sd.Ptrsz = 8)
    (n chunkOffset : Nat) (r : ReadSeeker) :
    candidateScan sd (List.replicate n 0) chunkOffset r = .ok ([], r) := by
  rw [candidateScan_eq sd hp, scanRun_zeros]

theorem Read_zeros (n off t : Nat) (hoff : off ≤ n) :
    ReadSeeker.Read { bytes := List.replicate n 0, off := off } (List.replicate t 0) =
      if off = n then (0, some IoError.EOF, List.replicate t 0,
        { bytes := List.replicate n 0, off := off })
      else if t > n - off then (n - off, some IoError.EOF, List.replicate t 0,
        { bytes := List.replicate n 0, off := n })
      else (t, none, List.replicate t 0, { bytes := List.replicate n 0, off := off + t }) := by
  unfold ReadSeeker.Read
  simp only [List.length_replicate, List.drop_replicate, List.take_replicate]
  by_cases h1 : off = n
  · rw [if_pos (by omega), if_pos h1]
  · rw [if_neg (by omega), if_neg h1]
    by_cases h2 : t > n - off
    · rw [if_pos h2, if_pos h2]
      have : List.replicate (n - off) (0 : Byte) ++ List.replicate (t - (n - off)) 0 =
          List.replicate t 0 := by
        rw [List.append_replicate_replicate]
        congr 1
        omega
      rw [this]
    · rw [if_neg h2, if_neg h2]
      have : min t (n - off) = t := by omega
      rw [this]

theorem chunkedLoop_zeros (sd : SectionData) (hp : sd.Ptrsz = 4 ∨ sd.Ptrsz = 8) (t n : Nat)
    (ht : 0 < t) :
    ∀ (rem idx off : Nat) (acc : List FSCandidate) (tot : Nat), off ≤ n →
      (n - off) / t + 1 ≤ rem →
      findCandidatesChunkedLoop sd t rem idx (List.replicate t 0)
          { bytes := List.replicate n 0, off := off } acc tot =
        .ok (acc, tot + (n - off), { bytes := List.replicate n 0, off := n }) := by
  intro rem
  induction rem with
  | zero => intro idx off acc tot _ h; exact absurd h (Nat.not_succ_le_zero _)
  | succ rem ih =>
    intro idx off acc tot hoff hrem
    rw [findCandidatesChunkedLoop, Read_zeros n off t hoff]
    by_cases h1 : off = n
    · rw [if_pos h1]
      simp only [candidateScan_zeros sd hp, List.append_nil, true_or, if_true]
      rw [h1]
      simp
    · rw [if_neg h1]
      by_cases h2 : t > n - off
      · rw [if_pos h2]
        simp only [candidateScan_zeros sd hp, List.append_nil, or_true, if_true]
      · rw [if_neg h2]
        simp only [candidateScan_zeros sd hp, List.append_nil]
        have hcont : ¬ (t = 0 ∨ (none : Option IoError) = some IoError.EOF) := by
          simp only [reduceCtorEq, or_false]
          omega
        rw [if_neg hcont]
        have hdiv : (n - off) / t = (n - (off + t)) / t + 1 := by
          have : n - off = (n - (off + t)) + t := by omega
          rw [this, Nat.add_div_right _ ht]
        rw [ih (idx + 1) (off + t) acc (tot + t) (by omega) (by rw [hdiv] at hrem; omega)]
        have : tot + t + (n - (off + t)) = tot + (n - off) := by omega
        rw [this]

theorem findCandidates_zeros (t : Nat) (sd : SectionData) (hp : sd.Ptrsz = 4 ∨ sd.Ptrsz = 8)
    (hn : 1 ≤ sd.FileSize) (hlen : sd.FileSize ≤ maxAlloc) (ht : 0 < t) :
    findCandidates t sd { bytes := List.replicate sd.FileSize 0, off := 0 } =
      .ok ([], { bytes := List.replicate sd.FileSize 0, off := sd.FileSize }) := by
  unfold findCandidates
  by_cases hmode : sd.FileSize ≥ t
  · rw [if_pos hmode]
    have ht63 : t ≤ maxAlloc := by omega
    unfold findCandidatesChunked make
    simp only
    rw [if_pos ht63]
    simp only
    rw [if_neg (by omega)]
    have hb : (sd.FileSize / t + 1) % U64 = sd.FileSize / t + 1 := by
      apply Nat.mod_eq_of_lt
      have := Nat.div_le_self sd.FileSize t
      unfold maxAlloc at hlen
      unfold U64
      omega
    rw [hb, chunkedLoop_zeros sd hp t sd.FileSize ht _ 0 0 [] 0 (by omega) (by simp)]
    simp only [Nat.zero_add, Nat.sub_zero]
    rw [if_neg (by
      have : sd.FileSize % U64 = sd.FileSize :=
        Nat.mod_eq_of_lt (by unfold maxAlloc at hlen; unfold U64; omega)
      simp [this])]
  · rw [if_neg hmode]
    unfold findCandidatesUnChunked make
    rw [if_pos hlen]
    simp only
    have hr := Read_zeros sd.FileSize 0 sd.FileSize (by omega)
    rw [if_neg (by omega), if_neg (by omega)] at hr
    rw [hr]
    simp only [ne_eq, not_true_eq_false, if_false, Nat.zero_add]
    have : sd.FileSize % U64 = sd.FileSize :=
      Nat.mod_eq_of_lt (by unfold maxAlloc at hlen; unfold U64; omega)
    rw [this]
    simp only [not_true_eq_false, if_false]
    exact candidateScan_zeros sd hp _ _ _

/-- C11 fails in the code for the section without bytes.  `findCandidates` takes the
unchunked path (0 is below the chunk size), `Data.Read` of the empty buffer returns
`io.EOF` and `findCandidatesUnChunked` panics; with a chunk size of 0 the chunked path
divides by zero.  The chunked loop itself takes `io.EOF` as the end of the section:
called on the same section it returns the empty list.  For a section of one zero byte
the scan returns the empty list, without and with chunks. -/
theorem findCandidates_empty_section_panics :
    findCandidates DEFAULT_CHUNK_SIZE emptySection emptyReader = .error .readError ∧
    findCandidatesUnChunked emptySection emptyReader = .error .readError ∧
    findCandidates 0 emptySection emptyReader = .error .divideByZero ∧
    findCandidatesChunked 16 emptySection emptyReader = .ok ([], emptyReader) ∧
    findCandidates 16 { emptySection with FileSize := 1 } { bytes := [0], off := 0 } =
      .ok ([], { bytes := [0], off := 1 }) ∧
    findCandidates 1 { emptySection with FileSize := 1 } { bytes := [0], off := 0 } =
      .ok ([], { bytes := [0], off := 1 }) := by
  refine ⟨by rfl, by rfl, by rfl, by rfl, by rfl, by rfl⟩

/-! ## C14: reading the data of an entry -/

theorem ReadAt_short (s : SectionData) (r : ReadSeeker) (off m : Nat) (hoff : off < I63)
    (hm : m ≤ maxAlloc) (hshort : r.bytes.length < off + m ∨ (m = 0 ∧ r.bytes.length ≤ off)) :
    s.ReadAt r (toInt64 off) m = .ok (.error .EOF, r) := by
  unfold SectionData.ReadAt make
  rw [if_pos hm, toInt64_nonneg hoff]
  simp only
  have hseek : r.Seek (off : Int) = { bytes := r.bytes, off := off } := by
    unfold ReadSeeker.Seek
    rw [if_neg (by omega)]
    simp
  rw [hseek]
  have hb := Read_bytes { bytes := r.bytes, off := off } (List.replicate m 0)
  have herr : (ReadSeeker.Read { bytes := r.bytes, off := off } (List.replicate m 0)).2.1 =
      some IoError.EOF := by
    rcases hshort with h | ⟨h0, h⟩
    · exact Read_short _ _ (by simp only [List.length_replicate]; omega)
    · unfold ReadSeeker.Read
      rw [if_pos (by simp only; omega)]
  rcases hR : ReadSeeker.Read { bytes := r.bytes, off := off } (List.replicate m 0) with
    ⟨read, err, buf, r2⟩
  rw [hR] at hb herr
  simp only at hb herr ⊢
  rw [herr, Seek_Tell r r2 hb]
  simp

theorem ReadAt_empty (s : SectionData) (r : ReadSeeker) (off : Nat)
    (hfit : off < r.bytes.length) (hoff : off < I63) :
    s.ReadAt r (toInt64 off) 0 = .ok (.ok [], r) := by
  unfold SectionData.ReadAt make
  rw [if_pos (Nat.zero_le _), toInt64_nonneg hoff]
  simp only
  have hseek : r.Seek (off : Int) = { bytes := r.bytes, off := off } := by
    unfold ReadSeeker.Seek
    rw [if_neg (by omega)]
    simp
  have hR : ReadSeeker.Read { bytes := r.bytes, off := off } (List.replicate 0 0) =
      (0, none, [], { bytes := r.bytes, off := off }) := by
    unfold ReadSeeker.Read
    have h1 : ¬ (off ≥ r.bytes.length) := by omega
    have h2 : ¬ (0 > r.bytes.length - off) := by omega
    simp only [List.replicate_zero, List.length_nil]
    rw [if_neg h1, if_neg h2]
    simp
  rw [hseek, hR]
  simp only [ne_eq, not_true_eq_false, if_false, Nat.zero_mod]
  rw [Seek_Tell r ⟨r.bytes, off⟩ rfl]

/-- C14 as stated fails, in the section with two entries.  Both entries are materialized
from an accepted candidate.  The first has `sec_of(data_ptr) = 78 = file_size` and
`data_len = 0`, so `sec_of(data_ptr) + data_len <= file_size`, and `Read` returns the
error `io.EOF`, not the empty slice.  The second has a zero data pointer, so
`sec_of(data_ptr) = 2^64 - 0x1000` where no byte is available, and `data_len = 1`: the
seek to the negative offset fails unnoticed and `Read` returns the byte under the cursor
instead of an error. -/
theorem entry_read_counterexample :
    isValidCandidate blobSection blobReader blobCandidate = .ok (true, blobReader) ∧
    blobCandidate.Entry blobSection blobReader 0 =
      .ok (some (blobEntry 97 78 0), blobReader) ∧
    78 + 0 ≤ blobSection.FileSize ∧
    (blobEntry 97 78 0).Read blobSection blobReader =
      .ok (.error .EOF, blobReader) ∧
    blobCandidate.Entry blobSection blobReader 1 =
      .ok (some (blobEntry 98 18446744073709547520 1), blobReader) ∧
    blobSection.FileSize < 18446744073709547520 ∧
    (blobEntry 98 18446744073709547520 1).Read blobSection blobReader =
      .ok (.ok [12], blobReader) := by
  refine ⟨by rfl, by rfl, by decide, by rfl, by rfl, by decide, by rfl⟩

/-- C14 (amended). For an entry whose data address `a = sec_of(data_ptr)` is below `2^63`
and whose data length `n = data_len` is at most `MAX_FILE_SIZE`, over a byte source that
holds the `file_size` bytes of the section: when `a + n <= file_size`, and `a < file_size` in case `n = 0`, `Read`
returns exactly the `n` section bytes at offsets `[a, a + n)`; when fewer than `n` bytes
are available at `a`, or `n = 0` and `a` is at or past the end, `Read` returns the error
`io.EOF` and no slice.  The cursor is where it was in every case. -/
theorem entry_read (sd : SectionData) (r : ReadSeeker) (f : FSCEntry)
    (ha : f.Data.Addr < I63) (hn : (f.Data.Size : Int) ≤ MAX_FILE_SIZE)
    (hsize : r.bytes.length = sd.FileSize) :
    (f.Data.Addr + f.Data.Size ≤ sd.FileSize → (f.Data.Size = 0 → f.Data.Addr < sd.FileSize) →
      f.Read sd r = .ok (.ok ((r.bytes.drop f.Data.Addr).take f.Data.Size), r) ∧
      ((r.bytes.drop f.Data.Addr).take f.Data.Size).length = f.Data.Size) ∧
    (sd.FileSize < f.Data.Addr + f.Data.Size ∨ (f.Data.Size = 0 ∧ sd.FileSize ≤ f.Data.Addr) →
      f.Read sd r = .ok (.error .EOF, r)) := by
  have hn2 : f.Data.Size ≤ maxAlloc := by
    unfold MAX_FILE_SIZE at hn
    unfold maxAlloc
    omega
  unfold FSCEntry.Read
  constructor
  · intro hfit h0
    refine ⟨?_, by simp only [List.length_take, List.length_drop]; omega⟩
    by_cases hz : f.Data.Size = 0
    · rw [hz, List.take_zero]
      exact ReadAt_empty sd r _ (by have := h0 hz; omega) ha
    · exact ReadAt_full sd r _ _ ha (by omega) hn2 (by omega)
  · intro hshort
    exact ReadAt_short sd r _ _ ha hn2 (by omega)

/-- C14 (amended) in the section with two entries: the two bytes at offset 76 are read
whole, and a read of three bytes there is an error. -/
theorem entry_read_witness :
    ((76 : Nat) < I63 ∧ ((2 : Nat) : Int) ≤ MAX_FILE_SIZE ∧
      blobReader.bytes.length = blobSection.FileSize ∧
      76 + 2 ≤ blobSection.FileSize ∧ ((2 : Nat) = 0 → 76 < blobSection.FileSize)) ∧
    (blobEntry 97 76 2).Read blobSection blobReader = .ok (.ok [97, 98], blobReader) ∧
    ((blobEntry 97 76 2).Read blobSection blobReader =
      .ok (.ok ((blobReader.bytes.drop 76).take 2), blobReader) ∧
      ((blobReader.bytes.drop 76).take 2).length = 2) ∧
    (blobEntry 97 76 3).Read blobSection blobReader = .ok (.error .EOF, blobReader) :=
  ⟨⟨by decide, by decide, by rfl, by decide, by decide⟩, by rfl,
    (entry_read blobSection blobReader
      (blobEntry 97 76 2)
      (by decide) (by decide) (by rfl)).1 (by decide) (by decide),
    (entry_read blobSection blobReader
      (blobEntry 97 76 3)
      (by decide) (by decide) (by rfl)).2 (Or.inl (by decide))⟩

/-! ## C15: the entries of a candidate -/

theorem hasSlashSuffix_iff (name : List Byte) :
    hasSlashSuffix name = true ↔ ∃ init x, name = init ++ [x] ∧ x % 256 = 47 := by
  unfold hasSlashSuffix
  rw [decide_eq_true_iff]
  constructor
  · intro h
    cases hl : name.getLast? with
    | none => rw [hl] at h; simp at h
    | some x =>
      rw [hl] at h
      simp only [Option.map_some', Option.some.injEq] at h
      have hne : name ≠ [] := by
        intro hn
        rw [hn] at hl
        simp at hl
      refine ⟨name.dropLast, x, ?_, h⟩
      have h2 := List.dropLast_append_getLast hne
      rw [List.getLast?_eq_getLast _ hne] at hl
      simp only [Option.some.injEq] at hl
      rw [hl] at h2
      exact h2.symm
  · rintro ⟨init, x, rfl, hx⟩
    simp [hx]

theorem NewFSCEFromBuffer_eq (s : SectionData) (hp : s.Ptrsz = 4 ∨ s.Ptrsz = 8)
    (b : List Byte) (r : ReadSeeker) (hb : b.length = s.Ptrsz * 4 + 16)
    (hbytes : r.bytes.length < I63) (hl : 0 < s.word b s.Ptrsz)
    (hl255 : s.word b s.Ptrsz ≤ 255)
    (hfit : TL_SectionOffset s (s.word b 0) + s.word b s.Ptrsz ≤ r.bytes.length) :
    NewFSCEFromBuffer b s r =
      .ok ({ Name := (r.bytes.drop (TL_SectionOffset s (s.word b 0))).take (s.word b s.Ptrsz),
             Data := { Addr := TL_SectionOffset s (s.word b (s.Ptrsz * 2)),
                       Size := s.word b (s.Ptrsz * 3) },
             Hash := b.drop (s.Ptrsz * 4),
             IsDir := hasSlashSuffix
               ((r.bytes.drop (TL_SectionOffset s (s.word b 0))).take (s.word b s.Ptrsz)) },
           r) := by
  unfold NewFSCEFromBuffer
  rw [bind_readptr_slice s hp _ 0 _ (by omega) (by omega)]
  rw [bind_readptr_slice s hp _ s.Ptrsz (s.Ptrsz * 2) (by omega) (by omega)]
  rw [bind_readptr_slice s hp _ (s.Ptrsz * 2) (s.Ptrsz * 3) (by omega) (by omega)]
  rw [bind_readptr_slice s hp _ (s.Ptrsz * 3) (s.Ptrsz * 4) (by omega) (by omega)]
  rw [ReadAt_full s r _ _ (by omega) hl (by unfold maxAlloc; omega) hfit]
  have hsl : sliceFrom b (s.Ptrsz * 4) = .ok (b.drop (s.Ptrsz * 4)) := by
    unfold sliceFrom
    rw [if_pos (by omega)]
  have hch : copyHash (b.drop (s.Ptrsz * 4)) = b.drop (s.Ptrsz * 4) := by
    unfold copyHash
    have hlen : (b.drop (s.Ptrsz * 4)).length = 16 := by
      rw [List.length_drop]
      omega
    rw [hlen, List.take_of_length_le (by omega)]
    simp
  simp only [bind, Except.bind, pure, Except.pure, hsl, hch]

theorem Entry_eq (c : FSCandidate) (sd : SectionData) (hp : sd.Ptrsz = 4 ∨ sd.Ptrsz = 8)
    (r : ReadSeeker) (i : Nat) (hi : i < c.EntryCount) (hbytes : r.bytes.length < I63)
    (hrec : c.RelAddr + i * (sd.Ptrsz * 4 + 16) + (sd.Ptrsz * 4 + 16) ≤ r.bytes.length)
    (hl : 0 < sd.word r.bytes (c.RelAddr + i * (sd.Ptrsz * 4 + 16) + sd.Ptrsz))
    (hl255 : sd.word r.bytes (c.RelAddr + i * (sd.Ptrsz * 4 + 16) + sd.Ptrsz) ≤ 255)
    (hfit : TL_SectionOffset sd (sd.word r.bytes (c.RelAddr + i * (sd.Ptrsz * 4 + 16))) +
      sd.word r.bytes (c.RelAddr + i * (sd.Ptrsz * 4 + 16) + sd.Ptrsz) ≤ r.bytes.length) :
    c.Entry sd r i =
      .ok (some (recordEntry sd r.bytes (c.RelAddr + i * (sd.Ptrsz * 4 + 16))), r) := by
  unfold FSCandidate.Entry
  rw [if_neg (by omega)]
  have hes : FSCandidate.EntrySize sd = sd.Ptrsz * 4 + 16 := by
    unfold FSCandidate.EntrySize U64
    rcases hp with h | h <;> rw [h]
  have hmul : mul64 (sd.Ptrsz * 4 + 16) i = i * (sd.Ptrsz * 4 + 16) := by
    unfold mul64
    rw [Nat.mul_comm]
    apply Nat.mod_eq_of_lt
    unfold I63 at hbytes
    unfold U64
    omega
  have hrsa : add64 (i * (sd.Ptrsz * 4 + 16)) c.RelAddr = c.RelAddr + i * (sd.Ptrsz * 4 + 16) := by
    unfold add64
    rw [Nat.add_comm]
    apply Nat.mod_eq_of_lt
    unfold I63 at hbytes
    unfold U64
    omega
  simp only [hes, hmul, hrsa]
  rw [ReadAt_full sd r _ _ (by unfold I63 at *; omega) (by omega)
    (by unfold maxAlloc; rcases hp with h | h <;> omega) hrec]
  simp only
  have hw : ∀ j, j + sd.Ptrsz ≤ sd.Ptrsz * 4 + 16 →
      sd.word ((r.bytes.drop (c.RelAddr + i * (sd.Ptrsz * 4 + 16))).take (sd.Ptrsz * 4 + 16)) j =
        sd.word r.bytes (c.RelAddr + i * (sd.Ptrsz * 4 + 16) + j) :=
    fun j hj => word_window sd _ _ _ _ hj
  rw [NewFSCEFromBuffer_eq sd hp _ r
    (by simp only [List.length_take, List.length_drop]; omega) hbytes
    (by rw [hw _ (by omega)]; exact hl)
    (by rw [hw _ (by omega)]; exact hl255)
    (by rw [hw _ (by omega), hw _ (by omega)]; exact hfit)]
  simp only
  rw [hw _ (by omega), hw _ (by omega), hw _ (by omega), hw _ (by omega)]
  unfold recordEntry
  simp only [Nat.add_zero, List.drop_take, List.drop_drop, Except.ok.injEq, Prod.mk.injEq,
    Option.some.injEq, FSCEntry.mk.injEq, and_true, true_and]
  congr 1
  omega

theorem EntriesLoop_eq (c : FSCandidate) (sd : SectionData) (r : ReadSeeker)
    (f : Nat → FSCEntry)
    (h : ∀ i, i < c.EntryCount → c.Entry sd r i = .ok (some (f i), r)) :
    ∀ (rem i : Nat) (acc : List FSCEntry), i + rem = c.EntryCount →
      c.EntriesLoop sd rem i r acc = .ok (acc ++ (List.range' i rem).map f, r) := by
  intro rem
  induction rem with
  | zero => intro i acc _; simp [FSCandidate.EntriesLoop]
  | succ rem ih =>
    intro i acc hi
    rw [FSCandidate.EntriesLoop, h i (by omega)]
    simp only
    rw [ih (i + 1) _ (by omega), List.range'_succ, List.map_cons, List.append_assoc]
    rfl

/-- C15. For a candidate `c` as the scanner builds it (`RelAddr = TL_SectionOffset Addr`)
that the validator accepts, over a byte source of fewer than `2^63` bytes in which the
entry table and every name lie: `Entry(i)` is `nil` exactly when `i >= EntryCount`; for
`i < EntryCount` it is the entry of the record at section-relative offset
`c.RelAddr + i * (4 * ptr_size + 16)`, whose name is the `name_len` bytes at
`sec_of(name_ptr)`, whose hash is the last 16 bytes of the record, and which is a
directory exactly when the name ends in a slash; and `Entries()` returns the entries of
the records `0` to `EntryCount - 1` in this order, so it has `EntryCount` elements and
its `k`-th element is `Entry(k)`.  No call moves the cursor. -/
theorem entries_spec (sd : SectionData) (hp : sd.Ptrsz = 4 ∨ sd.Ptrsz = 8)
    (r : ReadSeeker) (c : FSCandidate)
    (hrel : c.RelAddr = TL_SectionOffset sd c.Addr)
    (hbytes : r.bytes.length < I63)
    (htab : c.RelAddr + c.EntryCount * (sd.Ptrsz * 4 + 16) ≤ r.bytes.length)
    (hacc : isValidCandidate sd r c = .ok (true, r))
    (hnames : ∀ i, i < c.EntryCount →
      TL_SectionOffset sd (sd.word r.bytes (c.RelAddr + i * (sd.Ptrsz * 4 + 16))) +
        sd.word r.bytes (c.RelAddr + i * (sd.Ptrsz * 4 + 16) + sd.Ptrsz) ≤ r.bytes.length) :
    (∀ i, c.Entry sd r i = .ok (none, r) ↔ c.EntryCount ≤ i) ∧
    (∀ i, i < c.EntryCount →
      c.Entry sd r i =
        .ok (some (recordEntry sd r.bytes (c.RelAddr + i * (sd.Ptrsz * 4 + 16))), r) ∧
      ((recordEntry sd r.bytes (c.RelAddr + i * (sd.Ptrsz * 4 + 16))).IsDir = true ↔
        ∃ init x, (recordEntry sd r.bytes (c.RelAddr + i * (sd.Ptrsz * 4 + 16))).Name =
          init ++ [x] ∧ x % 256 = 47)) ∧
    c.Entries sd r = .ok ((List.range c.EntryCount).map
      (fun k => recordEntry sd r.bytes (c.RelAddr + k * (sd.Ptrsz * 4 + 16))), r) ∧
    (∃ es, c.Entries sd r = .ok (es, r) ∧ es.length = c.EntryCount ∧
      ∀ k, k < c.EntryCount → c.Entry sd r k = .ok (es[k]?, r)) := by
  have hE : ∀ i, i < c.EntryCount → c.Entry sd r i =
      .ok (some (recordEntry sd r.bytes (c.RelAddr + i * (sd.Ptrsz * 4 + 16))), r) := by
    intro i hi
    have hmul : (i + 1) * (sd.Ptrsz * 4 + 16) ≤ c.EntryCount * (sd.Ptrsz * 4 + 16) :=
      Nat.mul_le_mul_right _ hi
    rw [Nat.succ_mul] at hmul
    have hv := (validAt_iff sd hp r c true).mpr hacc
    unfold validAt at hv
    rw [validatorStart_eq sd r c (by rw [← hrel]; omega), ← hrel] at hv
    have hok := (recordsValid_true sd r.bytes _ _ hv i hi).2
    rw [recordOk_iff] at hok
    exact Entry_eq c sd hp r i hi hbytes (by omega) (by omega) (by omega) (hnames i hi)
  have hEs := EntriesLoop_eq c sd r
    (fun k => recordEntry sd r.bytes (c.RelAddr + k * (sd.Ptrsz * 4 + 16))) hE
    c.EntryCount 0 [] (by omega)
  rw [List.nil_append, ← List.range_eq_range'] at hEs
  refine ⟨?_, fun i hi => ⟨hE i hi, hasSlashSuffix_iff _⟩, hEs, _, hEs, by simp, ?_⟩
  · intro i
    constructor
    · intro h
      by_contra hlt
      rw [hE i (by omega)] at h
      simp at h
    · intro h
      unfold FSCandidate.Entry
      rw [if_pos h]
  · intro k hk
    rw [hE k hk]
    simp [hk]

/-- C15 in the section with two entries: the hypotheses hold, `Entries()` returns the
two entries in stored order, and `Entry(2)` is `nil`. -/
theorem entries_spec_witness :
    ((blobSection.Ptrsz = 4 ∨ blobSection.Ptrsz = 8) ∧
      blobCandidate.RelAddr = TL_SectionOffset blobSection blobCandidate.Addr ∧
      blobReader.bytes.length < I63 ∧
      blobCandidate.RelAddr + blobCandidate.EntryCount * (blobSection.Ptrsz * 4 + 16) ≤
        blobReader.bytes.length ∧
      isValidCandidate blobSection blobReader blobCandidate = .ok (true, blobReader)) ∧
    blobCandidate.Entries blobSection blobReader =
      .ok ([blobEntry 97 78 0, blobEntry 98 18446744073709547520 1], blobReader) ∧
    blobCandidate.Entries blobSection blobReader =
      .ok ((List.range blobCandidate.EntryCount).map
        (fun k => recordEntry blobSection blobReader.bytes
          (blobCandidate.RelAddr + k * (blobSection.Ptrsz * 4 + 16))), blobReader) ∧
    (blobCandidate.Entry blobSection blobReader 2 = .ok (none, blobReader) ↔
      blobCandidate.EntryCount ≤ 2) :=
  ⟨⟨by decide, by rfl, by decide, by decide, by rfl⟩, by rfl,
    (entries_spec blobSection (by decide) blobReader blobCandidate (by rfl) (by decide)
      (by decide) (by rfl) (by
        intro i hi
        have h2 : i < 2 := hi
        interval_cases i
        · decide
        · decide)).2.2.1,
    (entries_spec blobSection (by decide) blobReader blobCandidate (by rfl) (by decide)
      (by decide) (by rfl) (by
        intro i hi
        have h2 : i < 2 := hi
        interval_cases i
        · decide
        · decide)).1 2⟩

/-! ## The file tree -/

theorem subtrees_eq (cs : List (List Byte × TreeNode)) (d : Nat) :
    TreeNode.preorder.subtrees cs d = cs.map (fun p => (p.1, p.2.preorder (d + 1))) := by
  induction cs with
  | nil => rfl
  | cons p rest ih =>
    obtain ⟨k, c⟩ := p
    rw [TreeNode.preorder.subtrees, ih]
    rfl

theorem preorder_eq (node : TreeNode) (d : Nat) :
    node.preorder d = (d, node) ::
      ((sortByKey (node.Children.map (fun p => (p.1, p.2.preorder (d + 1))))).map
        Prod.snd).flatten := by
  cases node with
  | mk name isDir entry children =>
    rw [TreeNode.preorder, subtrees_eq]
    rfl

theorem height_child (cs : List (List Byte × TreeNode)) (k : List Byte) (c : TreeNode)
    (h : (k, c) ∈ cs) : c.height ≤ TreeNode.height.heightList cs := by
  induction cs with
  | nil => simp at h
  | cons p rest ih =>
    obtain ⟨k2, c2⟩ := p
    rw [TreeNode.height.heightList]
    rcases List.mem_cons.mp h with h1 | h1
    · simp only [Prod.mk.injEq] at h1
      rw [h1.2]
      exact Nat.le_max_left _ _
    · exact Nat.le_trans (ih h1) (Nat.le_max_right _ _)

theorem height_lt (node : TreeNode) (k : List Byte) (c : TreeNode)
    (h : (k, c) ∈ node.Children) : c.height < node.height := by
  cases node with
  | mk name isDir entry children =>
    rw [TreeNode.height]
    have := height_child children k c h
    omega

theorem mapGet_mem (cs : List (List Byte × TreeNode)) (key : List Byte) (c : TreeNode)
    (h : mapGet cs key = some c) : (key, c) ∈ cs := by
  induction cs with
  | nil => simp [mapGet] at h
  | cons p rest ih =>
    obtain ⟨k2, c2⟩ := p
    rw [mapGet] at h
    by_cases hk : k2 = key
    · rw [if_pos hk] at h
      simp only [Option.some.injEq] at h
      rw [hk, h]
      exact List.mem_cons_self _ _
    · rw [if_neg hk] at h
      exact List.mem_cons_of_mem _ (ih h)

theorem mapGet_of_mem (cs : List (List Byte × TreeNode)) (key : List Byte)
    (h : key ∈ cs.map Prod.fst) : ∃ c, mapGet cs key = some c := by
  induction cs with
  | nil => simp at h
  | cons p rest ih =>
    obtain ⟨k2, c2⟩ := p
    rw [mapGet]
    by_cases hk : k2 = key
    · rw [if_pos hk]
      exact ⟨c2, rfl⟩
    · rw [if_neg hk]
      simp only [List.map_cons, List.mem_cons] at h
      rcases h with h | h
      · exact absurd h.symm hk
      · exact ih h

theorem mapGet_nodup (cs : List (List Byte × TreeNode)) (hn : (cs.map Prod.fst).Nodup)
    (key : List Byte) (c : TreeNode) (h : (key, c) ∈ cs) : mapGet cs key = some c := by
  induction cs with
  | nil => simp at h
  | cons p rest ih =>
    obtain ⟨k2, c2⟩ := p
    rw [mapGet]
    simp only [List.map_cons, List.nodup_cons] at hn
    rcases List.mem_cons.mp h with h1 | h1
    · simp only [Prod.mk.injEq] at h1
      rw [if_pos h1.1.symm, h1.2]
    · have hne : k2 ≠ key := by
        intro he
        apply hn.1
        rw [he]
        exact List.mem_map_of_mem Prod.fst h1
      rw [if_neg hne]
      exact ih hn.2 h1

/-! ### Sorting -/

theorem insertByKey_map {β γ : Type} (g : β → γ) (p : List Byte × β)
    (l : List (List Byte × β)) :
    (insertByKey p l).map (fun q => (q.1, g q.2)) =
      insertByKey (p.1, g p.2) (l.map (fun q => (q.1, g q.2))) := by
  induction l with
  | nil => rfl
  | cons x xs ih =>
    simp only [insertByKey, List.map_cons]
    by_cases h : strLess x.1 p.1 = true
    · rw [if_pos h, if_pos h, List.map_cons, ih]
    · rw [if_neg h, if_neg h]
      rfl

theorem sortByKey_map {β γ : Type} (g : β → γ) (l : List (List Byte × β)) :
    (sortByKey l).map (fun q => (q.1, g q.2)) = sortByKey (l.map (fun q => (q.1, g q.2))) := by
  induction l with
  | nil => rfl
  | cons x xs ih =>
    unfold sortByKey at ih ⊢
    rw [List.foldr_cons, insertByKey_map, ih]
    rfl

theorem insertByKey_keys {β : Type} (p : List Byte × β) (l : List (List Byte × β)) :
    (insertByKey p l).map Prod.fst = insertSorted p.1 (l.map Prod.fst) := by
  induction l with
  | nil => rfl
  | cons x xs ih =>
    simp only [insertByKey, insertSorted, List.map_cons]
    by_cases h : strLess x.1 p.1 = true
    · rw [if_pos h, if_pos h, List.map_cons, ih]
    · rw [if_neg h, if_neg h]
      rfl

theorem sortByKey_keys {β : Type} (l : List (List Byte × β)) :
    (sortByKey l).map Prod.fst = sortStrings (l.map Prod.fst) := by
  induction l with
  | nil => rfl
  | cons x xs ih =>
    unfold sortByKey sortStrings at ih ⊢
    rw [List.foldr_cons, insertByKey_keys, ih]
    rfl

theorem insertByKey_perm {β : Type} (p : List Byte × β) (l : List (List Byte × β)) :
    (insertByKey p l).Perm (p :: l) := by
  induction l with
  | nil => exact List.Perm.refl _
  | cons x xs ih =>
    rw [insertByKey]
    by_cases h : strLess x.1 p.1 = true
    · rw [if_pos h]
      exact ((List.Perm.cons x ih).trans (List.Perm.swap p x xs))
    · rw [if_neg h]

theorem sortByKey_perm {β : Type} (l : List (List Byte × β)) : (sortByKey l).Perm l := by
  induction l with
  | nil => exact List.Perm.refl _
  | cons x xs ih =>
    unfold sortByKey at ih ⊢
    rw [List.foldr_cons]
    exact (insertByKey_perm x _).trans (List.Perm.cons x ih)

theorem strLess_irrefl (a : List Nat) : strLess a a = false := by
  induction a with
  | nil => rfl
  | cons x xs ih =>
    rw [strLess, if_neg (Nat.lt_irrefl x), if_neg (Nat.lt_irrefl x)]
    exact ih

theorem strLess_trans : ∀ (a b c : List Nat), strLess a b = true → strLess b c = true →
    strLess a c = true := by
  intro a
  induction a with
  | nil =>
    intro b c hab hbc
    cases b with
    | nil => simp [strLess] at hab
    | cons y ys =>
      cases c with
      | nil => simp [strLess] at hbc
      | cons z zs => rfl
  | cons x xs ih =>
    intro b c hab hbc
    cases b with
    | nil => simp [strLess] at hab
    | cons y ys =>
      cases c with
      | nil => simp [strLess] at hbc
      | cons z zs =>
        rw [strLess] at hab hbc ⊢
        by_cases hxy : x < y
        · by_cases hyz : y < z
          · have hxz : x < z := by omega
            rw [if_pos hxz]
          · rw [if_neg hyz] at hbc
            by_cases hzy : z < y
            · rw [if_pos hzy] at hbc
              simp at hbc
            · have hxz : x < z := by omega
              rw [if_pos hxz]
        · rw [if_neg hxy] at hab
          by_cases hyx : y < x
          · rw [if_pos hyx] at hab
            simp at hab
          · rw [if_neg hyx] at hab
            have hxy2 : x = y := by omega
            subst hxy2
            by_cases hyz : x < z
            · rw [if_pos hyz]
            · rw [if_neg hyz] at hbc ⊢
              by_cases hzy : z < x
              · rw [if_pos hzy] at hbc
                simp at hbc
              · rw [if_neg hzy] at hbc ⊢
                exact ih ys zs hab hbc

theorem strLess_total : ∀ (a b : List Nat), strLess a b = false → a ≠ b →
    strLess b a = true := by
  intro a
  induction a with
  | nil =>
    intro b h hne
    cases b with
    | nil => exact absurd rfl hne
    | cons y ys => simp [strLess] at h
  | cons x xs ih =>
    intro b h hne
    cases b with
    | nil => rfl
    | cons y ys =>
      rw [strLess] at h ⊢
      by_cases hxy : x < y
      · rw [if_pos hxy] at h
        simp at h
      · rw [if_neg hxy] at h
        by_cases hyx : y < x
        · rw [if_pos hyx]
        · rw [if_neg hyx] at h
          rw [if_neg hyx, if_neg hxy]
          have hxy2 : x = y := by omega
          subst hxy2
          exact ih ys h (fun he => hne (by rw [he]))

theorem insertByKey_sorted {β : Type} (p : List Byte × β) (l : List (List Byte × β))
    (hp : ∀ q ∈ l, q.1 ≠ p.1)
    (hl : l.Pairwise (fun a b => strLess a.1 b.1 = true)) :
    (insertByKey p l).Pairwise (fun a b => strLess a.1 b.1 = true) := by
  induction l with
  | nil => simp [insertByKey]
  | cons x xs ih =>
    rw [insertByKey]
    rw [List.pairwise_cons] at hl
    by_cases h : strLess x.1 p.1 = true
    · rw [if_pos h, List.pairwise_cons]
      refine ⟨?_, ih (fun q hq => hp q (List.mem_cons_of_mem _ hq)) hl.2⟩
      intro q hq
      rcases List.mem_cons.mp ((insertByKey_perm p xs).subset hq) with h1 | h1
      · rw [h1]
        exact h
      · exact hl.1 q h1
    · rw [if_neg h, List.pairwise_cons]
      have hpx : strLess p.1 x.1 = true :=
        strLess_total x.1 p.1 (by simpa using h) (hp x (List.mem_cons_self _ _))
      refine ⟨?_, List.pairwise_cons.mpr hl⟩
      intro q hq
      rcases List.mem_cons.mp hq with h1 | h1
      · rw [h1]
        exact hpx
      · exact strLess_trans _ _ _ hpx (hl.1 q h1)

theorem sortByKey_sorted {β : Type} (l : List (List Byte × β))
    (hn : (l.map Prod.fst).Nodup) :
    (sortByKey l).Pairwise (fun a b => strLess a.1 b.1 = true) := by
  induction l with
  | nil => simp [sortByKey]
  | cons x xs ih =>
    simp only [List.map_cons, List.nodup_cons] at hn
    unfold sortByKey at ih ⊢
    rw [List.foldr_cons]
    apply insertByKey_sorted x _ _ (ih hn.2)
    intro q hq he
    apply hn.1
    rw [← he]
    exact List.mem_map_of_mem Prod.fst ((sortByKey_perm xs).subset hq)

theorem mem_sortStrings (keys : List (List Byte × TreeNode)) (k : List Byte)
    (h : k ∈ sortStrings (keys.map Prod.fst)) : k ∈ keys.map Prod.fst := by
  rw [← sortByKey_keys] at h
  exact (List.Perm.map Prod.fst (sortByKey_perm keys)).subset h

theorem sorted_lookup {γ : Type} (cs : List (List Byte × TreeNode))
    (hn : (cs.map Prod.fst).Nodup) (F : TreeNode → γ) :
    (sortStrings (cs.map Prod.fst)).filterMap (fun k => (mapGet cs k).map F) =
      (sortByKey (cs.map (fun p => (p.1, F p.2)))).map Prod.snd := by
  rw [← sortByKey_keys, List.filterMap_map, ← sortByKey_map, List.map_map]
  rw [← List.filterMap_eq_map]
  apply List.filterMap_congr
  intro p hp
  have hmem : (p.1, p.2) ∈ cs := (sortByKey_perm cs).subset hp
  simp only [Function.comp_apply, mapGet_nodup cs hn p.1 p.2 hmem, Option.map_some']

/-! ### The listing -/

theorem listingBytes_cons (p : Nat × TreeNode) (l : List (Nat × TreeNode)) :
    listingBytes (p :: l) = nodeLine p.1 p.2 ++ listingBytes l := by
  unfold listingBytes
  rw [List.map_cons, List.flatten_cons]

theorem listingBytes_flatten (L : List (List (Nat × TreeNode))) :
    listingBytes L.flatten = (L.map listingBytes).flatten := by
  induction L with
  | nil => rfl
  | cons l ls ih =>
    rw [List.flatten_cons, List.map_cons, List.flatten_cons, ← ih]
    unfold listingBytes
    rw [List.map_append, List.flatten_append]

theorem printChildren_eq (fuel : Nat) (cs : List (List Byte × TreeNode)) (indent : List Byte)
    (out : TreeNode → List Byte)
    (hout : ∀ k c, (k, c) ∈ cs →
      ∀ w, PrintTreeSorted fuel c indent w = .ok (w ++ out c)) :
    ∀ (keys : List (List Byte)) (w : List Byte), (∀ k ∈ keys, k ∈ cs.map Prod.fst) →
      keys.foldlM (fun writer key =>
        match mapGet cs key with
        | none => Except.error Panic.nilDereference
        | some child => PrintTreeSorted fuel child indent writer) w =
      Except.ok (w ++ (keys.filterMap (fun k => (mapGet cs k).map out)).flatten) := by
  intro keys
  induction keys with
  | nil => intro w _; simp [List.foldlM, pure, Except.pure]
  | cons k ks ih =>
    intro w hk
    obtain ⟨c, hc⟩ := mapGet_of_mem cs k (hk k (List.mem_cons_self _ _))
    rw [List.foldlM_cons, hc]
    simp only
    rw [hout k c (mapGet_mem cs k c hc) w]
    show List.foldlM _ (w ++ out c) ks = _
    rw [ih (w ++ out c) (fun k2 hk2 => hk k2 (List.mem_cons_of_mem _ hk2))]
    rw [List.filterMap_cons, hc]
    simp only [Option.map_some', List.flatten_cons, List.append_assoc]

theorem height_pos (node : TreeNode) : 1 ≤ node.height := by
  cases node with
  | mk name isDir entry children =>
    rw [TreeNode.height]
    omega

theorem PrintTreeSorted_eq (E : FSCEntry → Prop) :
    ∀ (fuel : Nat) (node : TreeNode) (d : Nat) (w : List Byte), GoodTree E node →
      node.height ≤ fuel →
      PrintTreeSorted fuel node (List.replicate d 32) w =
        .ok (w ++ listingBytes (node.preorder d)) := by
  intro fuel
  induction fuel with
  | zero =>
    intro node d w _ h
    have := height_pos node
    omega
  | succ fuel ih =>
    intro node d w hgood hh
    have hpre := preorder_eq node d
    cases hgood with
    | mk name isDir entry children hkeys hchild hrec =>
      rw [PrintTreeSorted]
      simp only [TreeNode.Name, TreeNode.IsDir, TreeNode.Children] at hpre ⊢
      have hind : List.replicate d 32 ++ [32] = List.replicate (d + 1) (32 : Byte) := by
        rw [List.replicate_succ']
      rw [hind]
      have hstep := printChildren_eq fuel children (List.replicate (d + 1) 32)
        (fun c => listingBytes (c.preorder (d + 1)))
        (fun k c hkc w2 => ih c (d + 1) w2 (hrec k c hkc) (by
          have := height_lt (TreeNode.mk name isDir entry children) k c hkc
          omega))
        (sortStrings (children.map Prod.fst))
      have hline : (if (isDir && name != [47]) = true
          then w ++ (List.replicate d 32 ++ name) ++ [47, 10]
          else w ++ (List.replicate d 32 ++ name) ++ [10]) =
          w ++ nodeLine d (TreeNode.mk name isDir entry children) := by
        unfold nodeLine
        simp only [TreeNode.Name, TreeNode.IsDir]
        split <;> simp only [List.append_assoc]
      rw [hline, hstep _ (fun k hk => mem_sortStrings children k hk),
        sorted_lookup children hkeys, hpre, listingBytes_cons, listingBytes_flatten,
        List.map_map]
      have hmap : (sortByKey (children.map
            (fun p => (p.1, listingBytes (p.2.preorder (d + 1)))))).map Prod.snd =
          List.map (listingBytes ∘ Prod.snd)
            (sortByKey (children.map (fun p => (p.1, p.2.preorder (d + 1))))) := by
        have h1 := sortByKey_map listingBytes
          (children.map (fun p => (p.1, p.2.preorder (d + 1))))
        rw [List.map_map] at h1
        have h2 : ((fun q : List Byte × List (Nat × TreeNode) => (q.1, listingBytes q.2)) ∘
            fun p : List Byte × TreeNode => (p.1, p.2.preorder (d + 1))) =
            fun p => (p.1, listingBytes (p.2.preorder (d + 1))) := rfl
        rw [h2] at h1
        rw [← h1, List.map_map]
        rfl
      rw [hmap]
      simp only [List.append_assoc]

/-! ### What `Insert` builds -/

theorem splitSlash_ne_nil (s : List Byte) : splitSlash s ≠ [] := by
  cases s with
  | nil => simp [splitSlash]
  | cons b bs =>
    rw [splitSlash]
    split
    · simp
    · split <;> simp

theorem splitSlash_no_slash : ∀ (s : List Byte), ∀ c ∈ splitSlash s, 47 ∉ c := by
  intro s
  induction s with
  | nil =>
    intro c hc
    simp only [splitSlash, List.mem_singleton] at hc
    rw [hc]
    simp
  | cons b bs ih =>
    intro c hc
    rw [splitSlash] at hc
    by_cases hb : b = 47
    · rw [if_pos hb] at hc
      rcases List.mem_cons.mp hc with h | h
      · rw [h]
        simp
      · exact ih c h
    · rw [if_neg hb] at hc
      cases hs : splitSlash bs with
      | nil =>
        rw [hs] at hc
        simp only [List.mem_singleton] at hc
        rw [hc]
        simp only [List.mem_singleton]
        exact fun h => hb h.symm
      | cons x xs =>
        rw [hs] at hc ih
        simp only at hc
        rcases List.mem_cons.mp hc with h | h
        · rw [h]
          intro hmem
          rcases List.mem_cons.mp hmem with h1 | h1
          · exact hb h1.symm
          · exact ih x (List.mem_cons_self _ _) h1
        · exact ih c (List.mem_cons_of_mem _ h)

theorem insertFrom_fields (f : FSCEntry) :
    ∀ (comps : List (List Byte)) (node : TreeNode),
      (insertFrom f comps node).Name = node.Name ∧
      (insertFrom f comps node).IsDir = node.IsDir ∧
      (insertFrom f comps node).Entry = node.Entry := by
  intro comps
  induction comps with
  | nil => intro node; exact ⟨rfl, rfl, rfl⟩
  | cons comp rest ih =>
    intro node
    rw [insertFrom]
    by_cases hc : comp = []
    · rw [if_pos hc]
      exact ih node
    · rw [if_neg hc]
      exact ⟨rfl, rfl, rfl⟩

theorem mapGet_none (cs : List (List Byte × TreeNode)) (key : List Byte)
    (h : mapGet cs key = none) : key ∉ cs.map Prod.fst := by
  intro hmem
  obtain ⟨c, hc⟩ := mapGet_of_mem cs key hmem
  rw [hc] at h
  simp at h

theorem mapSet_keys_some (cs : List (List Byte × TreeNode)) (key : List Byte) (v : TreeNode)
    (h : key ∈ cs.map Prod.fst) : (mapSet cs key v).map Prod.fst = cs.map Prod.fst := by
  induction cs with
  | nil => simp at h
  | cons p rest ih =>
    obtain ⟨k2, c2⟩ := p
    rw [mapSet]
    by_cases hk : k2 = key
    · rw [if_pos hk]
      rfl
    · rw [if_neg hk, List.map_cons, List.map_cons, ih]
      simp only [List.map_cons, List.mem_cons] at h
      rcases h with h | h
      · exact absurd h.symm hk
      · exact h

theorem mapSet_keys_none (cs : List (List Byte × TreeNode)) (key : List Byte) (v : TreeNode)
    (h : key ∉ cs.map Prod.fst) : (mapSet cs key v).map Prod.fst = cs.map Prod.fst ++ [key] := by
  induction cs with
  | nil => rfl
  | cons p rest ih =>
    obtain ⟨k2, c2⟩ := p
    simp only [List.map_cons, List.mem_cons, not_or] at h
    rw [mapSet, if_neg (fun he => h.1 he.symm), List.map_cons, ih h.2]
    rfl

theorem mem_mapSet (cs : List (List Byte × TreeNode)) (key : List Byte) (v : TreeNode)
    (k : List Byte) (c : TreeNode) (h : (k, c) ∈ mapSet cs key v) :
    (k, c) ∈ cs ∨ (k = key ∧ c = v) := by
  induction cs with
  | nil =>
    simp only [mapSet, List.mem_singleton, Prod.mk.injEq] at h
    exact Or.inr h
  | cons p rest ih =>
    obtain ⟨k2, c2⟩ := p
    rw [mapSet] at h
    by_cases hk : k2 = key
    · rw [if_pos hk] at h
      rcases List.mem_cons.mp h with h1 | h1
      · simp only [Prod.mk.injEq] at h1
        exact Or.inr ⟨by rw [h1.1, hk], h1.2⟩
      · exact Or.inl (List.mem_cons_of_mem _ h1)
    · rw [if_neg hk] at h
      rcases List.mem_cons.mp h with h1 | h1
      · exact Or.inl (by rw [h1]; exact List.mem_cons_self _ _)
      · rcases ih h1 with h2 | h2
        · exact Or.inl (List.mem_cons_of_mem _ h2)
        · exact Or.inr h2

theorem mapSet_nodup (cs : List (List Byte × TreeNode)) (key : List Byte) (v : TreeNode)
    (hn : (cs.map Prod.fst).Nodup) : ((mapSet cs key v).map Prod.fst).Nodup := by
  by_cases h : key ∈ cs.map Prod.fst
  · rw [mapSet_keys_some cs key v h]
    exact hn
  · rw [mapSet_keys_none cs key v h]
    rw [List.nodup_append]
    refine ⟨hn, List.nodup_singleton _, ?_⟩
    intro a ha hb
    simp only [List.mem_singleton] at hb
    rw [hb] at ha
    exact h ha

theorem insertFrom_good (E : FSCEntry → Prop) (f : FSCEntry) (hE : E f) :
    ∀ (comps : List (List Byte)) (node : TreeNode),
      (∀ c ∈ comps, c ∈ splitSlash f.Name) → GoodTree E node →
      GoodTree E (insertFrom f comps node) := by
  intro comps
  induction comps with
  | nil => intro node _ h; exact h
  | cons comp rest ih =>
    intro node hcomps hgood
    rw [insertFrom]
    by_cases hc : comp = []
    · rw [if_pos hc]
      exact ih node (fun c hcm => hcomps c (List.mem_cons_of_mem _ hcm)) hgood
    · rw [if_neg hc]
      have hrest : ∀ c ∈ rest, c ∈ splitSlash f.Name :=
        fun c hcm => hcomps c (List.mem_cons_of_mem _ hcm)
      have hcomp : comp ∈ splitSlash f.Name := hcomps comp (List.mem_cons_self _ _)
      cases hgood with
      | mk name isDir entry children hkeys hchild hrec =>
        simp only [TreeNode.Name, TreeNode.IsDir, TreeNode.Entry, TreeNode.Children]
        have hchild0 : ∃ child0 : TreeNode,
            (match mapGet children comp with
              | some childNode => childNode
              | none => TreeNode.mk comp f.IsDir f []) = child0 ∧
            GoodTree E child0 ∧ child0.Name = comp ∧ child0.IsDir = child0.Entry.IsDir ∧
            E child0.Entry ∧ comp ∈ splitSlash child0.Entry.Name := by
          cases hg : mapGet children comp with
          | none =>
            refine ⟨_, rfl, GoodTree.mk _ _ _ _ (by simp) (by simp) (by simp), rfl, rfl, hE,
              hcomp⟩
          | some c =>
            have hm := mapGet_mem children comp c hg
            have h1 := hchild comp c hm
            exact ⟨c, rfl, hrec comp c hm, h1.1, h1.2.2.2.1, h1.2.2.2.2.1, h1.2.2.2.2.2⟩
        obtain ⟨child0, he, hg0, hn0, hd0, hE0, hs0⟩ := hchild0
        rw [he]
        have hf := insertFrom_fields f rest child0
        refine GoodTree.mk _ _ _ _ (mapSet_nodup children comp _ hkeys) ?_ ?_
        · intro k c hkc
          rcases mem_mapSet children comp _ k c hkc with h | ⟨hk, hcv⟩
          · exact hchild k c h
          · rw [hcv, hk, hf.1, hf.2.1, hf.2.2]
            exact ⟨hn0, hc, splitSlash_no_slash f.Name comp hcomp, hd0, hE0, hs0⟩
        · intro k c hkc
          rcases mem_mapSet children comp _ k c hkc with h | ⟨hk, hcv⟩
          · exact hrec k c h
          · rw [hcv]
            exact ih child0 hrest hg0

theorem foldl_Insert_good (E : FSCEntry → Prop) :
    ∀ (l : List FSCEntry) (t : FileTree), (∀ f ∈ l, E f) → GoodTree E t.Root →
      GoodTree E (l.foldl FileTree.Insert t).Root ∧
      (l.foldl FileTree.Insert t).Root.Name = t.Root.Name ∧
      (l.foldl FileTree.Insert t).Root.IsDir = t.Root.IsDir := by
  intro l
  induction l with
  | nil => intro t _ h; exact ⟨h, rfl, rfl⟩
  | cons f fs ih =>
    intro t hE h
    rw [List.foldl_cons]
    have hstep : GoodTree E (t.Insert f).Root :=
      insertFrom_good E f (hE f (List.mem_cons_self _ _)) _ _ (fun c hc => hc) h
    have hf := insertFrom_fields f (splitSlash f.Name) t.Root
    have := ih (t.Insert f) (fun g hg => hE g (List.mem_cons_of_mem _ hg)) hstep
    refine ⟨this.1, ?_, ?_⟩
    · rw [this.2.1]
      exact hf.1
    · rw [this.2.2]
      exact hf.2.1

theorem treeOf_good (entries : List FSCEntry) :
    GoodTree (fun f => f ∈ entries) (treeOf entries).Root ∧
    (treeOf entries).Root.Name = [47] ∧ (treeOf entries).Root.IsDir = true := by
  have h := foldl_Insert_good (fun f => f ∈ entries) entries NewFileTree (fun f hf => hf)
    (GoodTree.mk _ _ _ _ (by simp) (by simp) (by simp))
  exact h

theorem preorder_children (node : TreeNode) (d : Nat) :
    node.preorder d = (d, node) ::
      ((sortByKey node.Children).map (fun q => q.2.preorder (d + 1))).flatten := by
  rw [preorder_eq, ← sortByKey_map (fun c : TreeNode => c.preorder (d + 1)), List.map_map]
  rfl

theorem GoodTree.keys {E : FSCEntry → Prop} {node : TreeNode} (h : GoodTree E node) :
    (node.Children.map Prod.fst).Nodup := by
  cases h with
  | mk name isDir entry children hkeys hchild hrec => exact hkeys

theorem GoodTree.child {E : FSCEntry → Prop} {node : TreeNode} (h : GoodTree E node)
    (k : List Byte) (c : TreeNode) (hkc : (k, c) ∈ node.Children) :
    GoodTree E c ∧ c.Name = k ∧ k ≠ [] ∧ 47 ∉ k ∧ c.IsDir = c.Entry.IsDir ∧ E c.Entry ∧
      k ∈ splitSlash c.Entry.Name := by
  cases h with
  | mk name isDir entry children hkeys hchild hrec => exact ⟨hrec k c hkc, hchild k c hkc⟩

theorem preorder_tail (E : FSCEntry → Prop) :
    ∀ (n : Nat) (node : TreeNode) (d : Nat), node.height ≤ n → GoodTree E node →
      ∀ p ∈ ((sortByKey node.Children).map (fun q => q.2.preorder (d + 1))).flatten,
        GoodTree E p.2 ∧ d < p.1 ∧ p.2.Name ≠ [] ∧ 47 ∉ p.2.Name ∧
          p.2.IsDir = p.2.Entry.IsDir ∧ E p.2.Entry ∧
          p.2.Name ∈ splitSlash p.2.Entry.Name := by
  intro n
  induction n with
  | zero =>
    intro node d h
    have := height_pos node
    omega
  | succ n ih =>
    intro node d hh hgood p hp
    obtain ⟨l, hl, hpl⟩ := List.mem_flatten.mp hp
    obtain ⟨q, hq, hql⟩ := List.mem_map.mp hl
    have hqc : (q.1, q.2) ∈ node.Children := (sortByKey_perm node.Children).subset hq
    have hlt := height_lt node q.1 q.2 hqc
    have hc := hgood.child q.1 q.2 hqc
    rw [← hql, preorder_children] at hpl
    rcases List.mem_cons.mp hpl with h1 | h1
    · rw [h1]
      simp only
      rw [hc.2.1]
      exact ⟨hc.1, by omega, hc.2.2.1, hc.2.2.2.1, hc.2.2.2.2.1, hc.2.2.2.2.2.1,
        hc.2.2.2.2.2.2⟩
    · have := ih q.2 (d + 1) (by omega) hc.1 p h1
      exact ⟨this.1, by omega, this.2.2⟩

theorem preorder_good (E : FSCEntry → Prop) (node : TreeNode) (d : Nat)
    (hgood : GoodTree E node) : ∀ p ∈ node.preorder d, GoodTree E p.2 := by
  intro p hp
  rw [preorder_children] at hp
  rcases List.mem_cons.mp hp with h | h
  · rw [h]
    exact hgood
  · exact (preorder_tail E _ node d (Nat.le_refl _) hgood p h).1

/-! ## C17: the sorted tree listing -/

/-- C17. For every list of entries inserted, in the order of the list, into a fresh tree,
and fuel for at least the height of the tree: `PrintTreeSorted(Root, "")` returns, and
what it writes is the lines of the nodes in pre-order, each node on its own line behind
one space per level of depth; the listing starts with the root, whose line is `/`; for
every node of the listing, the listing of its subtree is the node followed by the
listings of its children one level deeper, taken in the order of `sortByKey`, which is a
rearrangement of the children in strictly ascending order of their keys, and the key of a
child is its name.  For the entries `assets/`, `assets/a.txt`, `assets/b.txt` the output
is the four lines `/`, ` assets/`, `  a.txt`, `  b.txt`. -/
theorem printTreeSorted_spec (entries : List FSCEntry) (fuel : Nat)
    (hfuel : (treeOf entries).Root.height ≤ fuel) :
    PrintTreeSorted fuel (treeOf entries).Root [] [] =
      .ok (listingBytes ((treeOf entries).Root.preorder 0)) ∧
    (∃ rest, (treeOf entries).Root.preorder 0 = (0, (treeOf entries).Root) :: rest) ∧
    nodeLine 0 (treeOf entries).Root = [47, 10] ∧
    (∀ p ∈ (treeOf entries).Root.preorder 0,
      p.2.preorder p.1 =
        p :: ((sortByKey p.2.Children).map (fun q => q.2.preorder (p.1 + 1))).flatten ∧
      (sortByKey p.2.Children).Perm p.2.Children ∧
      (sortByKey p.2.Children).Pairwise (fun a b => strLess a.1 b.1 = true) ∧
      (∀ q ∈ p.2.Children, q.2.Name = q.1)) ∧
    PrintTreeSorted 3 (treeOf [namedEntry "assets/", namedEntry "assets/a.txt",
        namedEntry "assets/b.txt"]).Root [] [] =
      .ok (strBytes "/\n assets/\n  a.txt\n  b.txt\n") := by
  obtain ⟨hgood, hname, hdir⟩ := treeOf_good entries
  refine ⟨?_, ⟨_, preorder_children _ 0⟩, ?_, ?_, by rfl⟩
  · have h := PrintTreeSorted_eq _ fuel _ 0 [] hgood hfuel
    simpa using h
  · unfold nodeLine
    rw [hname, hdir]
    rfl
  · intro p hp
    have hg := preorder_good _ _ 0 hgood p hp
    exact ⟨preorder_children p.2 p.1, sortByKey_perm _, sortByKey_sorted _ hg.keys,
      fun q hq => (hg.child q.1 q.2 hq).2.1⟩

/-- C17 for the entries `assets/`, `assets/a.txt`, `assets/b.txt`: the tree has three
levels, and with fuel 3 the output is the listing of the tree in pre-order. -/
theorem printTreeSorted_spec_witness :
    (treeOf [namedEntry "assets/", namedEntry "assets/a.txt",
      namedEntry "assets/b.txt"]).Root.height ≤ 3 ∧
    PrintTreeSorted 3 (treeOf [namedEntry "assets/", namedEntry "assets/a.txt",
        namedEntry "assets/b.txt"]).Root [] [] =
      .ok (listingBytes ((treeOf [namedEntry "assets/", namedEntry "assets/a.txt",
        namedEntry "assets/b.txt"]).Root.preorder 0)) ∧
    listingBytes ((treeOf [namedEntry "assets/", namedEntry "assets/a.txt",
        namedEntry "assets/b.txt"]).Root.preorder 0) =
      strBytes "/\n assets/\n  a.txt\n  b.txt\n" :=
  ⟨by decide,
    (printTreeSorted_spec [namedEntry "assets/", namedEntry "assets/a.txt",
      namedEntry "assets/b.txt"] 3 (by decide)).1, by rfl⟩

/-! ## C18: the slash after a directory -/

/-- C18 as stated fails.  With `assets/a.txt` inserted before `assets/`, the node `assets`
is created for the file entry and keeps its flag: it has the child `a.txt` and is named by
the entry `assets/`, and its line is ` assets`, without a slash.  The same happens when
the entry `assets/` is not inserted at all. -/
theorem printTreeSorted_directory_without_slash :
    PrintTreeSorted 3 (treeOf [namedEntry "assets/a.txt", namedEntry "assets/"]).Root [] [] =
      .ok (strBytes "/\n assets\n  a.txt\n") ∧
    (mapGet (treeOf [namedEntry "assets/a.txt", namedEntry "assets/"]).Root.Children
        (strBytes "assets")).map (fun n => (n.IsDir, n.Children.map Prod.fst)) =
      some (false, [strBytes "a.txt"]) ∧
    (namedEntry "assets/").IsDir = true ∧
    PrintTreeSorted 3 (treeOf [namedEntry "assets/a.txt"]).Root [] [] =
      .ok (strBytes "/\n assets\n  a.txt\n") := by
  refine ⟨by rfl, by rfl, by rfl, by rfl⟩

/-! ## C21: the stale tail of the chunk buffer -/

theorem mem_emitAtByte (sd : SectionData) (hp : sd.Ptrsz = 4 ∨ sd.Ptrsz = 8)
    (bytes : List Byte) (hn : bytes.length < I63) (j : Nat) (hj : j + 3 * sd.Ptrsz < bytes.length)
    (c : FSCandidate) (h : emitAtByte sd bytes j = some c) :
    c.RelAddr = j + 3 * sd.Ptrsz ∧ rawHit sd bytes 0 j = some c := by
  unfold emitAtByte at h
  have ha := (emittedAt_addr sd hp bytes 0 _ j c h (by
    unfold I63 at hn
    unfold U64
    omega)).1
  rw [Nat.zero_add] at ha
  exact ⟨ha, (emittedAt_some _ _ _ _ _ _ h).1⟩

/-- C21. For a section with pointer size 4 or 8 whose byte source is at its start and
holds the `file_size` bytes of the section, fewer than `2^63`: every candidate of the list
`findCandidatesChunked` returns has `3 * ptr_size <= RelAddr < file_size`, and its
three-word header is the one found in the section bytes at offset
`RelAddr - 3 * ptr_size`.  For the scan of one chunk buffer that holds the last `m`
bytes of the section, from section offset `off` on, followed by any left-over bytes, with
the cursor at or past the end of the section as a short or empty read leaves it: every
candidate the scan returns has its header in the section bytes, at or after `off`, with
`RelAddr < file_size`; the left-over bytes yield no candidate. -/
theorem chunked_candidates_inside (t : Nat) (sd : SectionData) (r : ReadSeeker)
    (hp : sd.Ptrsz = 4 ∨ sd.Ptrsz = 8) (hoff : r.off = 0) (hlen : r.bytes.length < I63)
    (hsize : r.bytes.length = sd.FileSize) :
    (∀ (cands : List FSCandidate) (r' : ReadSeeker),
      findCandidatesChunked t sd r = .ok (cands, r') →
      1 ≤ t ∧ ∀ c ∈ cands, 3 * sd.Ptrsz ≤ c.RelAddr ∧ c.RelAddr < sd.FileSize ∧
        rawHit sd r.bytes 0 (c.RelAddr - 3 * sd.Ptrsz) = some c) ∧
    (∀ (off m : Nat) (stale : List Byte) (R : ReadSeeker) (l : List FSCandidate)
      (R' : ReadSeeker),
      off + m = r.bytes.length → m + stale.length < I63 → R.bytes = r.bytes →
      r.bytes.length ≤ R.off →
      candidateScan sd ((r.bytes.drop off).take m ++ stale) off R = .ok (l, R') →
      ∀ c ∈ l, off + 3 * sd.Ptrsz ≤ c.RelAddr ∧ c.RelAddr < sd.FileSize ∧
        rawHit sd r.bytes 0 (c.RelAddr - 3 * sd.Ptrsz) = some c) := by
  constructor
  · intro cands r' h
    obtain ⟨ht, hc⟩ := findCandidatesChunked_eq t sd r hp hoff hlen cands r' h
    refine ⟨ht, ?_⟩
    intro c hcm
    rw [hc] at hcm
    obtain ⟨j, hj, hjc⟩ := List.mem_filterMap.mp hcm
    have hb := (chunkedOffsets_bounds _ _ _ _ _ _ hj).2
    obtain ⟨hrel, hraw⟩ := mem_emitAtByte sd hp r.bytes hlen j hb c hjc
    rw [hrel, Nat.add_sub_cancel]
    exact ⟨by omega, by omega, hraw⟩
  · intro off m stale R l R' hend hB hR hcur h
    have hmem := (candidateScan_mem sd hp _ _ _ _ _ h).2
    intro c hcm
    rw [hmem] at hcm
    obtain ⟨i, hi, hic⟩ := List.mem_filterMap.mp hcm
    have hib := (mem_scanOffsets _ _ _).mp hi
    simp only [List.length_append, List.length_take, List.length_drop] at hib
    have hmin : min m (r.bytes.length - off) = m := by omega
    rw [hmin] at hib
    have hch := emittedAt_chunk sd r.bytes hlen ((r.bytes.drop off).take m ++ stale) R hR off i
      (by
        unfold I63 at hlen hB
        unfold U64
        omega)
      (by
        intro hfit
        have hx : ((r.bytes.drop off).take m).length = m := by
          simp only [List.length_take, List.length_drop]
          omega
        rw [List.drop_append_of_le_length (by omega),
          List.take_append_of_le_length (by simp only [List.length_drop]; omega),
          List.drop_take, List.take_take, List.drop_drop]
        congr 1
        omega)
      (by intro _; exact hcur)
    rw [hch] at hic
    by_cases hin : off + i + sd.Ptrsz * 3 < r.bytes.length
    · rw [if_pos hin] at hic
      obtain ⟨hrel, hraw⟩ := mem_emitAtByte sd hp r.bytes hlen (off + i) (by omega) c hic
      rw [hrel, Nat.add_sub_cancel]
      exact ⟨by omega, by omega, hraw⟩
    · rw [if_neg hin] at hic
      simp at hic

/-- C21 at the section of 52 bytes scanned in chunks of 48: the scan returns the one
candidate, found in the first chunk.  After the second read the buffer holds four new
bytes and 44 left-over bytes with the header at buffer offset 4, which would be a raw hit
under the chunk offset 0 and is none under the chunk offset 48: the scan of this buffer
returns no candidate. -/
theorem chunked_candidates_inside_witness :
    ((staleSection.Ptrsz = 4 ∨ staleSection.Ptrsz = 8) ∧ staleReader.off = 0 ∧
      staleReader.bytes.length < I63 ∧ staleReader.bytes.length = staleSection.FileSize) ∧
    findCandidatesChunked 48 staleSection staleReader = .ok ([staleCandidate], staleReaderEnd) ∧
    (ReadSeeker.Read { bytes := staleBytes, off := 48 } (staleBytes.take 48)).2.2.1 =
      staleBuffer ∧
    rawHit staleSection staleBuffer 0 4 = some staleCandidate ∧
    rawHit staleSection staleBuffer 48 4 = none ∧
    candidateScan staleSection staleBuffer 48 staleReaderEnd = .ok ([], staleReaderEnd) ∧
    (1 ≤ 48 ∧ ∀ c ∈ [staleCandidate], 3 * staleSection.Ptrsz ≤ c.RelAddr ∧
      c.RelAddr < staleSection.FileSize ∧
      rawHit staleSection staleReader.bytes 0 (c.RelAddr - 3 * staleSection.Ptrsz) = some c) ∧
    (∀ c ∈ ([] : List FSCandidate), 48 + 3 * staleSection.Ptrsz ≤ c.RelAddr ∧
      c.RelAddr < staleSection.FileSize ∧
      rawHit staleSection staleReader.bytes 0 (c.RelAddr - 3 * staleSection.Ptrsz) = some c) :=
  ⟨⟨by decide, by rfl, by decide, by rfl⟩, by rfl, by rfl, by rfl, by rfl, by rfl,
    (chunked_candidates_inside 48 staleSection staleReader (by decide) (by rfl) (by decide)
      (by rfl)).1 [staleCandidate] staleReaderEnd (by rfl),
    (chunked_candidates_inside 48 staleSection staleReader (by decide) (by rfl) (by decide)
      (by rfl)).2 48 4 ((staleBytes.take 48).drop 4) staleReaderEnd [] staleReaderEnd
      (by rfl) (by decide) (by rfl) (by decide) (by rfl)⟩

/-! ## The entry that creates a node -/

theorem mapGet_mapSet_same (cs : List (List Byte × TreeNode)) (key : List Byte) (v : TreeNode) :
    mapGet (mapSet cs key v) key = some v := by
  induction cs with
  | nil => simp [mapSet, mapGet]
  | cons p rest ih =>
    obtain ⟨k2, c2⟩ := p
    rw [mapSet]
    by_cases hk : k2 = key
    · rw [if_pos hk, mapGet, if_pos hk]
    · rw [if_neg hk, mapGet, if_neg hk]
      exact ih

theorem mapGet_mapSet_other (cs : List (List Byte × TreeNode)) (key k : List Byte)
    (v : TreeNode) (h : key ≠ k) : mapGet (mapSet cs key v) k = mapGet cs k := by
  induction cs with
  | nil => simp [mapSet, mapGet, h]
  | cons p rest ih =>
    obtain ⟨k2, c2⟩ := p
    rw [mapSet]
    by_cases hk : k2 = key
    · rw [if_pos hk, mapGet, mapGet, hk, if_neg h, if_neg h]
    · rw [if_neg hk, mapGet, mapGet]
      by_cases hk2 : k2 = k
      · rw [if_pos hk2, if_pos hk2]
      · rw [if_neg hk2, if_neg hk2]
        exact ih

theorem nodeInfo_insertFrom (f : FSCEntry) (comps : List (List Byte)) (node : TreeNode) :
    nodeInfo (insertFrom f comps node) = nodeInfo node := by
  have h := insertFrom_fields f comps node
  unfold nodeInfo
  rw [h.1, h.2.1, h.2.2]

theorem insertFrom_nodeAt (f : FSCEntry) :
    ∀ (comps : List (List Byte)) (T : TreeNode) (path : List (List Byte)),
      (nodeAt (insertFrom f comps T) path).map nodeInfo =
        match (nodeAt T path).map nodeInfo with
        | some x => some x
        | none =>
          if startsWith (comps.filter (fun c => decide (c ≠ []))) path = true then
            some (path.getLast?.getD [], f.IsDir, f)
          else none := by
  intro comps
  induction comps with
  | nil =>
    intro T path
    rw [insertFrom]
    cases hT : (nodeAt T path).map nodeInfo with
    | some x => rfl
    | none =>
      cases path with
      | nil => simp [nodeAt] at hT
      | cons p rest => simp [startsWith]
  | cons c cs ih =>
    intro T path
    rw [insertFrom]
    by_cases hc : c = []
    · rw [if_pos hc, ih T path]
      have hfil : List.filter (fun c => decide (c ≠ [])) (c :: cs) =
          List.filter (fun c => decide (c ≠ [])) cs := by
        rw [List.filter_cons_of_neg]
        simp [hc]
      rw [hfil]
    · rw [if_neg hc]
      have hfil : List.filter (fun c => decide (c ≠ [])) (c :: cs) =
          c :: List.filter (fun c => decide (c ≠ [])) cs := by
        rw [List.filter_cons_of_pos]
        simp [hc]
      rw [hfil]
      obtain ⟨name, isDir, entry, children⟩ := T
      simp only [TreeNode.Children, TreeNode.Name, TreeNode.IsDir, TreeNode.Entry]
      cases path with
      | nil =>
        simp only [nodeAt, Option.map_some']
        rfl
      | cons p rest =>
        by_cases hcp : c = p
        · subst hcp
          have hsw : startsWith (c :: List.filter (fun c => decide (c ≠ [])) cs) (c :: rest) =
              startsWith (List.filter (fun c => decide (c ≠ [])) cs) rest := by
            simp [startsWith]
          have hlast : ∀ q rest2, ((c :: q :: rest2).getLast?.getD ([] : List Byte)) =
              (q :: rest2).getLast?.getD [] := by
            intro q rest2
            rw [List.getLast?_cons_cons]
          rw [hsw, nodeAt, nodeAt]
          simp only [TreeNode.Children]
          rw [mapGet_mapSet_same]
          simp only
          rw [ih _ rest]
          cases hg : mapGet children c with
          | some ch =>
            simp only
            cases hch : (nodeAt ch rest).map nodeInfo with
            | some x => rfl
            | none =>
              cases rest with
              | nil => simp [nodeAt] at hch
              | cons q rest2 =>
                simp only
                rw [hlast]
          | none =>
            simp only
            cases rest with
            | nil =>
              simp [nodeAt, nodeInfo, TreeNode.Name, TreeNode.IsDir, TreeNode.Entry, startsWith]
            | cons q rest2 =>
              have hn : nodeAt (TreeNode.mk c f.IsDir f []) (q :: rest2) = none := by
                simp [nodeAt, TreeNode.Children, mapGet]
              rw [hn, hlast]
        · have hsw : startsWith (c :: List.filter (fun c => decide (c ≠ [])) cs) (p :: rest) =
              false := by
            simp [startsWith, hcp]
          rw [hsw, nodeAt, nodeAt]
          simp only [TreeNode.Children]
          rw [mapGet_mapSet_other _ _ _ _ hcp]
          cases mapGet children p with
          | none => rfl
          | some ch =>
            simp only
            cases (nodeAt ch rest).map nodeInfo with
            | some x => rfl
            | none => simp

theorem nodeAt_fresh (path : List (List Byte)) (h : path ≠ []) :
    nodeAt NewFileTree.Root path = none := by
  cases path with
  | nil => exact absurd rfl h
  | cons p rest => rfl

theorem creator_append (es : List FSCEntry) (g : FSCEntry) (path : List (List Byte)) :
    creator (es ++ [g]) path =
      match creator es path with
      | some f => some f
      | none => if startsWith (components g) path = true then some g else none := by
  unfold creator
  rw [List.find?_append]
  cases List.find? (fun f => startsWith (components f) path) es with
  | some f => rfl
  | none =>
    simp only [Option.none_or, List.find?_cons, List.find?_nil]
    cases startsWith (components g) path <;> rfl

theorem insert_nodeAt (T : FileTree) (es : List FSCEntry) (g : FSCEntry)
    (h : ∀ path, path ≠ [] → (nodeAt T.Root path).map nodeInfo =
      (creator es path).map (fun f => (path.getLast?.getD [], f.IsDir, f))) :
    ∀ path, path ≠ [] → (nodeAt (T.Insert g).Root path).map nodeInfo =
      (creator (es ++ [g]) path).map (fun f => (path.getLast?.getD [], f.IsDir, f)) := by
  intro path hpath
  unfold FileTree.Insert
  simp only
  rw [insertFrom_nodeAt, h path hpath, creator_append]
  unfold components
  cases creator es path with
  | some f => rfl
  | none =>
    simp only [Option.map_none']
    split <;> rfl

theorem foldl_Insert_nodeAt :
    ∀ (l es : List FSCEntry) (T : FileTree),
      (∀ path, path ≠ [] → (nodeAt T.Root path).map nodeInfo =
        (creator es path).map (fun f => (path.getLast?.getD [], f.IsDir, f))) →
      ∀ path, path ≠ [] → (nodeAt (l.foldl FileTree.Insert T).Root path).map nodeInfo =
        (creator (es ++ l) path).map (fun f => (path.getLast?.getD [], f.IsDir, f)) := by
  intro l
  induction l with
  | nil =>
    intro es T h
    rw [List.append_nil]
    exact h
  | cons g gs ih =>
    intro es T h
    rw [List.foldl_cons]
    have := ih (es ++ [g]) (T.Insert g) (insert_nodeAt T es g h)
    rw [List.append_assoc] at this
    exact this

theorem treeOf_nodeAt (entries : List FSCEntry) (path : List (List Byte)) (hpath : path ≠ []) :
    (nodeAt (treeOf entries).Root path).map nodeInfo =
      (creator entries path).map (fun f => (path.getLast?.getD [], f.IsDir, f)) := by
  have h := foldl_Insert_nodeAt entries [] NewFileTree (by
    intro p hp
    rw [nodeAt_fresh p hp]
    rfl) path hpath
  rw [List.nil_append] at h
  exact h

/-! ### The listing with paths -/

theorem insertByKey_mapPair {β γ : Type} (G : List Byte × β → γ) (p : List Byte × β)
    (l : List (List Byte × β)) :
    (insertByKey p l).map (fun q => (q.1, G q)) =
      insertByKey (p.1, G p) (l.map (fun q => (q.1, G q))) := by
  induction l with
  | nil => rfl
  | cons x xs ih =>
    simp only [insertByKey, List.map_cons]
    by_cases h : strLess x.1 p.1 = true
    · rw [if_pos h, if_pos h, List.map_cons, ih]
    · rw [if_neg h, if_neg h]
      rfl

theorem sortByKey_mapPair {β γ : Type} (G : List Byte × β → γ) (l : List (List Byte × β)) :
    (sortByKey l).map (fun q => (q.1, G q)) = sortByKey (l.map (fun q => (q.1, G q))) := by
  induction l with
  | nil => rfl
  | cons x xs ih =>
    unfold sortByKey at ih ⊢
    rw [List.foldr_cons, insertByKey_mapPair, ih]
    rfl

theorem subtreePaths_eq (cs : List (List Byte × TreeNode)) (path : List (List Byte)) :
    TreeNode.preorderPaths.subtreePaths cs path =
      cs.map (fun p => (p.1, p.2.preorderPaths (path ++ [p.1]))) := by
  induction cs with
  | nil => rfl
  | cons p rest ih =>
    obtain ⟨k, c⟩ := p
    rw [TreeNode.preorderPaths.subtreePaths, ih]
    rfl

theorem preorderPaths_children (node : TreeNode) (path : List (List Byte)) :
    node.preorderPaths path = (path, node) ::
      ((sortByKey node.Children).map (fun q => q.2.preorderPaths (path ++ [q.1]))).flatten := by
  cases node with
  | mk name isDir entry children =>
    rw [TreeNode.preorderPaths, subtreePaths_eq,
      ← sortByKey_mapPair (fun q : List Byte × TreeNode => q.2.preorderPaths (path ++ [q.1])),
      List.map_map]
    rfl

theorem preorder_of_paths :
    ∀ (n : Nat) (node : TreeNode) (path : List (List Byte)), node.height ≤ n →
      node.preorder path.length =
        (node.preorderPaths path).map (fun q => (q.1.length, q.2)) := by
  intro n
  induction n with
  | zero =>
    intro node path h
    have := height_pos node
    omega
  | succ n ih =>
    intro node path hh
    rw [preorder_children, preorderPaths_children, List.map_cons, List.map_flatten,
      List.map_map]
    congr 2
    apply List.map_congr_left
    intro q hq
    have hqc : (q.1, q.2) ∈ node.Children := (sortByKey_perm node.Children).subset hq
    have hlt := height_lt node q.1 q.2 hqc
    have := ih q.2 (path ++ [q.1]) (by omega)
    simp only [List.length_append, List.length_singleton] at this
    simp only [Function.comp_apply]
    exact this

theorem paths_nodeAt (E : FSCEntry → Prop) :
    ∀ (n : Nat) (node : TreeNode) (path : List (List Byte)), node.height ≤ n →
      GoodTree E node →
      ∀ q ∈ ((sortByKey node.Children).map
          (fun q => q.2.preorderPaths (path ++ [q.1]))).flatten,
        ∃ rel, rel ≠ [] ∧ q.1 = path ++ rel ∧ nodeAt node rel = some q.2 := by
  intro n
  induction n with
  | zero =>
    intro node path h
    have := height_pos node
    omega
  | succ n ih =>
    intro node path hh hgood q hq
    obtain ⟨l, hl, hql⟩ := List.mem_flatten.mp hq
    obtain ⟨kc, hkc, hkl⟩ := List.mem_map.mp hl
    have hmem : (kc.1, kc.2) ∈ node.Children := (sortByKey_perm node.Children).subset hkc
    have hlt := height_lt node kc.1 kc.2 hmem
    have hc := hgood.child kc.1 kc.2 hmem
    have hget := mapGet_nodup node.Children hgood.keys kc.1 kc.2 hmem
    rw [← hkl, preorderPaths_children] at hql
    rcases List.mem_cons.mp hql with h1 | h1
    · refine ⟨[kc.1], by simp, by rw [h1], ?_⟩
      rw [nodeAt, hget, h1]
      rfl
    · obtain ⟨rel, hrel, hpath, hnode⟩ := ih kc.2 (path ++ [kc.1]) (by omega) hc.1 q h1
      refine ⟨kc.1 :: rel, by simp, ?_, ?_⟩
      · rw [hpath, List.append_assoc]
        rfl
      · rw [nodeAt, hget]
        exact hnode

theorem startsWith_mem : ∀ (l path : List (List Byte)), startsWith l path = true →
    ∀ x ∈ path, x ∈ l := by
  intro l
  induction l with
  | nil =>
    intro path h x hx
    cases path with
    | nil => simp at hx
    | cons p rest => simp [startsWith] at h
  | cons a l ih =>
    intro path h x hx
    cases path with
    | nil => simp at hx
    | cons p rest =>
      simp only [startsWith, Bool.and_eq_true, decide_eq_true_eq] at h
      rcases List.mem_cons.mp hx with h1 | h1
      · rw [h1, ← h.1]
        exact List.mem_cons_self _ _
      · exact List.mem_cons_of_mem _ (ih rest h.2 x h1)

theorem creator_some (entries : List FSCEntry) (path : List (List Byte)) (f : FSCEntry)
    (h : creator entries path = some f) :
    f ∈ entries ∧ startsWith (components f) path = true := by
  unfold creator at h
  exact ⟨List.mem_of_find?_eq_some h, by simpa using List.find?_some h⟩

theorem treeOf_node (entries : List FSCEntry) (path : List (List Byte)) (hpath : path ≠ [])
    (node : TreeNode) (h : nodeAt (treeOf entries).Root path = some node) :
    creator entries path = some node.Entry ∧ node.IsDir = node.Entry.IsDir ∧
      path.getLast? = some node.Name ∧ node.Name ≠ [47] := by
  have hJ := treeOf_nodeAt entries path hpath
  rw [h] at hJ
  cases hc : creator entries path with
  | none => rw [hc] at hJ; simp at hJ
  | some f =>
    rw [hc] at hJ
    simp only [Option.map_some', Option.some.injEq, nodeInfo, Prod.mk.injEq] at hJ
    obtain ⟨hname, hdir, hentry⟩ := hJ
    have hlast : path.getLast? = some node.Name := by
      rw [hname]
      cases hl : path.getLast? with
      | none =>
        rw [List.getLast?_eq_none_iff] at hl
        exact absurd hl hpath
      | some x => rfl
    refine ⟨by rw [hentry], by rw [hdir, hentry], hlast, ?_⟩
    have hmem : node.Name ∈ path := List.mem_of_getLast?_eq_some hlast
    have hsw := (creator_some entries path f hc).2
    have h2 := startsWith_mem _ _ hsw _ hmem
    unfold components at h2
    have h3 := (List.mem_filter.mp h2).1
    intro he
    apply splitSlash_no_slash f.Name _ h3
    rw [he]
    simp

/-! ## C18: the slash after a directory (amended) -/

/-- C18 (amended). For every list of entries inserted, in the order of the list, into a
fresh tree, and fuel for at least the height of the tree: the pre-order listing of the
tree with paths starts with the root, and `PrintTreeSorted(Root, "")` writes the line `/`
for the root and then, for every other node of the listing, one space per component of
its path, the name of the node, a slash exactly when the entry that created the node is
a directory entry, and the end of the line.  The entry that created the node, stored in
the node, is the first entry of the list whose name, split at the slashes with empty
components left out, starts with the path of the node; the node is the one reached from
the root along its path, its name is the last component of the path, and it has the
directory flag of that entry. -/
theorem printTreeSorted_slash_iff (entries : List FSCEntry) (fuel : Nat)
    (hfuel : (treeOf entries).Root.height ≤ fuel) :
    ∃ rest, (treeOf entries).Root.preorderPaths [] = ([], (treeOf entries).Root) :: rest ∧
      PrintTreeSorted fuel (treeOf entries).Root [] [] =
        .ok ([47, 10] ++ (rest.map (fun q => List.replicate q.1.length 32 ++ q.2.Name ++
          (if q.2.Entry.IsDir then [47] else []) ++ [10])).flatten) ∧
      ∀ q ∈ rest, q.1 ≠ [] ∧ nodeAt (treeOf entries).Root q.1 = some q.2 ∧
        q.1.getLast? = some q.2.Name ∧
        creator entries q.1 = some q.2.Entry ∧ q.2.Entry ∈ entries ∧
        q.2.IsDir = q.2.Entry.IsDir := by
  obtain ⟨hgood, hname, hdir⟩ := treeOf_good entries
  have hpp := preorderPaths_children (treeOf entries).Root []
  have hfacts : ∀ q ∈ ((sortByKey (treeOf entries).Root.Children).map
      (fun q => q.2.preorderPaths ([] ++ [q.1]))).flatten,
      q.1 ≠ [] ∧ nodeAt (treeOf entries).Root q.1 = some q.2 ∧
        creator entries q.1 = some q.2.Entry ∧ q.2.IsDir = q.2.Entry.IsDir ∧
        q.1.getLast? = some q.2.Name ∧ q.2.Name ≠ [47] := by
    intro q hq
    obtain ⟨rel, hrel, hpath, hnode⟩ :=
      paths_nodeAt _ _ _ [] (Nat.le_refl _) hgood q hq
    rw [List.nil_append] at hpath
    rw [← hpath] at hrel hnode
    exact ⟨hrel, hnode, treeOf_node entries q.1 hrel q.2 hnode⟩
  refine ⟨_, hpp, ?_, ?_⟩
  · have h := PrintTreeSorted_eq _ fuel _ 0 [] hgood hfuel
    have hpre := preorder_of_paths _ (treeOf entries).Root [] (Nat.le_refl _)
    simp only [List.length_nil] at hpre
    rw [hpre, hpp, List.map_cons, listingBytes_cons] at h
    simp only [List.replicate_zero, List.nil_append, List.length_nil] at h
    rw [h]
    have hl0 : nodeLine 0 (treeOf entries).Root = [47, 10] := by
      unfold nodeLine
      rw [hname, hdir]
      rfl
    rw [hl0]
    congr 2
    unfold listingBytes
    rw [List.map_map]
    congr 1
    apply List.map_congr_left
    intro q hq
    have hf := hfacts q hq
    simp only [Function.comp_apply]
    unfold nodeLine
    rw [hf.2.2.2.1]
    by_cases hd : q.2.Entry.IsDir = true
    · simp [hd, hf.2.2.2.2.2]
    · simp [hd]
  · intro q hq
    have hf := hfacts q hq
    exact ⟨hf.1, hf.2.1, hf.2.2.2.2.1, hf.2.2.1, (creator_some _ _ _ hf.2.2.1).1,
      hf.2.2.2.1⟩

/-- C18 (amended) for the entries `assets/a.txt`, `assets/`: the tree has three levels;
the first entry whose path starts with `assets` is the file entry `assets/a.txt`, so the
node `assets` carries this entry and is listed without a slash: the output is `/`,
` assets`, `  a.txt`. -/
theorem printTreeSorted_slash_iff_witness :
    (treeOf [namedEntry "assets/a.txt", namedEntry "assets/"]).Root.height ≤ 3 ∧
    creator [namedEntry "assets/a.txt", namedEntry "assets/"] [strBytes "assets"] =
      some (namedEntry "assets/a.txt") ∧
    (namedEntry "assets/a.txt").IsDir = false ∧
    PrintTreeSorted 3 (treeOf [namedEntry "assets/a.txt", namedEntry "assets/"]).Root [] [] =
      .ok (strBytes "/\n assets\n  a.txt\n") ∧
    ∃ rest, (treeOf [namedEntry "assets/a.txt", namedEntry "assets/"]).Root.preorderPaths [] =
        ([], (treeOf [namedEntry "assets/a.txt", namedEntry "assets/"]).Root) :: rest ∧
      PrintTreeSorted 3 (treeOf [namedEntry "assets/a.txt", namedEntry "assets/"]).Root [] [] =
        .ok ([47, 10] ++ (rest.map (fun q => List.replicate q.1.length 32 ++ q.2.Name ++
          (if q.2.Entry.IsDir then [47] else []) ++ [10])).flatten) ∧
      ∀ q ∈ rest, q.1 ≠ [] ∧
        nodeAt (treeOf [namedEntry "assets/a.txt", namedEntry "assets/"]).Root q.1 =
          some q.2 ∧
        q.1.getLast? = some q.2.Name ∧
        creator [namedEntry "assets/a.txt", namedEntry "assets/"] q.1 = some q.2.Entry ∧
        q.2.Entry ∈ [namedEntry "assets/a.txt", namedEntry "assets/"] ∧
        q.2.IsDir = q.2.Entry.IsDir :=
  ⟨by decide, by rfl, by rfl, by rfl,
    printTreeSorted_slash_iff [namedEntry "assets/a.txt", namedEntry "assets/"] 3 (by decide)⟩

end Gorip
